import Mathlib

/-! # json_eval: a shallow embedding of the document parser and the expression evaluator

The development follows `src/json.cpp` and `src/evaluator.cpp`.

* A `std::string` is a `List Char`.
* `double` arithmetic is not part of the repository: it is the parameter `Double D`, and every
  theorem about the evaluator holds for every implementation of that arithmetic.  `XDouble`
  is an executable instance (exact arithmetic on rationals extended by the infinities and
  NaN) on which concrete expressions are run.
* The text that `operator<<` writes for a `double` is the parameter `DoubleOutput D`, with an
  executable instance for `XDouble` that follows the `%g` conversion with six significant
  digits.
* A C++ exception is the `Except.error` branch of the result; the exception classes and the
  message of every `throw` site are kept, together with the error kind the specification
  gives to that site.
* The recursion of `evaluate_expression` and of the parser is by fuel; `evaluate` and `parse`
  supply the length of their input, which is shown to be enough.
-/

namespace JsonEval

/-! ## Numbers -/

/-- The operations on `double` used by the program. -/
class Double (D : Type) where
  /-- The literal `0.0` (also the conversion target of `r == 0`). -/
  zero : D
  /-- The value `std::numeric_limits<double>::infinity()`. -/
  infinity : D
  /-- Unary minus. -/
  neg : D → D
  add : D → D → D
  sub : D → D → D
  mul : D → D → D
  div : D → D → D
  /-- The function `std::pow`. -/
  pow : D → D → D
  /-- The comparison `a < b`. -/
  lt : D → D → Bool
  /-- The comparison `a == b`. -/
  eq : D → D → Bool
  /-- The conversion `static_cast<int>(d)`: the value truncated toward zero when that is
  representable in `int`; `none` when it is not (the behaviour is then undefined). -/
  toInt : D → Option Int
  /-- The conversion of an `int` to `double`. -/
  ofInt : Int → D
  /-- The conversion `static_cast<double>(n)` of a `size_t`. -/
  ofSize : Nat → D
  /-- The function `std::abs`. -/
  abs : D → D
  /-- The function `std::round`. -/
  round : D → D
  /-- The function `std::stod` on a token of the number grammar; `none` when it throws
  `std::out_of_range`. -/
  stod : List Char → Option D

/-- The function `std::min(a, b)`, which is `(b < a) ? b : a`. -/
def Double.min {D : Type} [Double D] (a b : D) : D := if Double.lt b a then b else a

/-- The function `std::max(a, b)`, which is `(a < b) ? b : a`. -/
def Double.max {D : Type} [Double D] (a b : D) : D := if Double.lt a b then b else a

/-- The conversion of a `double` to `bool`: true unless the value compares equal to zero. -/
def Double.toBool {D : Type} [Double D] (a : D) : Bool := !(Double.eq a (Double.zero : D))

/-! ## Errors -/

/-- The error kinds of the specification (section 7). -/
inductive ErrorKind where
  | SyntaxError
  | InvalidNumber
  | InvalidEscape
  | UnterminatedString
  | TypeMismatch
  | DivisionByZero
  | KeyNotFound
  | InvalidAccess
  | InvalidIndex
  | IndexOutOfBounds
  | ArityError
  | EmptyInput
  | UnknownFunction
  deriving DecidableEq, Repr

/-- The exceptions that leave the program's functions.  `JSONError` and `EvalError` are the
two classes of the repository, with the message of the `throw` site and the kind the
specification gives it; `out_of_range` and `invalid_argument` are the standard exceptions of
`std::stoul` and `std::stod`; `undefined_behavior` marks an operation whose behaviour the
C++ standard leaves undefined (a `double` to `int` conversion out of range, an integer
remainder by zero); `fuel_exhausted` is the only value that is not a C++ outcome (the
recursion bound of this embedding was reached). -/
inductive Exception where
  | JSONError (kind : ErrorKind) (message : List Char)
  | EvalError (kind : ErrorKind) (message : List Char)
  | out_of_range
  | invalid_argument
  | undefined_behavior
  | fuel_exhausted
  deriving DecidableEq, Repr

/-- The kind of an exception of the repository, if it is one. -/
def Exception.kind? : Exception → Option ErrorKind
  | .JSONError k _ => some k
  | .EvalError k _ => some k
  | _ => none

/-! ## The value model (`json.h`) -/

/-- The class `JSONValue`: a variant over null, bool, double, string, object and array.  A
`JSONObject` (`std::map<std::string, JSONValue>`) is the list of its entries in iteration
order; a `JSONArray` (`std::vector<JSONValue>`) is a list. -/
inductive JSONValue (D : Type) where
  | null : JSONValue D
  | bool (b : Bool) : JSONValue D
  | number (d : D) : JSONValue D
  | string (s : List Char) : JSONValue D
  | object (o : List (List Char × JSONValue D)) : JSONValue D
  | array (a : List (JSONValue D)) : JSONValue D
  deriving Repr

/-! ### Equality of values is decidable -/

mutual

/-- Structural comparison of two values. -/
def JSONValue.decEq {D : Type} [DecidableEq D] : (x y : JSONValue D) → Decidable (x = y)
  | .null, .null => isTrue rfl
  | .bool a, .bool b =>
      if h : a = b then isTrue (by rw [h]) else isFalse (fun e => h (by injection e))
  | .number a, .number b =>
      if h : a = b then isTrue (by rw [h]) else isFalse (fun e => h (by injection e))
  | .string a, .string b =>
      if h : a = b then isTrue (by rw [h]) else isFalse (fun e => h (by injection e))
  | .object a, .object b =>
      match JSONValue.decEqObject a b with
      | isTrue h => isTrue (by rw [h])
      | isFalse h => isFalse (fun e => h (by injection e))
  | .array a, .array b =>
      match JSONValue.decEqArray a b with
      | isTrue h => isTrue (by rw [h])
      | isFalse h => isFalse (fun e => h (by injection e))
  | .null, .bool _ | .null, .number _ | .null, .string _ | .null, .object _ | .null, .array _
  | .bool _, .null | .bool _, .number _ | .bool _, .string _ | .bool _, .object _
  | .bool _, .array _ | .number _, .null | .number _, .bool _ | .number _, .string _
  | .number _, .object _ | .number _, .array _ | .string _, .null | .string _, .bool _
  | .string _, .number _ | .string _, .object _ | .string _, .array _ | .object _, .null
  | .object _, .bool _ | .object _, .number _ | .object _, .string _ | .object _, .array _
  | .array _, .null | .array _, .bool _ | .array _, .number _ | .array _, .string _
  | .array _, .object _ =>
      isFalse (fun e => by cases e)

/-- Structural comparison of two arrays. -/
def JSONValue.decEqArray {D : Type} [DecidableEq D] :
    (x y : List (JSONValue D)) → Decidable (x = y)
  | [], [] => isTrue rfl
  | [], _ :: _ => isFalse (fun e => by cases e)
  | _ :: _, [] => isFalse (fun e => by cases e)
  | a :: as, b :: bs =>
      match JSONValue.decEq a b, JSONValue.decEqArray as bs with
      | isTrue h, isTrue hs => isTrue (by rw [h, hs])
      | isFalse h, _ => isFalse (fun e => h (by injection e))
      | _, isFalse hs => isFalse (fun e => hs (by injection e))

/-- Structural comparison of the entries of two objects. -/
def JSONValue.decEqObject {D : Type} [DecidableEq D] :
    (x y : List (List Char × JSONValue D)) → Decidable (x = y)
  | [], [] => isTrue rfl
  | [], _ :: _ => isFalse (fun e => by cases e)
  | _ :: _, [] => isFalse (fun e => by cases e)
  | (k, a) :: as, (l, b) :: bs =>
      if hk : k = l then
        match JSONValue.decEq a b, JSONValue.decEqObject as bs with
        | isTrue h, isTrue hs => isTrue (by rw [hk, h, hs])
        | isFalse h, _ => isFalse (fun e => h (by injection e with e1 e2; injection e1))
        | _, isFalse hs => isFalse (fun e => hs (by injection e))
      else isFalse (fun e => hk (by injection e with e1 e2; injection e1))

end

instance {D : Type} [DecidableEq D] : DecidableEq (JSONValue D) := JSONValue.decEq

/-- The entries of a `std::map<std::string, JSONValue>`. -/
abbrev JSONObject (D : Type) := List (List Char × JSONValue D)

/-- The elements of a `std::vector<JSONValue>`. -/
abbrev JSONArray (D : Type) := List (JSONValue D)

/-- The result of a function that returns a `T` or throws. -/
abbrev Result (T : Type) := Except Exception T

/-- Structural comparison of two results. -/
def Result.decEq {T : Type} [DecidableEq T] : (x y : Result T) → Decidable (x = y)
  | .ok a, .ok b =>
      if h : a = b then isTrue (by rw [h]) else isFalse (fun e => h (by injection e))
  | .error a, .error b =>
      if h : a = b then isTrue (by rw [h]) else isFalse (fun e => h (by injection e))
  | .ok _, .error _ | .error _, .ok _ => isFalse (fun e => by cases e)

instance {T : Type} [DecidableEq T] : DecidableEq (Result T) := Result.decEq

namespace JSONValue

variable {D : Type}

def is_null : JSONValue D → Bool
  | .null => true
  | _ => false

def is_bool : JSONValue D → Bool
  | .bool _ => true
  | _ => false

def is_number : JSONValue D → Bool
  | .number _ => true
  | _ => false

def is_string : JSONValue D → Bool
  | .string _ => true
  | _ => false

def is_object : JSONValue D → Bool
  | .object _ => true
  | _ => false

def is_array : JSONValue D → Bool
  | .array _ => true
  | _ => false

def as_bool : JSONValue D → Result Bool
  | .bool b => .ok b
  | _ => .error (.JSONError .TypeMismatch "Value is not a boolean".toList)

def as_number : JSONValue D → Result D
  | .number d => .ok d
  | _ => .error (.JSONError .TypeMismatch "Value is not a number".toList)

def as_string : JSONValue D → Result (List Char)
  | .string s => .ok s
  | _ => .error (.JSONError .TypeMismatch "Value is not a string".toList)

def as_object : JSONValue D → Result (JSONObject D)
  | .object o => .ok o
  | _ => .error (.JSONError .TypeMismatch "Value is not an object".toList)

def as_array : JSONValue D → Result (JSONArray D)
  | .array a => .ok a
  | _ => .error (.JSONError .TypeMismatch "Value is not an array".toList)

end JSONValue

/-! ## `std::string` and `std::map` operations -/

/-- The comparison `a < b` of two `std::string`s (lexicographic on the characters). -/
def string_lt : List Char → List Char → Bool
  | [], [] => false
  | [], _ :: _ => true
  | _ :: _, [] => false
  | a :: as, b :: bs => if a.toNat < b.toNat then true else if b.toNat < a.toNat then false
      else string_lt as bs

/-- The lookup `obj.find(key)` of a `std::map`: the entry with that key, if any. -/
def JSONObject.find {D : Type} : JSONObject D → List Char → Option (JSONValue D)
  | [], _ => none
  | (k, v) :: rest, key => if k = key then some v else JSONObject.find rest key

/-- The assignment `object[key] = val` of a `std::map`: the value of an existing key is
replaced, a new key is inserted at its place in the key order. -/
def JSONObject.assign {D : Type} : JSONObject D → List Char → JSONValue D → JSONObject D
  | [], key, val => [(key, val)]
  | (k, v) :: rest, key, val =>
      if k = key then (k, val) :: rest
      else if string_lt key k then (key, val) :: (k, v) :: rest
      else (k, v) :: JSONObject.assign rest key val

/-- The call `s.substr(pos, len)`. -/
def substr (s : List Char) (pos len : Nat) : List Char := (s.drop pos).take len

/-- The call `s.find(c)` for a character: the first position of `c`; `none` is `npos`. -/
def find_char : List Char → Char → Option Nat
  | [], _ => none
  | a :: as, c => if a = c then some 0 else (find_char as c).map (· + 1)

/-- The call `s.find(pat)` for a string: the first position at which `pat` starts. -/
def find_str : List Char → List Char → Option Nat
  | [], pat => if pat = [] then some 0 else none
  | a :: as, pat =>
      if pat.isPrefixOf (a :: as) then some 0 else (find_str as pat).map (· + 1)

/-- The call `s.find_first_of(chars)`: the first position of a character of `chars`. -/
def find_first_of : List Char → List Char → Option Nat
  | [], _ => none
  | a :: as, chars => if a ∈ chars then some 0 else (find_first_of as chars).map (· + 1)

/-- The characters `" \t\n\r"` removed by the evaluator at both ends of an expression. -/
def is_trim_char (c : Char) : Bool := c = ' ' || c = '\t' || c = '\n' || c = '\r'

/-- The two `erase` calls at the head of `evaluate_expression`: everything before the first
character that is not in `" \t\n\r"` is removed (the whole text if there is none), then
everything after the last such character. -/
def trim (expr : List Char) : List Char :=
  ((expr.dropWhile is_trim_char).reverse.dropWhile is_trim_char).reverse

/-- The function `std::isspace` in the "C" locale. -/
def isspace (c : Char) : Bool :=
  c = ' ' || c = '\t' || c = '\n' || c = '\x0b' || c = '\x0c' || c = '\r'

/-- The function `std::isdigit`. -/
def isdigit (c : Char) : Bool := '0'.toNat ≤ c.toNat && c.toNat ≤ '9'.toNat

/-- The function `std::isalnum` in the "C" locale. -/
def isalnum (c : Char) : Bool :=
  isdigit c || ('a'.toNat ≤ c.toNat && c.toNat ≤ 'z'.toNat)
    || ('A'.toNat ≤ c.toNat && c.toNat ≤ 'Z'.toNat)

/-- The characters of a path identifier: `std::isalnum(c) || c == '_'`. -/
def is_ident_char (c : Char) : Bool := isalnum c || c = '_'

/-- The value of a run of decimal digits, most significant first, continuing from `acc`. -/
def digits_value : Nat → List Char → Nat
  | acc, [] => acc
  | acc, c :: cs => digits_value (acc * 10 + (c.toNat - '0'.toNat)) cs

/-- The largest `unsigned long`. -/
def ULONG_MAX : Nat := 2 ^ 64 - 1

/-- The optional sign read by `std::stoul`: whether it is a minus, and the text after it. -/
def stoul_sign : List Char → Bool × List Char
  | '-' :: r => (true, r)
  | '+' :: r => (false, r)
  | s => (false, s)

/-- The call `std::stoul(str)` in base 10: leading white space is skipped, a sign is
accepted, then the longest run of digits is converted.  It throws `std::invalid_argument`
when there is no digit and `std::out_of_range` when the value exceeds `ULONG_MAX`; with a
minus sign the value is negated in `unsigned long`. -/
def stoul (str : List Char) : Result Nat :=
  let sign := stoul_sign (str.dropWhile isspace)
  let ds := sign.2.takeWhile isdigit
  if ds = [] then .error .invalid_argument
  else
    let v := digits_value 0 ds
    if v > ULONG_MAX then .error .out_of_range
    else .ok (if sign.1 then (ULONG_MAX + 1 - v) % (ULONG_MAX + 1) else v)

/-! ## The evaluator (`evaluator.cpp`) -/

section Evaluator

variable {D : Type} [Double D]

/-- The loop of `Evaluator::parse_arguments`: `cur` is `args_str.substr(start, i - start)`,
the piece read since the last split. -/
def parse_arguments_loop : List Char → Int → List Char → List (List Char)
  | [], _, cur => [cur]
  | c :: cs, depth, cur =>
      if c = '(' then parse_arguments_loop cs (depth + 1) (cur ++ [c])
      else if c = ')' then parse_arguments_loop cs (depth - 1) (cur ++ [c])
      else if c = ',' ∧ depth = 0 then cur :: parse_arguments_loop cs depth []
      else parse_arguments_loop cs depth (cur ++ [c])

/-- The function `Evaluator::parse_arguments`. -/
def parse_arguments (args_str : List Char) : List (List Char) :=
  parse_arguments_loop args_str 0 []

/-- The loop of `Evaluator::find_matching_bracket` from position `i` on. -/
def find_matching_bracket_loop : List Char → Int → Nat → Result Nat
  | [], _, _ => .error (.EvalError .SyntaxError "Mismatched parentheses".toList)
  | c :: cs, depth, i =>
      let depth := if c = '(' then depth + 1 else if c = ')' then depth - 1 else depth
      if depth = 0 then .ok i else find_matching_bracket_loop cs depth (i + 1)

/-- The function `Evaluator::find_matching_bracket`. -/
def find_matching_bracket (s : List Char) (pos : Nat) : Result Nat :=
  find_matching_bracket_loop (s.drop (pos + 1)) 1 (pos + 1)

/-- The function `Evaluator::get_value`. -/
def get_value (current : JSONValue D) (key : List Char) : Result (JSONValue D) :=
  match current with
  | .object obj =>
      match JSONObject.find obj key with
      | some v => .ok v
      | none => .error (.EvalError .KeyNotFound ("Key not found: ".toList ++ key))
  | .array arr =>
      match stoul key with
      | .ok index =>
          match arr.get? index with
          | some v => .ok v
          | none =>
              .error (.EvalError .IndexOutOfBounds ("Array index out of bounds: ".toList ++ key))
      | .error .invalid_argument =>
          .error (.EvalError .InvalidIndex ("Invalid array index: ".toList ++ key))
      | .error .out_of_range =>
          .error (.EvalError .IndexOutOfBounds ("Array index out of range: ".toList ++ key))
      | .error e => .error e
  | _ => .error (.EvalError .InvalidAccess "Current value is not an object or array".toList)

/-- The `while (pos < path.size())` loop of `Evaluator::evaluate_json_path`; `rest` is
`path.substr(pos)`.  Every turn reads at least one character, so `rest.length + 1` turns
always suffice. -/
def evaluate_json_path_loop : Nat → JSONValue D → List Char → Result (JSONValue D)
  | 0, _, _ => .error .fuel_exhausted
  | fuel + 1, current, rest =>
      match rest with
      | [] => .ok current
      | c :: r =>
          if c = '.' then
            let key := r.takeWhile is_ident_char
            if !current.is_object then
              .error (.EvalError .InvalidAccess
                ("Invalid key access on non-object type: ".toList ++ key))
            else
              match get_value current key with
              | .ok v => evaluate_json_path_loop fuel v (r.dropWhile is_ident_char)
              | .error e => .error e
          else if c = '[' then
            let index_str := r.takeWhile (· ≠ ']')
            match r.dropWhile (· ≠ ']') with
            | [] => .error (.EvalError .SyntaxError "Expected ']' for array index access.".toList)
            | _ :: r2 =>
                if index_str ≠ [] ∧ index_str.all isdigit then
                  match stoul index_str with
                  | .error e => .error e
                  | .ok index =>
                      match current with
                      | .array arr =>
                          match arr.get? index with
                          | some v => evaluate_json_path_loop fuel v r2
                          | none =>
                              .error (.EvalError .IndexOutOfBounds
                                ("Array index out of bounds: ".toList ++ index_str))
                      | _ =>
                          .error (.EvalError .InvalidAccess
                            "Invalid array index access on non-array type.".toList)
                else
                  .error (.EvalError .InvalidIndex
                    ("Invalid array index: ".toList ++ index_str
                      ++ " (must be an integer).".toList))
          else
            .error (.EvalError .SyntaxError
              ("Unexpected syntax or character in path: ".toList ++ (c :: r)))

/-- The function `Evaluator::evaluate_json_path`. -/
def evaluate_json_path (root : JSONValue D) (path : List Char) : Result (JSONValue D) :=
  let key := path.takeWhile is_ident_char
  match get_value root key with
  | .error e => .error e
  | .ok current =>
      let rest := path.dropWhile is_ident_char
      evaluate_json_path_loop (rest.length + 1) current rest

/-- The inner `for (const auto& item : val.as_array())` loop of `min`. -/
def min_items : D → List (JSONValue D) → Result D
  | min_value, [] => .ok min_value
  | min_value, item :: items =>
      match item with
      | .number d => min_items (Double.min min_value d) items
      | _ => .error (.EvalError .TypeMismatch "min requires numeric values".toList)

/-- The collection loop of `min`: the futures are read in argument order, and `future.get()`
returns the value of `evaluate_expression(arg)` or rethrows its exception. -/
def min_collect (ev : List Char → Result (JSONValue D)) : D → List (List Char) → Result D
  | min_value, [] => .ok min_value
  | min_value, arg :: args =>
      match ev arg with
      | .error e => .error e
      | .ok (.array a) =>
          match min_items min_value a with
          | .error e => .error e
          | .ok m => min_collect ev m args
      | .ok (.number d) => min_collect ev (Double.min min_value d) args
      | .ok _ => .error (.EvalError .TypeMismatch "min requires numeric values".toList)

/-- The inner loop of `max`. -/
def max_items : D → List (JSONValue D) → Result D
  | max_value, [] => .ok max_value
  | max_value, item :: items =>
      match item with
      | .number d => max_items (Double.max max_value d) items
      | _ => .error (.EvalError .TypeMismatch "max requires numeric values".toList)

/-- The collection loop of `max`. -/
def max_collect (ev : List Char → Result (JSONValue D)) : D → List (List Char) → Result D
  | max_value, [] => .ok max_value
  | max_value, arg :: args =>
      match ev arg with
      | .error e => .error e
      | .ok (.array a) =>
          match max_items max_value a with
          | .error e => .error e
          | .ok m => max_collect ev m args
      | .ok (.number d) => max_collect ev (Double.max max_value d) args
      | .ok _ => .error (.EvalError .TypeMismatch "max requires numeric values".toList)

/-- The inner loop of `sum`. -/
def sum_items : D → List (JSONValue D) → Result D
  | sum, [] => .ok sum
  | sum, item :: items =>
      match item with
      | .number d => sum_items (Double.add sum d) items
      | _ => .error (.EvalError .TypeMismatch "sum requires numeric values".toList)

/-- The collection loop of `sum`. -/
def sum_collect (ev : List Char → Result (JSONValue D)) : D → List (List Char) → Result D
  | sum, [] => .ok sum
  | sum, arg :: args =>
      match ev arg with
      | .error e => .error e
      | .ok (.array a) =>
          match sum_items sum a with
          | .error e => .error e
          | .ok m => sum_collect ev m args
      | .ok (.number d) => sum_collect ev (Double.add sum d) args
      | .ok _ => .error (.EvalError .TypeMismatch "sum requires numeric values".toList)

/-- The inner loop of `avg`, on the pair `(sum, count)`. -/
def avg_items : D × Int → List (JSONValue D) → Result (D × Int)
  | acc, [] => .ok acc
  | (sum, count), item :: items =>
      match item with
      | .number d => avg_items (Double.add sum d, count + 1) items
      | _ => .error (.EvalError .TypeMismatch "avg requires numeric values".toList)

/-- The collection loop of `avg`. -/
def avg_collect (ev : List Char → Result (JSONValue D)) :
    D × Int → List (List Char) → Result (D × Int)
  | acc, [] => .ok acc
  | (sum, count), arg :: args =>
      match ev arg with
      | .error e => .error e
      | .ok (.array a) =>
          match avg_items (sum, count) a with
          | .error e => .error e
          | .ok acc => avg_collect ev acc args
      | .ok (.number d) => avg_collect ev (Double.add sum d, count + 1) args
      | .ok _ => .error (.EvalError .TypeMismatch "avg requires numeric values".toList)

/-- The function `Evaluator::evaluate_function`; `ev` is the recursive call
`evaluate_expression`. -/
def evaluate_function (ev : List Char → Result (JSONValue D)) (func_name : List Char)
    (args : List (List Char)) : Result (JSONValue D) :=
  if func_name = "min".toList then
    match min_collect ev (Double.infinity : D) args with
    | .error e => .error e
    | .ok min_value =>
        if Double.eq min_value (Double.infinity : D) then
          .error (.EvalError .EmptyInput "min requires at least one numeric value".toList)
        else .ok (.number min_value)
  else if func_name = "max".toList then
    match max_collect ev (Double.neg (Double.infinity : D)) args with
    | .error e => .error e
    | .ok max_value =>
        if Double.eq max_value (Double.neg (Double.infinity : D)) then
          .error (.EvalError .EmptyInput "max requires at least one numeric value".toList)
        else .ok (.number max_value)
  else if func_name = "size".toList then
    match args with
    | [arg] =>
        match ev arg with
        | .error e => .error e
        | .ok (.string s) => .ok (.number (Double.ofSize s.length))
        | .ok (.array a) => .ok (.number (Double.ofSize a.length))
        | .ok (.object o) => .ok (.number (Double.ofSize o.length))
        | .ok _ =>
            .error (.EvalError .TypeMismatch "size requires an object, array, or string".toList)
    | _ => .error (.EvalError .ArityError "size requires exactly one argument".toList)
  else if func_name = "sum".toList then
    match sum_collect ev (Double.zero : D) args with
    | .error e => .error e
    | .ok sum => .ok (.number sum)
  else if func_name = "avg".toList then
    match avg_collect ev ((Double.zero : D), 0) args with
    | .error e => .error e
    | .ok (sum, count) =>
        if count = 0 then
          .error (.EvalError .EmptyInput "avg requires at least one numeric value".toList)
        else .ok (.number (Double.div sum (Double.ofInt count)))
  else if func_name = "count".toList then
    match args with
    | [arg] =>
        match ev arg with
        | .error e => .error e
        | .ok (.array a) => .ok (.number (Double.ofSize a.length))
        | .ok (.string s) => .ok (.number (Double.ofSize s.length))
        | .ok _ => .error (.EvalError .TypeMismatch "count requires an array or string".toList)
    | _ => .error (.EvalError .ArityError "count requires exactly one argument".toList)
  else if func_name = "abs".toList then
    match args with
    | [arg] =>
        match ev arg with
        | .error e => .error e
        | .ok (.number d) => .ok (.number (Double.abs d))
        | .ok _ => .error (.EvalError .TypeMismatch "abs requires a numeric value".toList)
    | _ => .error (.EvalError .ArityError "abs requires exactly one argument".toList)
  else if func_name = "round".toList then
    match args with
    | [arg] =>
        match ev arg with
        | .error e => .error e
        | .ok (.number d) => .ok (.number (Double.round d))
        | .ok _ => .error (.EvalError .TypeMismatch "round requires a numeric value".toList)
    | _ => .error (.EvalError .ArityError "round requires exactly one argument".toList)
  else
    .error (.EvalError .UnknownFunction ("Unknown function: ".toList ++ func_name))

/-- The lines `if (!left.is_number() || !right.is_number()) throw ...; return
JSONValue(std::pow(left.as_number(), right.as_number()));` of the `**` branch. -/
def pow_op (left right : JSONValue D) : Result (JSONValue D) :=
  match left, right with
  | .number l, .number r => .ok (.number (Double.pow l r))
  | _, _ => .error (.EvalError .TypeMismatch "** requires numeric operands".toList)

/-- The line `return JSONValue(left.as_number() && right.as_number());`: the built-in `&&`
evaluates `right.as_number()` only when the left number is not zero. -/
def and_op (left right : JSONValue D) : Result (JSONValue D) :=
  match left.as_number with
  | .error e => .error e
  | .ok l =>
      if Double.toBool l then
        match right.as_number with
        | .error e => .error e
        | .ok r => .ok (.bool (Double.toBool r))
      else .ok (.bool false)

/-- The line `return JSONValue(left.as_number() || right.as_number());`: the built-in `||`
evaluates `right.as_number()` only when the left number is zero. -/
def or_op (left right : JSONValue D) : Result (JSONValue D) :=
  match left.as_number with
  | .error e => .error e
  | .ok l =>
      if Double.toBool l then .ok (.bool true)
      else
        match right.as_number with
        | .error e => .error e
        | .ok r => .ok (.bool (Double.toBool r))

/-- The least `int`. -/
def INT_MIN : Int := -(2 ^ 31)

/-- The remainder `a % b` of two `int`s: the remainder of the division truncated toward
zero; undefined when `b` is zero or the quotient is not representable. -/
def int_rem (a b : Int) : Result Int :=
  if b = 0 ∨ (a = INT_MIN ∧ b = -1) then .error .undefined_behavior else .ok (Int.tmod a b)

/-- The lines of the `%` branch after both sides are evaluated. -/
def mod_op (left right : JSONValue D) : Result (JSONValue D) :=
  match left, right with
  | .number l, .number r =>
      match Double.toInt l, Double.toInt r with
      | some a, some b =>
          match int_rem a b with
          | .error e => .error e
          | .ok m => .ok (.number (Double.ofInt m))
      | _, _ => .error .undefined_behavior
  | _, _ => .error (.EvalError .TypeMismatch "% requires numeric operands".toList)

/-- The lines of the arithmetic branch after both sides are evaluated: the type check and
the `switch (op)`.  `none` stands for leaving the `switch` without a `return`. -/
def arith_op (op : Char) (left right : JSONValue D) : Result (Option (JSONValue D)) :=
  match left, right with
  | .number l, .number r =>
      if op = '+' then .ok (some (.number (Double.add l r)))
      else if op = '-' then .ok (some (.number (Double.sub l r)))
      else if op = '*' then .ok (some (.number (Double.mul l r)))
      else if op = '/' then
        if Double.eq r (Double.zero : D) then
          .error (.EvalError .DivisionByZero "Division by zero".toList)
        else .ok (some (.number (Double.div l r)))
      else .ok none
  | _, _ =>
      .error (.EvalError .TypeMismatch "Arithmetic operations require numeric operands".toList)

/-- Both sides of an operator are evaluated, the left one first, then `op` combines them. -/
def eval_sides {T : Type} (ev : List Char → Result (JSONValue D))
    (left_expr right_expr : List Char)
    (op : JSONValue D → JSONValue D → Result T) : Result T :=
  match ev left_expr with
  | .error e => .error e
  | .ok left =>
      match ev right_expr with
      | .error e => .error e
      | .ok right => op left right

/-- The operator part of `Evaluator::evaluate_expression` (from the comment "Check for
specific binary operators" to the end): the searches run on `expr`, the path fallback on
`trimmed_expr`. -/
def evaluate_operators (root : JSONValue D) (ev : List Char → Result (JSONValue D))
    (expr trimmed_expr : List Char) : Result (JSONValue D) :=
  match find_str expr "**".toList with
  | some pos => eval_sides ev (substr expr 0 pos) (expr.drop (pos + 2)) pow_op
  | none =>
  match find_str expr "&&".toList with
  | some pos => eval_sides ev (substr expr 0 pos) (expr.drop (pos + 2)) and_op
  | none =>
  match find_str expr "||".toList with
  | some pos => eval_sides ev (substr expr 0 pos) (expr.drop (pos + 2)) or_op
  | none =>
  match find_char expr '%' with
  | some pos => eval_sides ev (substr expr 0 pos) (expr.drop (pos + 1)) mod_op
  | none =>
  match find_first_of expr "+-*/".toList with
  | some pos =>
      match eval_sides ev (substr expr 0 pos) (expr.drop (pos + 1))
          (arith_op (expr.getD pos ' ')) with
      | .error e => .error e
      | .ok (some v) => .ok v
      | .ok none => evaluate_json_path root trimmed_expr
  | none => evaluate_json_path root trimmed_expr

/-- The body of `Evaluator::evaluate_expression`, with `ev` for its recursive calls. -/
def evaluate_expression_body (root : JSONValue D) (ev : List Char → Result (JSONValue D))
    (expr : List Char) : Result (JSONValue D) :=
  let trimmed_expr := trim expr
  match find_char trimmed_expr '(' with
  | some (func_pos + 1) =>
      match find_matching_bracket trimmed_expr (func_pos + 1) with
      | .error e => .error e
      | .ok end_pos =>
          let func_name := substr trimmed_expr 0 (func_pos + 1)
          let args_str := substr trimmed_expr (func_pos + 1 + 1) (end_pos - (func_pos + 1) - 1)
          evaluate_function ev func_name (parse_arguments args_str)
  | _ => evaluate_operators root ev expr trimmed_expr

/-- The function `Evaluator::evaluate_expression`, with a bound on the depth of its
recursion. -/
def evaluate_expression (root : JSONValue D) : Nat → List Char → Result (JSONValue D)
  | 0, _ => .error .fuel_exhausted
  | fuel + 1, expr => evaluate_expression_body root (evaluate_expression root fuel) expr

/-- The function `Evaluator::evaluate` of an evaluator constructed on `root`.  Every
recursive call is on a shorter text, so the depth never exceeds the length of `expr`. -/
def evaluate (root : JSONValue D) (expr : List Char) : Result (JSONValue D) :=
  evaluate_expression root (expr.length + 1) expr

end Evaluator

/-! ## The document parser (`json.cpp`)

The cursor `index` into `text` is represented by the unread part `text.substr(index)`; a
parsing function returns its value together with the part it leaves unread. -/

section Parser

variable {D : Type} [Double D]

/-- The function `JSON::peek`: the next character, or `'\0'` at the end of the text. -/
def peek : List Char → Char
  | [] => '\x00'
  | c :: _ => c

/-- The function `JSON::get`, as a state change: the cursor moves by one unless it is at
the end of the text. -/
def advance : List Char → List Char
  | [] => []
  | _ :: r => r

/-- The function `JSON::skip_whitespace`. -/
def skip_whitespace (s : List Char) : List Char := s.dropWhile isspace

/-- The function `JSON::parse_null`. -/
def parse_null (s : List Char) : Result (JSONValue D × List Char) :=
  if substr s 0 4 = "null".toList then .ok (.null, s.drop 4)
  else .error (.JSONError .SyntaxError "Invalid JSON null".toList)

/-- The function `JSON::parse_bool`. -/
def parse_bool (s : List Char) : Result (JSONValue D × List Char) :=
  if substr s 0 4 = "true".toList then .ok (.bool true, s.drop 4)
  else if substr s 0 5 = "false".toList then .ok (.bool false, s.drop 5)
  else .error (.JSONError .SyntaxError "Invalid JSON boolean".toList)

/-- The integer part of `JSON::parse_number`, after the optional minus sign: a single `0`,
or a run of digits; the unread part after it, or the exception when there is no digit. -/
def scan_int_part (s : List Char) : Result (List Char) :=
  if peek s = '0' then .ok (advance s)
  else if isdigit (peek s) then .ok (s.dropWhile isdigit)
  else .error (.JSONError .InvalidNumber "Invalid JSON number".toList)

/-- The fraction of `JSON::parse_number`: after a `.` a digit is required, and the run of
digits is read. -/
def scan_fraction (s : List Char) : Result (List Char) :=
  if peek s = '.' then
    if !isdigit (peek (advance s)) then
      .error (.JSONError .InvalidNumber "Invalid JSON number".toList)
    else .ok ((advance s).dropWhile isdigit)
  else .ok s

/-- The cursor movement of `JSON::parse_number`: the unread part after the number token, or
the exception of a token that breaks the grammar. -/
def scan_number (s : List Char) : Result (List Char) :=
  match scan_int_part (if peek s = '-' then advance s else s) with
  | .error e => .error e
  | .ok s2 => scan_fraction s2

/-- The function `JSON::parse_number`: the token `text.substr(start, index - start)` is
converted by `std::stod`. -/
def parse_number (s : List Char) : Result (JSONValue D × List Char) :=
  match scan_number s with
  | .error e => .error e
  | .ok rest =>
      match Double.stod (s.take (s.length - rest.length)) with
      | some number => .ok (.number number, rest)
      | none => .error .out_of_range

/-- The `switch (escaped)` of `JSON::parse_string`; `none` is the `default` case. -/
def unescape (escaped : Char) : Option Char :=
  if escaped = '"' then some '"'
  else if escaped = '\\' then some '\\'
  else if escaped = '/' then some '/'
  else if escaped = 'b' then some '\x08'
  else if escaped = 'f' then some '\x0c'
  else if escaped = 'n' then some '\n'
  else if escaped = 'r' then some '\r'
  else if escaped = 't' then some '\t'
  else none

/-- The loop of `JSON::parse_string` and the check of the closing quote; `acc` is the
string `s` built so far. -/
def parse_string_loop : List Char → List Char → Result (List Char × List Char)
  | [], _ => .error (.JSONError .UnterminatedString "Unterminated string".toList)
  | c :: r, acc =>
      if c = '"' then .ok (acc, r)
      else if c = '\x00' then
        .error (.JSONError .UnterminatedString "Unterminated string".toList)
      else if c = '\\' then
        match r with
        | [] => .error (.JSONError .InvalidEscape "Invalid escape character".toList)
        | escaped :: r2 =>
            match unescape escaped with
            | some x => parse_string_loop r2 (acc ++ [x])
            | none => .error (.JSONError .InvalidEscape "Invalid escape character".toList)
      else parse_string_loop r (acc ++ [c])

/-- The function `JSON::parse_string`, returning the decoded characters. -/
def parse_string (s : List Char) : Result (List Char × List Char) :=
  parse_string_loop (advance s) []

mutual

/-- The function `JSON::parse_value`. -/
def parse_value : Nat → List Char → Result (JSONValue D × List Char)
  | 0, _ => .error .fuel_exhausted
  | fuel + 1, text =>
      let s := skip_whitespace text
      let c := peek s
      if c = 'n' then parse_null s
      else if c = 't' ∨ c = 'f' then parse_bool s
      else if c = '-' ∨ isdigit c then parse_number s
      else if c = '"' then
        match parse_string s with
        | .error e => .error e
        | .ok (str, rest) => .ok (.string str, rest)
      else if c = '[' then parse_array fuel s
      else if c = '{' then parse_object fuel s
      else .error (.JSONError .SyntaxError "Invalid JSON value".toList)

/-- The function `JSON::parse_array` up to its loop. -/
def parse_array : Nat → List Char → Result (JSONValue D × List Char)
  | 0, _ => .error .fuel_exhausted
  | fuel + 1, text =>
      let s := skip_whitespace (advance text)
      if peek s = ']' then .ok (.array [], advance s)
      else parse_array_loop fuel [] s

/-- The `while (true)` loop of `JSON::parse_array`. -/
def parse_array_loop : Nat → JSONArray D → List Char → Result (JSONValue D × List Char)
  | 0, _, _ => .error .fuel_exhausted
  | fuel + 1, array, text =>
      match parse_value fuel text with
      | .error e => .error e
      | .ok (val, rest) =>
          let s := skip_whitespace rest
          if peek s = ',' then parse_array_loop fuel (array ++ [val]) (advance s)
          else if peek s = ']' then .ok (.array (array ++ [val]), advance s)
          else .error (.JSONError .SyntaxError "Expected ',' or ']'".toList)

/-- The function `JSON::parse_object` up to its loop. -/
def parse_object : Nat → List Char → Result (JSONValue D × List Char)
  | 0, _ => .error .fuel_exhausted
  | fuel + 1, text =>
      let s := skip_whitespace (advance text)
      if peek s = '}' then .ok (.object [], advance s)
      else parse_object_loop fuel [] s

/-- The `while (true)` loop of `JSON::parse_object`. -/
def parse_object_loop : Nat → JSONObject D → List Char → Result (JSONValue D × List Char)
  | 0, _, _ => .error .fuel_exhausted
  | fuel + 1, object, text =>
      let s := skip_whitespace text
      if peek s ≠ '"' then .error (.JSONError .SyntaxError "Expected string key".toList)
      else
        match parse_string s with
        | .error e => .error e
        | .ok (key, rest) =>
            let s1 := skip_whitespace rest
            if peek s1 ≠ ':' then .error (.JSONError .SyntaxError "Expected ':'".toList)
            else
              match parse_value fuel (skip_whitespace (advance s1)) with
              | .error e => .error e
              | .ok (val, rest2) =>
                  let s2 := skip_whitespace rest2
                  if peek s2 = ',' then
                    parse_object_loop fuel (JSONObject.assign object key val) (advance s2)
                  else if peek s2 = '}' then
                    .ok (.object (JSONObject.assign object key val), advance s2)
                  else .error (.JSONError .SyntaxError "Expected ',' or '\x7d'".toList)

end

/-- The function `JSON::parse`.  Every call in the recursion reads at least one character,
and a call passes through at most three functions before it does. -/
def parse (text : List Char) : Result (JSONValue D) :=
  match parse_value (3 * text.length + 3) text with
  | .error e => .error e
  | .ok (v, _) => .ok v

end Parser

/-! ## An executable arithmetic

`XDouble` computes exactly on the rationals, extended by the two infinities and NaN.  It
agrees with IEEE arithmetic wherever the IEEE result is exact, which is the case for the
small integers of the repository's tests. -/

/-- A rational `num / den` in lowest terms with `den > 0`, an infinity, or NaN. -/
inductive XDouble where
  | fin (num : Int) (den : Nat)
  | pinf
  | ninf
  | nan
  deriving DecidableEq, Repr

namespace XDouble

/-- The fraction `n / d` in lowest terms (`d > 0`). -/
def norm (n : Int) (d : Nat) : XDouble :=
  let g := Nat.gcd n.natAbs d
  .fin (n / (g : Int)) (d / g)

def neg : XDouble → XDouble
  | .fin n d => .fin (-n) d
  | .pinf => .ninf
  | .ninf => .pinf
  | .nan => .nan

def add : XDouble → XDouble → XDouble
  | .fin a b, .fin c d => norm (a * d + c * b) (b * d)
  | .nan, _ => .nan
  | _, .nan => .nan
  | .pinf, .ninf => .nan
  | .ninf, .pinf => .nan
  | .pinf, _ => .pinf
  | _, .pinf => .pinf
  | .ninf, _ => .ninf
  | _, .ninf => .ninf

def sub (x y : XDouble) : XDouble := add x (neg y)

/-- The sign of a value that is not NaN: `1`, `0` or `-1`. -/
def sign : XDouble → Int
  | .fin n _ => Int.sign n
  | .pinf => 1
  | .ninf => -1
  | .nan => 0

def mul : XDouble → XDouble → XDouble
  | .fin a b, .fin c d => norm (a * c) (b * d)
  | .nan, _ => .nan
  | _, .nan => .nan
  | x, y =>
      if sign x * sign y = 0 then .nan else if sign x * sign y = 1 then .pinf else .ninf

def div : XDouble → XDouble → XDouble
  | .fin a b, .fin c d =>
      if c = 0 then (if a = 0 then .nan else if 0 < a then .pinf else .ninf)
      else norm (a * d * Int.sign c) (b * c.natAbs)
  | .nan, _ => .nan
  | _, .nan => .nan
  | .fin _ _, _ => .fin 0 1
  | x, .fin c _ => if sign x * (if c < 0 then -1 else 1) = 1 then .pinf else .ninf
  | _, _ => .nan

def lt : XDouble → XDouble → Bool
  | .fin a b, .fin c d => decide (a * d < c * b)
  | .nan, _ => false
  | _, .nan => false
  | .ninf, .ninf => false
  | .ninf, _ => true
  | _, .pinf => true
  | _, _ => false

def eq : XDouble → XDouble → Bool
  | .nan, _ => false
  | _, .nan => false
  | x, y => decide (x = y)

def toInt : XDouble → Option Int
  | .fin a b =>
      let t := Int.tdiv a b
      if -(2 ^ 31) ≤ t ∧ t < 2 ^ 31 then some t else none
  | _ => none

def abs : XDouble → XDouble
  | .fin n d => .fin n.natAbs d
  | .pinf => .pinf
  | .ninf => .pinf
  | .nan => .nan

/-- Rounding to the nearest integer, halfway cases away from zero. -/
def round : XDouble → XDouble
  | .fin n d => .fin (Int.sign n * ((2 * n.natAbs + d) / (2 * d) : Nat)) 1
  | x => x

/-- Exact on an integer exponent of a rational base; NaN elsewhere, where the result of
`std::pow` need not be rational. -/
def pow : XDouble → XDouble → XDouble
  | .fin a b, .fin (.ofNat n) 1 => norm (a ^ n) (b ^ n)
  | .fin a b, .fin (.negSucc n) 1 =>
      if a = 0 then .pinf else norm (Int.sign a ^ (n + 1) * b ^ (n + 1)) (a.natAbs ^ (n + 1))
  | _, _ => .nan

/-- The value of a token `["-"] digits ["." digits]`. -/
def stod (token : List Char) : Option XDouble :=
  let (negative, s) :=
    match token with
    | '-' :: r => (true, r)
    | _ => (false, token)
  let ip := s.takeWhile isdigit
  let fp := (s.dropWhile isdigit).drop 1
  let n : Int := digits_value 0 (ip ++ fp)
  some (norm (if negative then -n else n) (10 ^ fp.length))

instance : Double XDouble where
  zero := .fin 0 1
  infinity := .pinf
  neg := neg
  add := add
  sub := sub
  mul := mul
  div := div
  pow := pow
  lt := lt
  eq := eq
  toInt := toInt
  ofInt := fun i => .fin i 1
  ofSize := fun n => .fin n 1
  abs := abs
  round := round
  stod := stod

end XDouble

/-- The conversion of a string literal to a `std::string`. -/
abbrev str (s : String) : List Char := s.toList

/-- The number `n` as a value. -/
abbrev num (n : Int) : JSONValue XDouble := .number (.fin n 1)

/-- The document of `test.cpp`:
`{"a": {"b": [0, 0, 1, 2, 3, [0, 10, 20], {"c": "test"}]}}`. -/
def test_json : JSONValue XDouble :=
  .object [(str "a", .object [(str "b", .array
    [num 0, num 0, num 1, num 2, num 3, .array [num 0, num 10, num 20],
      .object [(str "c", .string (str "test"))]])])]

/-! ## The operator rule in the words of the specification

Section 4.3 of the specification: an expression that is not a function call is split at the
first textual occurrence of the first operator of the list `**`, `&&`, `||`, `%`,
`{+, -, *, /}` that occurs in it. -/

namespace Spec

/-- The text `pat` occurs somewhere in `s`. -/
def Occurs (pat s : List Char) : Prop := pat <:+: s

/-- The text `pat` occurs in `s` at position `pos` and at no earlier position. -/
def FirstOccurrence (pat s : List Char) (pos : Nat) : Prop :=
  pat <+: s.drop pos ∧ ∀ j, j < pos → ¬ pat <+: s.drop j

/-- The characters of the last entry of the priority list. -/
def arith_chars : List Char := ['+', '-', '*', '/']

/-- The expression is not handled as a function call: its trimmed text has no `(`, or
starts with one. -/
def NotCall (expr : List Char) : Prop :=
  '(' ∉ trim expr ∨ (trim expr).head? = some '('

/-- The entries of the priority list. -/
inductive Operator where
  | pow
  | and
  | or
  | mod
  | arith (c : Char)
  deriving DecidableEq, Repr

/-- The text of an operator. -/
def Operator.text : Operator → List Char
  | .pow => ['*', '*']
  | .and => ['&', '&']
  | .or => ['|', '|']
  | .mod => ['%']
  | .arith c => [c]

/-- The operator `op` at position `pos` is where the specification splits `expr`: no
operator before `op` in the priority list occurs in `expr`, and `pos` is the first
occurrence of `op` (of any of the four characters, for the last entry). -/
def SplitAt (expr : List Char) : Operator → Nat → Prop
  | .pow, pos => FirstOccurrence ['*', '*'] expr pos
  | .and, pos => ¬ Occurs ['*', '*'] expr ∧ FirstOccurrence ['&', '&'] expr pos
  | .or, pos =>
      ¬ Occurs ['*', '*'] expr ∧ ¬ Occurs ['&', '&'] expr ∧ FirstOccurrence ['|', '|'] expr pos
  | .mod, pos =>
      ¬ Occurs ['*', '*'] expr ∧ ¬ Occurs ['&', '&'] expr ∧ ¬ Occurs ['|', '|'] expr
        ∧ FirstOccurrence ['%'] expr pos
  | .arith c, pos =>
      ¬ Occurs ['*', '*'] expr ∧ ¬ Occurs ['&', '&'] expr ∧ ¬ Occurs ['|', '|'] expr
        ∧ ¬ Occurs ['%'] expr ∧ c ∈ arith_chars ∧ expr.get? pos = some c
        ∧ ∀ j, j < pos → ∀ d, expr.get? j = some d → d ∉ arith_chars

instance (pat s : List Char) : Decidable (Occurs pat s) := by
  unfold Occurs; infer_instance

instance (pat s : List Char) (pos : Nat) : Decidable (FirstOccurrence pat s pos) := by
  unfold FirstOccurrence; infer_instance

instance (expr : List Char) : Decidable (NotCall expr) := by
  unfold NotCall; infer_instance

instance (expr : List Char) (op : Operator) (pos : Nat) : Decidable (SplitAt expr op pos) := by
  cases op <;> unfold SplitAt <;> infer_instance

/-- The value of `left c right` for an arithmetic operator `c`: both sides must be Numbers,
and `/` fails with `DivisionByZero` when the right side is zero. -/
def arithmetic {D : Type} [Double D] (c : Char) (left right : JSONValue D) :
    Result (JSONValue D) :=
  match left, right with
  | .number l, .number r =>
      if c = '+' then .ok (.number (Double.add l r))
      else if c = '-' then .ok (.number (Double.sub l r))
      else if c = '*' then .ok (.number (Double.mul l r))
      else if Double.eq r (Double.zero : D) then
        .error (.EvalError .DivisionByZero "Division by zero".toList)
      else .ok (.number (Double.div l r))
  | _, _ =>
      .error (.EvalError .TypeMismatch "Arithmetic operations require numeric operands".toList)

/-- The value that an operator gives to the values of its two sides. -/
def Operator.apply {D : Type} [Double D] :
    Operator → JSONValue D → JSONValue D → Result (JSONValue D)
  | .pow => pow_op
  | .and => and_op
  | .or => or_op
  | .mod => mod_op
  | .arith c => arithmetic c

end Spec

namespace Spec

/-- The characters of the parentheses and of the operators. -/
def special_chars : List Char := ['(', ')', '*', '&', '|', '%', '+', '-', '/']

/-- A text without parenthesis and operator characters, such as a path with blanks around
it. -/
def Plain (s : List Char) : Prop := ∀ c ∈ s, c ∉ special_chars

instance (s : List Char) : Decidable (Plain s) := by
  unfold Plain; infer_instance

end Spec

/-- The document `{"l": 2147483648, "r": 3}`, whose first number is `INT_MAX + 1`. -/
def wide_json : JSONValue XDouble :=
  .object [(str "l", num 2147483648), (str "r", num 3)]

/-- The document `{"a": {"b": [1, 2, 3]}}`, in which `a.b` is a Sequence of Numbers. -/
def sum_json : JSONValue XDouble :=
  .object [(str "a", .object [(str "b", .array [num 1, num 2, num 3])])]

/-- The document `{"1": 10, "2": 20, "a": {"b": [1, 2, 3]}}`, which has the keys `1` and
`2`. -/
def keyed_json : JSONValue XDouble :=
  .object [(str "1", num 10), (str "2", num 20),
    (str "a", .object [(str "b", .array [num 1, num 2, num 3])])]

/-! ## The reference walk of a path

The walk of section 4.5 of the specification, on a path given by its first identifier and
its list of segments. -/

namespace Spec

/-- A segment of a path: `.name` or `[content]`. -/
inductive Segment where
  | key (name : List Char)
  | index (content : List Char)
  deriving DecidableEq, Repr

/-- The text of a segment. -/
def Segment.text : Segment → List Char
  | .key name => '.' :: name
  | .index content => '[' :: content ++ [']']

/-- The text of the segments of a path. -/
def segments_text : List Segment → List Char
  | [] => []
  | seg :: segs => seg.text ++ segments_text segs

/-- The text of a path: the first identifier, then the segments. -/
def path_text (first : List Char) (segs : List Segment) : List Char :=
  first ++ segments_text segs

/-- A segment is well formed: a name is made of letters, digits and underscores, the content
of an index has no `]`. -/
def Segment.WellFormed : Segment → Prop
  | .key name => ∀ c ∈ name, is_ident_char c = true
  | .index content => ']' ∉ content

instance (seg : Segment) : Decidable seg.WellFormed := by
  cases seg <;> unfold Segment.WellFormed <;> infer_instance

/-- One step of the walk: a name is looked up as a key of the current Mapping, an all-digit
index selects that element of the current Sequence. -/
def step {D : Type} (current : JSONValue D) : Segment → Result (JSONValue D)
  | .key name =>
      match current with
      | .object o =>
          match JSONObject.find o name with
          | some v => .ok v
          | none => .error (.EvalError .KeyNotFound ("Key not found: ".toList ++ name))
      | _ =>
          .error (.EvalError .InvalidAccess
            ("Invalid key access on non-object type: ".toList ++ name))
  | .index content =>
      if content ≠ [] ∧ content.all isdigit then
        match current with
        | .array a =>
            match a.get? (digits_value 0 content) with
            | some v => .ok v
            | none =>
                .error (.EvalError .IndexOutOfBounds
                  ("Array index out of bounds: ".toList ++ content))
        | _ =>
            .error (.EvalError .InvalidAccess
              "Invalid array index access on non-array type.".toList)
      else
        .error (.EvalError .InvalidIndex
          ("Invalid array index: ".toList ++ content ++ " (must be an integer).".toList))

/-- The walk through the segments, from left to right. -/
def walk {D : Type} : JSONValue D → List Segment → Result (JSONValue D)
  | current, [] => .ok current
  | current, seg :: segs =>
      match step current seg with
      | .error e => .error e
      | .ok v => walk v segs

/-- The resolution of a path against a root Mapping. -/
def resolve {D : Type} (o : JSONObject D) (first : List Char) (segs : List Segment) :
    Result (JSONValue D) :=
  match JSONObject.find o first with
  | none => .error (.EvalError .KeyNotFound ("Key not found: ".toList ++ first))
  | some v => walk v segs

end Spec

/-- The document `{"m": -1, "z": 0}`. -/
def pole_json : JSONValue XDouble :=
  .object [(str "m", num (-1)), (str "z", num 0)]

/-! ## The number grammar of the specification

Section 4.2: `number := ["-"] ("0" | digit+) ["." digit+]`, where a run of several digits
does not start with a zero. -/

namespace Spec

/-- The integer part: `0`, or a run of digits that does not start with `0`. -/
def IntPart (ip : List Char) : Prop :=
  ip = ['0'] ∨ (ip ≠ [] ∧ (∀ c ∈ ip, isdigit c = true) ∧ ip.head? ≠ some '0')

/-- The optional fraction: nothing, or `.` and a run of at least one digit. -/
def FracPart (fp : List Char) : Prop :=
  fp = [] ∨ ∃ ds : List Char, ds ≠ [] ∧ (∀ c ∈ ds, isdigit c = true) ∧ fp = '.' :: ds

/-- A token of the number grammar. -/
def NumberToken (token : List Char) : Prop :=
  ∃ sign ip fp : List Char, (sign = [] ∨ sign = ['-']) ∧ IntPart ip ∧ FracPart fp
    ∧ token = sign ++ ip ++ fp

end Spec

namespace Spec

end Spec

namespace Spec

/-- The text `t` cannot continue a number: it is empty, or starts with a character that is
neither a digit nor `.`. -/
def Detached (t : List Char) : Prop :=
  ∀ c, t.head? = some c → isdigit c = false ∧ c ≠ '.'

instance (t : List Char) : Decidable (Detached t) := by
  unfold Detached
  cases t with
  | nil => exact isTrue (fun c h => by simp at h)
  | cons a as =>
    exact decidable_of_iff (isdigit a = false ∧ a ≠ '.')
      ⟨fun h c hc => by simp at hc; subst hc; exact h, fun h => h a rfl⟩

end Spec

/-! ## Function calls in the words of the specification

Section 4.3, step 1, and section 4.4: the trimmed text is a call when its first `(` is not
its first character and depth counting finds the matching `)`. -/

namespace Spec

/-- The function names of section 4.4. -/
def function_names : List (List Char) :=
  ["min".toList, "max".toList, "sum".toList, "avg".toList, "size".toList, "count".toList,
    "abs".toList, "round".toList]

/-- The parenthesis depth of a text: its number of `(` minus its number of `)`. -/
def depth (s : List Char) : Int := (s.count '(' : Int) - (s.count ')' : Int)

/-- The parentheses of `s` match each other: the depth of `s` is zero and the depth of no
prefix of `s` is negative.  Depth counting from an opening parenthesis in front of `s` then
first returns to zero at a `)` that follows `s`. -/
def Balanced (s : List Char) : Prop := depth s = 0 ∧ ∀ pre ∈ s.inits, 0 ≤ depth pre

instance (s : List Char) : Decidable (Balanced s) := by
  unfold Balanced; infer_instance

/-- The trimmed text of `expr` is the call of `name` on the argument text `args_str`,
followed by `tail`: the first `(` comes after the non-empty `name`, and its matching `)`
comes after `args_str`. -/
def Call (expr name args_str tail : List Char) : Prop :=
  trim expr = name ++ '(' :: args_str ++ ')' :: tail ∧ name ≠ [] ∧ '(' ∉ name
    ∧ Balanced args_str

instance (expr name args_str tail : List Char) : Decidable (Call expr name args_str tail) := by
  unfold Call; infer_instance

end Spec

/-- The document `{"": 5}`, whose only key is the empty text. -/
def empty_key_json : JSONValue XDouble := .object [([], num 5)]

/-- The document `{"": "abc"}`. -/
def empty_key_text_json : JSONValue XDouble := .object [([], .string (str "abc"))]

namespace Spec

/-- The functions of section 4.4 that take exactly one argument. -/
def unary_names : List (List Char) :=
  ["size".toList, "count".toList, "abs".toList, "round".toList]

end Spec

namespace Spec

end Spec

/-! ## String literals in the words of the specification

Section 4.2: `string := '"' (escape | char)* '"'`, with the eight escapes
`\" \\ \/ \b \f \n \r \t`. -/

namespace Spec

/-- The eight escape letters, each with the character it stands for: quote, backslash,
slash, backspace, form feed, newline, carriage return, tab. -/
def escapes : List (Char × Char) :=
  [('"', '"'), ('\\', '\\'), ('/', '/'), ('b', '\x08'), ('f', '\x0c'), ('n', '\n'),
    ('r', '\r'), ('t', '\t')]

/-- An item of the body of a string literal: a character that stands for itself, or a
backslash followed by a letter. -/
inductive StringItem where
  | plain (c : Char)
  | escape (letter : Char)
  deriving DecidableEq, Repr

/-- The text of an item in the document. -/
def StringItem.text : StringItem → List Char
  | .plain c => [c]
  | .escape letter => ['\\', letter]

/-- The character an item stands for. -/
def StringItem.decoded : StringItem → Char
  | .plain c => c
  | .escape letter => (escapes.lookup letter).getD letter

/-- A plain character is not the quote, not the backslash and not the NUL character; the
letter of an escape is one of the eight. -/
def StringItem.WellFormed : StringItem → Prop
  | .plain c => c ≠ '"' ∧ c ≠ '\\' ∧ c ≠ '\x00'
  | .escape letter => (escapes.lookup letter).isSome = true

instance (item : StringItem) : Decidable item.WellFormed := by
  cases item <;> unfold StringItem.WellFormed <;> infer_instance

/-- The text of the body of a literal. -/
def body_text : List StringItem → List Char
  | [] => []
  | item :: items => item.text ++ body_text items

end Spec

/-! ## The key order of a Mapping

Section 3 of the specification: the keys of a Mapping are unique and its iteration order is
key-sorted. -/

namespace Spec

mutual

/-- Every Mapping of the tree has its entries in strictly ascending key order. -/
def KeysAscending {D : Type} : JSONValue D → Prop
  | .object o =>
      (o.map Prod.fst).Pairwise (fun a b => string_lt a b = true) ∧ KeysAscendingEntries o
  | .array a => KeysAscendingItems a
  | .null => True
  | .bool _ => True
  | .number _ => True
  | .string _ => True

/-- Every element of a Sequence has its Mappings in ascending key order. -/
def KeysAscendingItems {D : Type} : List (JSONValue D) → Prop
  | [] => True
  | v :: vs => KeysAscending v ∧ KeysAscendingItems vs

/-- Every value of an entry list has its Mappings in ascending key order. -/
def KeysAscendingEntries {D : Type} : List (List Char × JSONValue D) → Prop
  | [] => True
  | (_, v) :: es => KeysAscending v ∧ KeysAscendingEntries es

end

mutual

/-- Every Mapping of the tree has pairwise distinct keys. -/
def DistinctKeys {D : Type} : JSONValue D → Prop
  | .object o => (o.map Prod.fst).Nodup ∧ DistinctKeysEntries o
  | .array a => DistinctKeysItems a
  | .null => True
  | .bool _ => True
  | .number _ => True
  | .string _ => True

/-- Every element of a Sequence has distinct keys in its Mappings. -/
def DistinctKeysItems {D : Type} : List (JSONValue D) → Prop
  | [] => True
  | v :: vs => DistinctKeys v ∧ DistinctKeysItems vs

/-- Every value of an entry list has distinct keys in its Mappings. -/
def DistinctKeysEntries {D : Type} : List (List Char × JSONValue D) → Prop
  | [] => True
  | (_, v) :: es => DistinctKeys v ∧ DistinctKeysEntries es

end

end Spec

/-! ## The textual rendering (`JSONValue::to_string`) -/

/-- The insertion `oss << d` of a `double` into a default-constructed `std::ostringstream`:
the characters it writes.  The conversion belongs to the standard library. -/
class DoubleOutput (D : Type) where
  /-- The characters written for `d`. -/
  put : D → List Char

mutual

/-- The function `JSONValue::to_string`. -/
def JSONValue.to_string {D : Type} [DoubleOutput D] : JSONValue D → List Char
  | .null => "null".toList
  | .bool b => if b then "true".toList else "false".toList
  | .number d => DoubleOutput.put d
  | .string s => s
  | .array arr => "[".toList ++ JSONValue.to_string_array arr ++ "]".toList
  | .object obj => "\x7b".toList ++ JSONValue.to_string_object obj ++ "\x7d".toList

/-- The loop over the elements of an array, from element `i` on: the element, then `", "`
unless it is the last one (`i != arr.size() - 1`). -/
def JSONValue.to_string_array {D : Type} [DoubleOutput D] : List (JSONValue D) → List Char
  | [] => []
  | v :: rest =>
      v.to_string ++ (if rest.isEmpty then [] else ", ".toList)
        ++ JSONValue.to_string_array rest

/-- The loop over the entries of an object, in the iteration order of the map. -/
def JSONValue.to_string_object {D : Type} [DoubleOutput D] :
    List (List Char × JSONValue D) → List Char
  | [] => []
  | (key, v) :: rest =>
      "\"".toList ++ key ++ "\": ".toList ++ v.to_string
        ++ (if rest.isEmpty then [] else ", ".toList) ++ JSONValue.to_string_object rest

end

/-! ## The rendering in the words of the specification

Section 4.1: null is `null`, a boolean `true` or `false`, a number its decimal
representation, a string itself, a sequence `[v0, v1, ...]`, a mapping `{"k": v, ...}` in
key-sorted order. -/

namespace Spec

/-- The entries of a Mapping sorted by key. -/
def sort_by_key (entries : List (List Char × List Char)) : List (List Char × List Char) :=
  entries.insertionSort (fun a b => string_lt a.1 b.1 = true)

/-- The text of an entry: the key between quotes, a colon, a blank, the rendered value. -/
def entry_text (entry : List Char × List Char) : List Char :=
  "\"".toList ++ entry.1 ++ "\": ".toList ++ entry.2

mutual

/-- The rendering of a Value. -/
def render {D : Type} [DoubleOutput D] : JSONValue D → List Char
  | .null => "null".toList
  | .bool true => "true".toList
  | .bool false => "false".toList
  | .number d => DoubleOutput.put d
  | .string s => s
  | .array a => "[".toList ++ ", ".toList.intercalate (render_items a) ++ "]".toList
  | .object o =>
      "\x7b".toList
        ++ ", ".toList.intercalate ((sort_by_key (render_entries o)).map entry_text)
        ++ "\x7d".toList

/-- The renderings of the elements of a Sequence. -/
def render_items {D : Type} [DoubleOutput D] : List (JSONValue D) → List (List Char)
  | [] => []
  | v :: vs => render v :: render_items vs

/-- The keys of a Mapping with the renderings of their values. -/
def render_entries {D : Type} [DoubleOutput D] :
    List (List Char × JSONValue D) → List (List Char × List Char)
  | [] => []
  | (k, v) :: es => (k, render v) :: render_entries es

end

end Spec


namespace XDouble

/-- The decimal digit of `n % 10`. -/
def digit_char (n : Nat) : Char := "0123456789".toList.getD (n % 10) '0'

/-- The decimal digits of `n` in front of `acc`; `fuel` bounds the number of digits. -/
def nat_digits : Nat → Nat → List Char → List Char
  | 0, n, acc => digit_char n :: acc
  | fuel + 1, n, acc =>
      if n < 10 then digit_char n :: acc else nat_digits fuel (n / 10) (digit_char n :: acc)

/-- The decimal representation of a natural number. -/
def decimal (n : Nat) : List Char := nat_digits n n []

/-- The last `width` decimal digits of `n`, with leading zeros. -/
def fixed_digits : Nat → Nat → List Char
  | 0, _ => []
  | width + 1, n => fixed_digits width (n / 10) ++ [digit_char n]

/-- The digits without their trailing zeros. -/
def strip_zeros (ds : List Char) : List Char :=
  (ds.reverse.dropWhile (· = '0')).reverse

/-- The fraction of a number: nothing if all its digits are zero, else a point and the
digits without trailing zeros. -/
def fraction (ds : List Char) : List Char :=
  if strip_zeros ds = [] then [] else '.' :: strip_zeros ds

/-- The comparison `10 ^ e ≤ n / d`. -/
def ge_pow10 (n d : Nat) (e : Int) : Bool :=
  if 0 ≤ e then decide (d * 10 ^ e.toNat ≤ n) else decide (d ≤ n * 10 ^ (-e).toNat)

/-- The quotient `n / d` rounded to the nearest integer, halfway cases to the even one. -/
def round_half_even (n d : Nat) : Nat :=
  if 2 * (n % d) > d then n / d + 1
  else if 2 * (n % d) < d then n / d
  else if (n / d) % 2 = 0 then n / d else n / d + 1

/-- The text of the six significant digits `m` (with `10 ^ 5 ≤ m < 10 ^ 6`) at the decimal
exponent `X`, as `%g` writes it: fixed notation when `-4 ≤ X < 6`, scientific notation
otherwise; trailing zeros of the fraction are removed. -/
def format_digits (m : Nat) (X : Int) : List Char :=
  if 0 ≤ X ∧ X < 6 then
    decimal (m / 10 ^ (5 - X.toNat))
      ++ fraction (fixed_digits (5 - X.toNat) (m % 10 ^ (5 - X.toNat)))
  else if -4 ≤ X ∧ X < 0 then
    '0' :: '.' :: (List.replicate ((-X).toNat - 1) '0' ++ strip_zeros (fixed_digits 6 m))
  else
    decimal (m / 10 ^ 5) ++ fraction (fixed_digits 5 (m % 10 ^ 5))
      ++ 'e' :: (if X < 0 then '-' else '+')
        :: ((if X.natAbs < 10 then ['0'] else []) ++ decimal X.natAbs)

/-- The conversion `%g` with precision 6 of the positive rational `n / d`: the value is
rounded to six significant digits, which are written at their decimal exponent. -/
def format_pos (n d : Nat) : List Char :=
  let c : Int := ((decimal n).length : Int) - ((decimal d).length : Int)
  let e0 : Int := if ge_pow10 n d c then c else c - 1
  let s : Int := 5 - e0
  let m0 : Nat :=
    if 0 ≤ s then round_half_even (n * 10 ^ s.toNat) d
    else round_half_even n (d * 10 ^ (-s).toNat)
  if 10 ^ 6 ≤ m0 then format_digits (m0 / 10) (e0 + 1) else format_digits m0 e0

/-- The characters that `operator<<` writes for a `double` on a default stream. -/
def put : XDouble → List Char
  | .fin n d =>
      if n = 0 then ['0']
      else (if n < 0 then ['-'] else []) ++ format_pos n.natAbs d
  | .pinf => "inf".toList
  | .ninf => "-inf".toList
  | .nan => "nan".toList

instance : DoubleOutput XDouble where
  put := put

end XDouble

/-! ## An object of a document, entry by entry -/

namespace Spec

/-- An entry of an object in a document: the items of its key literal, the text of its
value, and the Value that text stands for. -/
structure Entry (D : Type) where
  key : List StringItem
  text : List Char
  value : JSONValue D

/-- The key of an entry: its decoded key literal. -/
def Entry.key_text {D : Type} (e : Entry D) : List Char := e.key.map StringItem.decoded

/-- The text of an entry: the key literal, a colon, the text of the value. -/
def Entry.source {D : Type} (e : Entry D) : List Char :=
  '"' :: (body_text e.key ++ '"' :: ':' :: e.text)

/-- The texts of the entries, separated by commas. -/
def entries_source {D : Type} : List (Entry D) → List Char
  | [] => []
  | e :: es => e.source ++ (if es.isEmpty then [] else [',']) ++ entries_source es

/-- The text of the object: the entries between braces. -/
def object_source {D : Type} (es : List (Entry D)) : List Char :=
  '\x7b' :: (entries_source es ++ ['\x7d'])

/-- The key literal of the entry is well formed, and the text of its value is a document
that `parse_value` reads completely as the value. -/
def Entry.WellFormed {D : Type} [Double D] (e : Entry D) : Prop :=
  (∀ item ∈ e.key, item.WellFormed)
    ∧ parse_value (3 * e.text.length + 3) e.text = .ok (e.value, [])

/-- The value of the last entry with key `k`, if there is one. -/
def last_value {D : Type} (es : List (Entry D)) (k : List Char) : Option (JSONValue D) :=
  (es.reverse.find? (fun e => decide (e.key_text = k))).map (·.value)

end Spec

/-! ## The argument list in the words of the specification

Section 4.3, step 1: the argument text is split at its top-level commas, the commas at
parenthesis depth zero. -/

namespace Spec

/-- The number of commas of `s` at parenthesis depth zero: the prefixes of `s` that have
depth zero and are followed by a comma. -/
def depth_zero_commas (s : List Char) : Nat :=
  s.inits.countP (fun pre => decide (depth pre = 0) && (pre ++ [',']).isPrefixOf s)

/-- The text in front of a piece: the pieces before it, each followed by its comma. -/
def lead (before : List (List Char)) : List Char :=
  (before.map (· ++ [','])).flatten

end Spec

/-! # Theorems -/

/-! ## Basic facts on the string operations -/

theorem find_char_lt {s : List Char} {c : Char} {pos : Nat} (h : find_char s c = some pos) :
    pos < s.length := by
  induction s generalizing pos with
  | nil => simp [find_char] at h
  | cons a as ih =>
    simp only [find_char] at h
    split at h
    · cases h; simp
    · cases hf : find_char as c with
      | none => simp [hf] at h
      | some q =>
        simp [hf] at h
        subst h
        have := ih hf
        simp; omega

theorem find_str_lt {s pat : List Char} {pos : Nat} (hp : pat ≠ [])
    (h : find_str s pat = some pos) : pos < s.length := by
  induction s generalizing pos with
  | nil => simp [find_str, hp] at h
  | cons a as ih =>
    simp only [find_str] at h
    split at h
    · cases h; simp
    · cases hf : find_str as pat with
      | none => simp [hf] at h
      | some q =>
        simp [hf] at h
        subst h
        have := ih hf
        simp; omega

theorem find_first_of_lt {s chars : List Char} {pos : Nat}
    (h : find_first_of s chars = some pos) : pos < s.length := by
  induction s generalizing pos with
  | nil => simp [find_first_of] at h
  | cons a as ih =>
    simp only [find_first_of] at h
    split at h
    · cases h; simp
    · cases hf : find_first_of as chars with
      | none => simp [hf] at h
      | some q =>
        simp [hf] at h
        subst h
        have := ih hf
        simp; omega

theorem dropWhile_length_le {α : Type} (p : α → Bool) (l : List α) :
    (l.dropWhile p).length ≤ l.length := by
  induction l with
  | nil => simp
  | cons a as ih =>
    simp only [List.dropWhile]
    split
    · simp; omega
    · simp

theorem trim_length_le (expr : List Char) : (trim expr).length ≤ expr.length := by
  unfold trim
  rw [List.length_reverse]
  refine le_trans (dropWhile_length_le _ _) ?_
  rw [List.length_reverse]
  exact dropWhile_length_le _ _

theorem substr_length_le (s : List Char) (pos len : Nat) :
    (substr s pos len).length ≤ s.length - pos := by
  unfold substr
  rw [List.length_take, List.length_drop]
  omega

theorem substr_zero_length_le (s : List Char) (len : Nat) : (substr s 0 len).length ≤ len := by
  unfold substr
  simp

theorem parse_arguments_loop_length (cs : List Char) (depth : Int) (cur : List Char) :
    ∀ a ∈ parse_arguments_loop cs depth cur, a.length ≤ cur.length + cs.length := by
  induction cs generalizing depth cur with
  | nil => intro a ha; simp [parse_arguments_loop] at ha; subst ha; simp
  | cons c cs ih =>
    intro a ha
    simp only [parse_arguments_loop] at ha
    split at ha
    · have := ih _ _ a ha; simp at this ⊢; omega
    · split at ha
      · have := ih _ _ a ha; simp at this ⊢; omega
      · split at ha
        · rcases List.mem_cons.1 ha with h | h
          · subst h; simp
          · have := ih _ _ a h; simp at this ⊢; omega
        · have := ih _ _ a ha; simp at this ⊢; omega

theorem parse_arguments_length (args_str : List Char) :
    ∀ a ∈ parse_arguments args_str, a.length ≤ args_str.length := by
  intro a ha
  have := parse_arguments_loop_length args_str 0 [] a ha
  simpa using this

/-! ## The recursion of `evaluate_expression` -/

theorem eval_sides_congr {D T : Type} {ev1 ev2 : List Char → Result (JSONValue D)}
    (l r : List Char) (op : JSONValue D → JSONValue D → Result T)
    (hl : ev1 l = ev2 l) (hr : ev1 r = ev2 r) : eval_sides ev1 l r op = eval_sides ev2 l r op := by
  unfold eval_sides
  rw [hl, hr]

section Recursion

variable {D : Type} [Double D]

theorem min_collect_congr {ev1 ev2 : List Char → Result (JSONValue D)} (args : List (List Char))
    (h : ∀ a ∈ args, ev1 a = ev2 a) (m : D) : min_collect ev1 m args = min_collect ev2 m args := by
  induction args generalizing m with
  | nil => rfl
  | cons a as ih =>
    have ha : ev1 a = ev2 a := h a (List.mem_cons_self _ _)
    have has : ∀ b ∈ as, ev1 b = ev2 b := fun b hb => h b (List.mem_cons_of_mem _ hb)
    simp only [min_collect, ha]
    cases ev2 a with
    | error e => rfl
    | ok v =>
      cases v <;> simp only [ih has]

theorem max_collect_congr {ev1 ev2 : List Char → Result (JSONValue D)} (args : List (List Char))
    (h : ∀ a ∈ args, ev1 a = ev2 a) (m : D) : max_collect ev1 m args = max_collect ev2 m args := by
  induction args generalizing m with
  | nil => rfl
  | cons a as ih =>
    have ha : ev1 a = ev2 a := h a (List.mem_cons_self _ _)
    have has : ∀ b ∈ as, ev1 b = ev2 b := fun b hb => h b (List.mem_cons_of_mem _ hb)
    simp only [max_collect, ha]
    cases ev2 a with
    | error e => rfl
    | ok v =>
      cases v <;> simp only [ih has]

theorem sum_collect_congr {ev1 ev2 : List Char → Result (JSONValue D)} (args : List (List Char))
    (h : ∀ a ∈ args, ev1 a = ev2 a) (m : D) : sum_collect ev1 m args = sum_collect ev2 m args := by
  induction args generalizing m with
  | nil => rfl
  | cons a as ih =>
    have ha : ev1 a = ev2 a := h a (List.mem_cons_self _ _)
    have has : ∀ b ∈ as, ev1 b = ev2 b := fun b hb => h b (List.mem_cons_of_mem _ hb)
    simp only [sum_collect, ha]
    cases ev2 a with
    | error e => rfl
    | ok v =>
      cases v <;> simp only [ih has]

theorem avg_collect_congr {ev1 ev2 : List Char → Result (JSONValue D)} (args : List (List Char))
    (h : ∀ a ∈ args, ev1 a = ev2 a) (m : D × Int) :
    avg_collect ev1 m args = avg_collect ev2 m args := by
  induction args generalizing m with
  | nil => cases m; rfl
  | cons a as ih =>
    have ha : ev1 a = ev2 a := h a (List.mem_cons_self _ _)
    have has : ∀ b ∈ as, ev1 b = ev2 b := fun b hb => h b (List.mem_cons_of_mem _ hb)
    obtain ⟨s, c⟩ := m
    simp only [avg_collect, ha]
    cases ev2 a with
    | error e => rfl
    | ok v =>
      cases v <;> simp only [ih has]

/-- The function `evaluate_function` uses `ev` on its arguments only. -/
theorem evaluate_function_congr {ev1 ev2 : List Char → Result (JSONValue D)}
    (func_name : List Char) (args : List (List Char)) (h : ∀ a ∈ args, ev1 a = ev2 a) :
    evaluate_function ev1 func_name args = evaluate_function ev2 func_name args := by
  unfold evaluate_function
  rw [min_collect_congr args h, max_collect_congr args h, sum_collect_congr args h,
    avg_collect_congr args h]
  have h1 : ∀ (arg : List Char), args = [arg] → ev1 arg = ev2 arg := by
    intro arg ha
    exact h arg (by rw [ha]; exact List.mem_singleton_self _)
  cases args with
  | nil => rfl
  | cons a as =>
    cases as with
    | nil => simp only [h1 a rfl]
    | cons b bs => rfl

theorem split_left_lt {expr : List Char} {pos : Nat} (h : pos < expr.length) :
    (substr expr 0 pos).length < expr.length :=
  lt_of_le_of_lt (substr_zero_length_le expr pos) h

theorem split_right_lt {expr : List Char} {pos : Nat} (h : pos < expr.length) (k : Nat) :
    (expr.drop (pos + (k + 1))).length < expr.length := by
  rw [List.length_drop]
  omega

/-- The operator part uses `ev` on texts shorter than `expr` only. -/
theorem evaluate_operators_congr (root : JSONValue D)
    {ev1 ev2 : List Char → Result (JSONValue D)} (expr trimmed_expr : List Char)
    (h : ∀ s : List Char, s.length < expr.length → ev1 s = ev2 s) :
    evaluate_operators root ev1 expr trimmed_expr
      = evaluate_operators root ev2 expr trimmed_expr := by
  unfold evaluate_operators
  split
  · next pos hpos =>
    have hlt := find_str_lt (by decide) hpos
    exact eval_sides_congr _ _ _ (h _ (split_left_lt hlt)) (h _ (split_right_lt hlt 1))
  split
  · next pos hpos =>
    have hlt := find_str_lt (by decide) hpos
    exact eval_sides_congr _ _ _ (h _ (split_left_lt hlt)) (h _ (split_right_lt hlt 1))
  split
  · next pos hpos =>
    have hlt := find_str_lt (by decide) hpos
    exact eval_sides_congr _ _ _ (h _ (split_left_lt hlt)) (h _ (split_right_lt hlt 1))
  split
  · next pos hpos =>
    have hlt := find_char_lt hpos
    exact eval_sides_congr _ _ _ (h _ (split_left_lt hlt)) (h _ (split_right_lt hlt 0))
  split
  · next pos hpos =>
    have hlt := find_first_of_lt hpos
    rw [eval_sides_congr _ _ _ (h _ (split_left_lt hlt)) (h _ (split_right_lt hlt 0))]
  · rfl

/-- The arguments of a function call are shorter than the expression. -/
theorem call_args_lt (expr : List Char) (func_pos end_pos : Nat)
    (hf : find_char (trim expr) '(' = some (func_pos + 1)) :
    ∀ a ∈ parse_arguments
        (substr (trim expr) (func_pos + 1 + 1) (end_pos - (func_pos + 1) - 1)),
      a.length < expr.length := by
  intro a ha
  have h1 := parse_arguments_length _ a ha
  have h2 := substr_length_le (trim expr) (func_pos + 1 + 1) (end_pos - (func_pos + 1) - 1)
  have h3 := trim_length_le expr
  have h4 := find_char_lt hf
  omega

/-- The body of `evaluate_expression` uses `ev` on texts shorter than `expr` only. -/
theorem evaluate_expression_body_congr (root : JSONValue D)
    {ev1 ev2 : List Char → Result (JSONValue D)} (expr : List Char)
    (h : ∀ s : List Char, s.length < expr.length → ev1 s = ev2 s) :
    evaluate_expression_body root ev1 expr = evaluate_expression_body root ev2 expr := by
  unfold evaluate_expression_body
  simp only
  split
  · next func_pos hf =>
    split
    · rfl
    · next end_pos _ =>
      exact evaluate_function_congr _ _
        (fun a ha => h a (call_args_lt expr func_pos end_pos hf a ha))
  · exact evaluate_operators_congr root expr _ h

/-- Any fuel above the length of the expression gives the same result. -/
theorem evaluate_expression_fuel (root : JSONValue D) (n : Nat) :
    ∀ (m : Nat) (expr : List Char), expr.length < n → expr.length < m →
      evaluate_expression root n expr = evaluate_expression root m expr := by
  induction n with
  | zero => intro m expr h; omega
  | succ k ih =>
    intro m expr hn hm
    cases m with
    | zero => omega
    | succ j =>
      simp only [evaluate_expression]
      apply evaluate_expression_body_congr
      intro s hs
      exact ih j s (by omega) (by omega)

/-- The defining equation of `evaluate`: the body of `evaluate_expression` with `evaluate`
itself for the recursive calls. -/
theorem evaluate_unfold (root : JSONValue D) (expr : List Char) :
    evaluate root expr = evaluate_expression_body root (evaluate root) expr := by
  unfold evaluate
  simp only [evaluate_expression]
  apply evaluate_expression_body_congr
  intro s hs
  exact evaluate_expression_fuel root expr.length (s.length + 1) s hs (Nat.lt_succ_self _)

end Recursion

/-! ## The searches find the first occurrence -/

theorem find_str_eq_some_zero {s pat : List Char} (h : pat <+: s) : find_str s pat = some 0 := by
  cases s with
  | nil =>
    have : pat = [] := List.prefix_nil.1 h
    simp [find_str, this]
  | cons a as =>
    simp only [find_str]
    rw [if_pos (List.isPrefixOf_iff_prefix.2 h)]

theorem find_str_of_first {pat : List Char} (s : List Char) (pos : Nat)
    (h : Spec.FirstOccurrence pat s pos) : find_str s pat = some pos := by
  induction s generalizing pos with
  | nil =>
    obtain ⟨h1, h2⟩ := h
    simp only [List.drop_nil] at h1
    cases pos with
    | zero => exact find_str_eq_some_zero (by simpa using h1)
    | succ k => exact absurd (by simpa using h1) (h2 0 (Nat.succ_pos _))
  | cons a as ih =>
    obtain ⟨h1, h2⟩ := h
    cases pos with
    | zero => exact find_str_eq_some_zero (by simpa using h1)
    | succ k =>
      have h0 : ¬ pat <+: (a :: as) := by simpa using h2 0 (Nat.succ_pos _)
      simp only [find_str]
      rw [if_neg (fun hp => h0 (List.isPrefixOf_iff_prefix.1 hp))]
      have : find_str as pat = some k := by
        apply ih
        refine ⟨by simpa using h1, ?_⟩
        intro j hj
        have := h2 (j + 1) (by omega)
        simpa using this
      rw [this]; rfl

theorem find_str_none_of_not_occurs {pat : List Char} (s : List Char)
    (h : ¬ Spec.Occurs pat s) : find_str s pat = none := by
  induction s with
  | nil =>
    simp only [find_str]
    split
    · next hp => subst hp; exact absurd (List.nil_infix (l := [])) h
    · rfl
  | cons a as ih =>
    simp only [find_str]
    have h0 : ¬ pat <+: (a :: as) := fun hp => h hp.isInfix
    rw [if_neg (fun hp => h0 (List.isPrefixOf_iff_prefix.1 hp))]
    have : ¬ Spec.Occurs pat as := fun hp => h (List.infix_cons hp)
    rw [ih this]; rfl

theorem find_char_eq_find_str (s : List Char) (c : Char) : find_char s c = find_str s [c] := by
  induction s with
  | nil => simp [find_char, find_str]
  | cons a as ih =>
    simp only [find_char, find_str, ih]
    by_cases h : a = c
    · subst h; simp
    · have : ¬ ([c].isPrefixOf (a :: as) = true) := by
        simp [List.isPrefixOf]; exact fun e => h e.symm
      rw [if_neg h, if_neg this]

theorem find_first_of_of_first (chars : List Char) (s : List Char) (pos : Nat) (c : Char)
    (hc : c ∈ chars) (hget : s.get? pos = some c)
    (hbefore : ∀ j, j < pos → ∀ d, s.get? j = some d → d ∉ chars) :
    find_first_of s chars = some pos := by
  induction s generalizing pos with
  | nil => simp at hget
  | cons a as ih =>
    simp only [find_first_of]
    cases pos with
    | zero =>
      simp at hget
      subst hget
      rw [if_pos hc]
    | succ k =>
      have h0 : a ∉ chars := hbefore 0 (Nat.succ_pos _) a (by simp)
      rw [if_neg h0]
      have : find_first_of as chars = some k := by
        apply ih k (by simpa using hget)
        intro j hj d hd
        exact hbefore (j + 1) (by omega) d (by simpa using hd)
      rw [this]; rfl

theorem find_char_none_of_not_mem (s : List Char) (c : Char) (h : c ∉ s) :
    find_char s c = none := by
  induction s with
  | nil => rfl
  | cons a as ih =>
    simp only [find_char]
    rw [if_neg (fun e => h (by rw [e]; exact List.mem_cons_self _ _))]
    rw [ih (fun hm => h (List.mem_cons_of_mem _ hm))]; rfl

theorem find_char_of_head (s : List Char) (c : Char) (h : s.head? = some c) :
    find_char s c = some 0 := by
  cases s with
  | nil => simp at h
  | cons a as =>
    simp at h
    simp [find_char, h]

/-- An expression that is not a function call reaches the operator part. -/
theorem evaluate_not_call {D : Type} [Double D] (root : JSONValue D) (expr : List Char)
    (h : Spec.NotCall expr) :
    evaluate root expr = evaluate_operators root (evaluate root) expr (trim expr) := by
  rw [evaluate_unfold]
  unfold evaluate_expression_body
  rcases h with h | h
  · simp only [find_char_none_of_not_mem _ _ h]
  · simp only [find_char_of_head _ _ h]

theorem arith_op_eq {D : Type} [Double D] (c : Char) (hc : c ∈ Spec.arith_chars)
    (left right : JSONValue D) :
    arith_op c left right = (Spec.arithmetic c left right).map some := by
  unfold arith_op Spec.arithmetic
  cases left <;> cases right <;> try rfl
  simp only [Spec.arith_chars, List.mem_cons, List.mem_singleton, List.not_mem_nil, or_false] at hc
  rcases hc with h | h | h | h <;> subst h <;> simp only [Char.reduceEq, if_true, if_false]
    <;> first | rfl | (split <;> rfl)

/-- The split of the code is the split of the specification (section 4.3, step 2). -/
theorem evaluate_split {D : Type} [Double D] (root : JSONValue D) (expr : List Char)
    (op : Spec.Operator) (pos : Nat) (hcall : Spec.NotCall expr)
    (h : Spec.SplitAt expr op pos) :
    evaluate root expr
      = eval_sides (evaluate root) (expr.take pos) (expr.drop (pos + op.text.length))
          op.apply := by
  rw [evaluate_not_call root expr hcall]
  unfold evaluate_operators
  have e1 : "**".toList = ['*', '*'] := rfl
  have e2 : "&&".toList = ['&', '&'] := rfl
  have e3 : "||".toList = ['|', '|'] := rfl
  have e4 : "+-*/".toList = Spec.arith_chars := rfl
  have e5 : ∀ p, substr expr 0 p = expr.take p := fun p => by simp [substr]
  rw [e1, e2, e3, e4, find_char_eq_find_str]
  cases op with
  | pow =>
    simp only [Spec.SplitAt] at h
    simp only [find_str_of_first _ _ h, e5]; rfl
  | and =>
    obtain ⟨n1, h⟩ := h
    simp only [find_str_none_of_not_occurs _ n1, find_str_of_first _ _ h, e5]; rfl
  | or =>
    obtain ⟨n1, n2, h⟩ := h
    simp only [find_str_none_of_not_occurs _ n1, find_str_none_of_not_occurs _ n2,
      find_str_of_first _ _ h, e5]; rfl
  | mod =>
    obtain ⟨n1, n2, n3, h⟩ := h
    simp only [find_str_none_of_not_occurs _ n1, find_str_none_of_not_occurs _ n2,
      find_str_none_of_not_occurs _ n3, find_str_of_first _ _ h, e5]; rfl
  | arith c =>
    obtain ⟨n1, n2, n3, n4, hc, hget, hbefore⟩ := h
    simp only [find_str_none_of_not_occurs _ n1, find_str_none_of_not_occurs _ n2,
      find_str_none_of_not_occurs _ n3, find_str_none_of_not_occurs _ n4,
      find_first_of_of_first _ _ _ _ hc hget hbefore, e5]
    have hd : expr.getD pos ' ' = c := by
      rw [List.getD_eq_getElem?_getD, ← List.get?_eq_getElem?, hget]; rfl
    rw [hd]
    simp only [eval_sides, Spec.Operator.text, Spec.Operator.apply, List.length_singleton]
    cases evaluate root (List.take pos expr) with
    | error e => rfl
    | ok l =>
      cases evaluate root (List.drop (pos + 1) expr) with
      | error e => rfl
      | ok r =>
        simp only [arith_op_eq c hc]
        cases Spec.arithmetic c l r <;> rfl

theorem first_of_find_str {pat : List Char} (s : List Char) (pos : Nat)
    (h : find_str s pat = some pos) : Spec.FirstOccurrence pat s pos := by
  induction s generalizing pos with
  | nil =>
    simp only [find_str] at h
    split at h
    · next hp =>
      cases h
      subst hp
      exact ⟨List.nil_prefix, fun j hj => absurd hj (Nat.not_lt_zero _)⟩
    · cases h
  | cons a as ih =>
    simp only [find_str] at h
    split at h
    · next hp =>
      cases h
      exact ⟨by simpa using List.isPrefixOf_iff_prefix.1 hp, fun j hj => absurd hj (Nat.not_lt_zero _)⟩
    · next hp =>
      cases hf : find_str as pat with
      | none => simp [hf] at h
      | some q =>
        simp [hf] at h
        subst h
        obtain ⟨h1, h2⟩ := ih q hf
        refine ⟨by simpa using h1, ?_⟩
        intro j hj
        cases j with
        | zero => simpa using fun hpre => hp (List.isPrefixOf_iff_prefix.2 hpre)
        | succ k => simpa using h2 k (by omega)

theorem find_first_of_some {chars : List Char} (s : List Char) (pos : Nat)
    (h : find_first_of s chars = some pos) :
    ∃ c, c ∈ chars ∧ s.get? pos = some c
      ∧ ∀ j, j < pos → ∀ d, s.get? j = some d → d ∉ chars := by
  induction s generalizing pos with
  | nil => simp [find_first_of] at h
  | cons a as ih =>
    simp only [find_first_of] at h
    split at h
    · next hm =>
      cases h
      exact ⟨a, hm, by simp, fun j hj => absurd hj (Nat.not_lt_zero _)⟩
    · next hm =>
      cases hf : find_first_of as chars with
      | none => simp [hf] at h
      | some q =>
        simp [hf] at h
        subst h
        obtain ⟨c, hc, hg, hb⟩ := ih q hf
        refine ⟨c, hc, by simpa using hg, ?_⟩
        intro j hj d hd
        cases j with
        | zero =>
          simp at hd
          subst hd
          exact hm
        | succ k => exact hb k (by omega) d (by simpa using hd)

theorem find_first_of_none {chars : List Char} (s : List Char)
    (h : find_first_of s chars = none) : ∀ c ∈ s, c ∉ chars := by
  induction s with
  | nil => intro c hc; cases hc
  | cons a as ih =>
    simp only [find_first_of] at h
    split at h
    · cases h
    · next hm =>
      cases hf : find_first_of as chars with
      | some q => simp [hf] at h
      | none =>
        intro c hc
        rcases List.mem_cons.1 hc with h1 | h1
        · subst h1; exact hm
        · exact ih hf c h1

theorem mem_of_mem_dropWhile {α : Type} (p : α → Bool) {l : List α} {a : α}
    (h : a ∈ l.dropWhile p) : a ∈ l :=
  (List.dropWhile_suffix p).subset h

theorem mem_of_mem_trim {expr : List Char} {c : Char} (h : c ∈ trim expr) : c ∈ expr := by
  unfold trim at h
  rw [List.mem_reverse] at h
  have h1 := mem_of_mem_dropWhile _ h
  rw [List.mem_reverse] at h1
  exact mem_of_mem_dropWhile _ h1

theorem not_call_of_not_mem {expr : List Char} (h : '(' ∉ expr) : Spec.NotCall expr :=
  Or.inl (fun hm => h (mem_of_mem_trim hm))

theorem not_occurs_of_not_mem {pat s : List Char} (c : Char) (hc : c ∈ pat) (h : c ∉ s) :
    ¬ Spec.Occurs pat s :=
  fun ho => h (List.IsInfix.subset ho hc)

theorem first_occurrence_append (c : Char) (rest pre post : List Char) (h : c ∉ pre) :
    Spec.FirstOccurrence (c :: rest) (pre ++ (c :: rest) ++ post) pre.length := by
  constructor
  · rw [List.append_assoc, List.drop_left]
    exact List.prefix_append _ _
  · intro j hj hpre
    rw [List.append_assoc, List.drop_append_of_le_length (Nat.le_of_lt hj)] at hpre
    have hne : pre.drop j ≠ [] := by
      intro e
      have := congrArg List.length e
      simp at this
      omega
    obtain ⟨d, ds, hd⟩ := List.exists_cons_of_ne_nil hne
    rw [hd] at hpre
    obtain ⟨t, ht⟩ := hpre
    simp only [List.cons_append, List.cons.injEq] at ht
    have hmem : d ∈ pre := List.mem_of_mem_drop (by rw [hd]; exact List.mem_cons_self _ _)
    exact h (ht.1 ▸ hmem)

theorem get?_append_cons (pre post : List Char) (c : Char) :
    (pre ++ [c] ++ post).get? pre.length = some c := by
  rw [List.append_assoc, List.get?_eq_getElem?, List.getElem?_append_right (le_refl _)]
  simp

theorem get?_prefix_mem (pre post : List Char) (j : Nat) (hj : j < pre.length) (d : Char)
    (h : (pre ++ post).get? j = some d) : d ∈ pre := by
  rw [List.get?_eq_getElem?, List.getElem?_append_left hj] at h
  obtain ⟨hlt, he⟩ := List.getElem?_eq_some.1 h
  exact he ▸ List.getElem_mem hlt

/-- An operator between two texts, the left one free of the operator's first character (of
all four characters, for an arithmetic operator): when no operator of higher priority
occurs in the whole, the expression is split there. -/
theorem split_infix (op : Spec.Operator) (pre post : List Char)
    (hpre : ∀ c ∈ pre, (∃ d, op = .arith d) → c ∉ Spec.arith_chars)
    (hhead : ∀ c, op.text.head? = some c → c ∉ pre)
    (harith : ∀ d, op = .arith d → d ∈ Spec.arith_chars)
    (h1 : op ≠ .pow → ¬ Spec.Occurs ['*', '*'] (pre ++ op.text ++ post))
    (h2 : op ≠ .pow → op ≠ .and → ¬ Spec.Occurs ['&', '&'] (pre ++ op.text ++ post))
    (h3 : op ≠ .pow → op ≠ .and → op ≠ .or → ¬ Spec.Occurs ['|', '|'] (pre ++ op.text ++ post))
    (h4 : (∃ d, op = .arith d) → ¬ Spec.Occurs ['%'] (pre ++ op.text ++ post)) :
    Spec.SplitAt (pre ++ op.text ++ post) op pre.length := by
  cases op with
  | pow => exact first_occurrence_append _ _ _ _ (hhead '*' rfl)
  | and =>
    exact ⟨h1 (by simp), first_occurrence_append _ _ _ _ (hhead '&' rfl)⟩
  | or =>
    exact ⟨h1 (by simp), h2 (by simp) (by simp), first_occurrence_append _ _ _ _ (hhead '|' rfl)⟩
  | mod =>
    exact ⟨h1 (by simp), h2 (by simp) (by simp), h3 (by simp) (by simp) (by simp),
      first_occurrence_append _ _ _ _ (hhead '%' rfl)⟩
  | arith d =>
    refine ⟨h1 (by simp), h2 (by simp) (by simp), h3 (by simp) (by simp) (by simp),
      h4 ⟨d, rfl⟩, harith d rfl, get?_append_cons _ _ _, ?_⟩
    intro j hj c hc
    simp only [Spec.Operator.text, List.append_assoc] at hc
    exact hpre c (get?_prefix_mem _ _ j hj c hc) ⟨d, rfl⟩

theorem evaluate_infix {D : Type} [Double D] (root : JSONValue D) (op : Spec.Operator)
    (pre post : List Char) (hcall : Spec.NotCall (pre ++ op.text ++ post))
    (h : Spec.SplitAt (pre ++ op.text ++ post) op pre.length) :
    evaluate root (pre ++ op.text ++ post) = eval_sides (evaluate root) pre post op.apply := by
  rw [evaluate_split root _ op pre.length hcall h]
  congr 1
  · rw [List.append_assoc, List.take_left]
  · rw [List.append_assoc, ← List.drop_drop, List.drop_left, List.drop_left]

theorem plain_not_mem {s : List Char} {c : Char} (h : Spec.Plain s)
    (hc : c ∈ Spec.special_chars) : c ∉ s :=
  fun hm => h c hm hc

theorem not_mem_chain {c : Char} {x o1 y o2 z : List Char} (hx : c ∉ x) (h1 : c ∉ o1)
    (hy : c ∉ y) (h2 : c ∉ o2) (hz : c ∉ z) : c ∉ x ++ o1 ++ y ++ o2 ++ z := by
  simp only [List.mem_append, not_or]
  exact ⟨⟨⟨⟨hx, h1⟩, hy⟩, h2⟩, hz⟩

theorem not_mem_pair {c : Char} {x o1 y : List Char} (hx : c ∉ x) (h1 : c ∉ o1)
    (hy : c ∉ y) : c ∉ x ++ o1 ++ y := by
  simp only [List.mem_append, not_or]
  exact ⟨⟨hx, h1⟩, hy⟩

theorem not_occurs_pow_single (x y : List Char) (hx : '*' ∉ x) (hy : '*' ∉ y) :
    ¬ Spec.Occurs ['*', '*'] (x ++ ['*'] ++ y) := by
  intro ho
  have h := (List.IsInfix.sublist ho).count_le '*'
  simp only [List.count_append, List.count_eq_zero_of_not_mem hx,
    List.count_eq_zero_of_not_mem hy] at h
  simp at h

/-- A single arithmetic operator between two plain operands. -/
theorem evaluate_plain_arith {D : Type} [Double D] (root : JSONValue D) (c : Char)
    (hc : c ∈ Spec.arith_chars) (x y : List Char) (hx : Spec.Plain x) (hy : Spec.Plain y) :
    evaluate root (x ++ [c] ++ y) = eval_sides (evaluate root) x y (Spec.arithmetic c) := by
  have hmem : ∀ d, d ∈ Spec.special_chars → d ∉ [c] → d ∉ x ++ [c] ++ y := fun d hd hdc =>
    not_mem_pair (plain_not_mem hx hd) hdc (plain_not_mem hy hd)
  have hne : ∀ d, d ∉ Spec.arith_chars → d ∉ [c] := by
    intro d hd hm
    rw [List.mem_singleton] at hm
    exact hd (hm ▸ hc)
  refine evaluate_infix root (.arith c) x y
    (not_call_of_not_mem (hmem '(' (by decide) (hne _ (by decide)))) ?_
  refine split_infix (.arith c) x y ?_ ?_ ?_ ?_ ?_ ?_ ?_
  · intro d hd _ hda
    exact hx d hd (by
      simp only [Spec.arith_chars, List.mem_cons, List.mem_singleton, List.not_mem_nil,
        or_false] at hda
      rcases hda with h | h | h | h <;> subst h <;> decide)
  · intro d hd
    simp only [Spec.Operator.text, List.head?_cons, Option.some.injEq] at hd
    subst hd
    exact plain_not_mem hx (by
      simp only [Spec.arith_chars, List.mem_cons, List.mem_singleton, List.not_mem_nil,
        or_false] at hc
      rcases hc with h | h | h | h <;> subst h <;> decide)
  · intro d hd
    cases hd
    exact hc
  · intro _
    by_cases hs : c = '*'
    · subst hs
      exact not_occurs_pow_single x y (plain_not_mem hx (by decide))
        (plain_not_mem hy (by decide))
    · exact not_occurs_of_not_mem '*' (by simp)
        (hmem '*' (by decide) (by simpa using fun e => hs e.symm))
  · intro _ _
    exact not_occurs_of_not_mem '&' (by simp) (hmem '&' (by decide) (hne _ (by decide)))
  · intro _ _ _
    exact not_occurs_of_not_mem '|' (by simp) (hmem '|' (by decide) (hne _ (by decide)))
  · intro _
    exact not_occurs_of_not_mem '%' (by simp) (hmem '%' (by decide) (hne _ (by decide)))

theorem arith_special {c : Char} (hc : c ∈ Spec.arith_chars) : c ∈ Spec.special_chars := by
  simp only [Spec.arith_chars, List.mem_cons, List.mem_singleton, List.not_mem_nil,
    or_false] at hc
  rcases hc with h | h | h | h <;> subst h <;> decide

theorem not_mem_singleton_arith {c d : Char} (hc : c ∈ Spec.arith_chars)
    (hd : d ∉ Spec.arith_chars) : d ∉ [c] := by
  intro hm
  rw [List.mem_singleton] at hm
  exact hd (hm ▸ hc)

/-- Two arithmetic operators between three plain operands: the split is at the first. -/
theorem evaluate_plain_chain {D : Type} [Double D] (root : JSONValue D) (o1 o2 : Char)
    (h1 : o1 ∈ Spec.arith_chars) (h2 : o2 ∈ Spec.arith_chars) (x y z : List Char)
    (hx : Spec.Plain x) (hy : Spec.Plain y) (hz : Spec.Plain z)
    (hpow : ¬ Spec.Occurs ['*', '*'] (x ++ [o1] ++ y ++ [o2] ++ z)) :
    evaluate root (x ++ [o1] ++ y ++ [o2] ++ z)
      = eval_sides (evaluate root) x (y ++ [o2] ++ z) (Spec.arithmetic o1) := by
  have hmem : ∀ d, d ∈ Spec.special_chars → d ∉ Spec.arith_chars →
      d ∉ x ++ [o1] ++ y ++ [o2] ++ z := fun d hd hda =>
    not_mem_chain (plain_not_mem hx hd) (not_mem_singleton_arith h1 hda)
      (plain_not_mem hy hd) (not_mem_singleton_arith h2 hda) (plain_not_mem hz hd)
  have hassoc : x ++ [o1] ++ y ++ [o2] ++ z
      = x ++ (Spec.Operator.arith o1).text ++ (y ++ [o2] ++ z) := by
    simp [Spec.Operator.text]
  have hsplit : Spec.SplitAt (x ++ (Spec.Operator.arith o1).text ++ (y ++ [o2] ++ z))
      (.arith o1) x.length := by
    refine split_infix (.arith o1) x _ ?_ ?_ ?_ ?_ ?_ ?_ ?_
    · intro d hd _ hda
      exact hx d hd (arith_special hda)
    · intro d hd
      simp only [Spec.Operator.text, List.head?_cons, Option.some.injEq] at hd
      subst hd
      exact plain_not_mem hx (arith_special h1)
    · intro d hd
      cases hd
      exact h1
    · intro _; rw [← hassoc]; exact hpow
    · intro _ _; rw [← hassoc]
      exact not_occurs_of_not_mem '&' (by simp) (hmem '&' (by decide) (by decide))
    · intro _ _ _; rw [← hassoc]
      exact not_occurs_of_not_mem '|' (by simp) (hmem '|' (by decide) (by decide))
    · intro _; rw [← hassoc]
      exact not_occurs_of_not_mem '%' (by simp) (hmem '%' (by decide) (by decide))
  rw [hassoc]
  refine evaluate_infix root (.arith o1) x _ ?_ hsplit
  rw [← hassoc]
  exact not_call_of_not_mem (hmem '(' (by decide) (by decide))

theorem arithmetic_numbers {D : Type} [Double D] (c : Char) (l r : D) :
    (c = '+' → Spec.arithmetic c (.number l) (.number r) = .ok (.number (Double.add l r)))
      ∧ (c = '-' → Spec.arithmetic c (.number l) (.number r) = .ok (.number (Double.sub l r)))
      ∧ (c = '*' → Spec.arithmetic c (.number l) (.number r) = .ok (.number (Double.mul l r)))
      ∧ (c = '/' → Spec.arithmetic c (.number l) (.number r)
          = if Double.eq r (Double.zero : D) then
              .error (.EvalError .DivisionByZero "Division by zero".toList)
            else .ok (.number (Double.div l r))) := by
  refine ⟨?_, ?_, ?_, ?_⟩ <;> intro h <;> subst h <;> simp [Spec.arithmetic]

theorem eval_sides_ok {D T : Type} (ev : List Char → Result (JSONValue D))
    (left_expr right_expr : List Char) (op : JSONValue D → JSONValue D → Result T)
    (left right : JSONValue D) (hl : ev left_expr = .ok left) (hr : ev right_expr = .ok right) :
    eval_sides ev left_expr right_expr op = op left right := by
  simp only [eval_sides, hl, hr]

/-- C3: an expression with none of `(`, `%`, `&&`, `||`, `**` and at least one of the
characters `+ - * /` is split at the leftmost of these characters, whichever it is; when
both sides evaluate to Numbers `l` and `r` its value is `l + r`, `l - r`, `l * r` or `l / r`
(the division failing with DivisionByZero for a zero `r`).  Hence `x o1 y o2 z`, for
operands without operator characters, is `x o1 (y o2 z)`. -/
theorem C3_leftmost_arithmetic {D : Type} [Double D] (root : JSONValue D) :
    (∀ expr : List Char, '(' ∉ expr → '%' ∉ expr → ¬ Spec.Occurs ['&', '&'] expr →
      ¬ Spec.Occurs ['|', '|'] expr → ¬ Spec.Occurs ['*', '*'] expr →
      (∃ c ∈ expr, c ∈ Spec.arith_chars) →
      ∃ (pos : Nat) (c : Char), c ∈ Spec.arith_chars ∧ expr.get? pos = some c
        ∧ (∀ j, j < pos → ∀ d, expr.get? j = some d → d ∉ Spec.arith_chars)
        ∧ evaluate root expr
            = eval_sides (evaluate root) (expr.take pos) (expr.drop (pos + 1))
                (Spec.arithmetic c)
        ∧ ∀ l r : D, evaluate root (expr.take pos) = .ok (.number l) →
            evaluate root (expr.drop (pos + 1)) = .ok (.number r) →
            (c = '+' → evaluate root expr = .ok (.number (Double.add l r)))
              ∧ (c = '-' → evaluate root expr = .ok (.number (Double.sub l r)))
              ∧ (c = '*' → evaluate root expr = .ok (.number (Double.mul l r)))
              ∧ (c = '/' → evaluate root expr
                  = if Double.eq r (Double.zero : D) then
                      .error (.EvalError .DivisionByZero "Division by zero".toList)
                    else .ok (.number (Double.div l r))))
    ∧ (∀ (o1 o2 : Char) (x y z : List Char), o1 ∈ Spec.arith_chars → o2 ∈ Spec.arith_chars →
        Spec.Plain x → Spec.Plain y → Spec.Plain z →
        ¬ Spec.Occurs ['*', '*'] (x ++ [o1] ++ y ++ [o2] ++ z) →
        evaluate root (x ++ [o1] ++ y ++ [o2] ++ z)
            = eval_sides (evaluate root) x (y ++ [o2] ++ z) (Spec.arithmetic o1)
          ∧ evaluate root (y ++ [o2] ++ z)
            = eval_sides (evaluate root) y z (Spec.arithmetic o2)) := by
  constructor
  · intro expr hparen hmod hand hor hpow hsome
    have hnm : ¬ Spec.Occurs ['%'] expr := not_occurs_of_not_mem '%' (by simp) hmod
    cases hf : find_first_of expr Spec.arith_chars with
    | none =>
      obtain ⟨c, hc, hc2⟩ := hsome
      exact absurd hc2 (find_first_of_none _ hf c hc)
    | some pos =>
      obtain ⟨c, hc, hget, hbefore⟩ := find_first_of_some _ _ hf
      have heq := evaluate_split root expr (.arith c) pos (not_call_of_not_mem hparen)
        ⟨hpow, hand, hor, hnm, hc, hget, hbefore⟩
      refine ⟨pos, c, hc, hget, hbefore, heq, ?_⟩
      intro l r hl hr
      have hv : evaluate root expr = Spec.arithmetic c (.number l) (.number r) := by
        rw [heq]
        exact eval_sides_ok _ _ _ _ _ _ hl hr
      rw [hv]
      exact arithmetic_numbers c l r
  · intro o1 o2 x y z h1 h2 hx hy hz hpow
    exact ⟨evaluate_plain_chain root o1 o2 h1 h2 x y z hx hy hz hpow,
      evaluate_plain_arith root o2 h2 y z hy hz⟩

/-- C3 on the test document: `a.b[2] * a.b[3] + a.b[4]` is split at `*`, the leftmost of its
two operators, and is `1 * (2 + 3)`, that is 5. -/
theorem C3_leftmost_arithmetic_witness :
    (('*' ∈ Spec.arith_chars ∧ '+' ∈ Spec.arith_chars)
        ∧ (Spec.Plain (str "a.b[2] ") ∧ Spec.Plain (str " a.b[3] ")
          ∧ Spec.Plain (str " a.b[4]"))
        ∧ ¬ Spec.Occurs ['*', '*'] (str "a.b[2] * a.b[3] + a.b[4]"))
      ∧ (evaluate test_json (str "a.b[2] * a.b[3] + a.b[4]")
            = eval_sides (evaluate test_json) (str "a.b[2] ") (str " a.b[3] + a.b[4]")
                (Spec.arithmetic '*')
          ∧ evaluate test_json (str " a.b[3] + a.b[4]")
            = eval_sides (evaluate test_json) (str " a.b[3] ") (str " a.b[4]")
                (Spec.arithmetic '+'))
      ∧ evaluate test_json (str "a.b[2] * a.b[3] + a.b[4]") = .ok (num 5) :=
  ⟨⟨⟨by decide, by decide⟩, ⟨by decide, by decide, by decide⟩, by decide⟩,
    (C3_leftmost_arithmetic test_json).2 '*' '+' (str "a.b[2] ") (str " a.b[3] ")
      (str " a.b[4]") (by decide) (by decide) (by decide) (by decide) (by decide) (by decide),
    by decide⟩

theorem natAbs_tmod (a b : Int) : (Int.tmod a b).natAbs = a.natAbs % b.natAbs := by
  cases a <;> cases b <;> simp [Int.tmod, Int.natAbs_neg] <;> rfl

theorem tmod_nonpos (a b : Int) (h : a ≤ 0) : Int.tmod a b ≤ 0 := by
  cases a with
  | ofNat m =>
    have hm : m = 0 := by
      have : (m : Int) ≤ 0 := h
      omega
    subst hm
    simp
  | negSucc m =>
    cases b with
    | ofNat n =>
      show -((m.succ % n : Nat) : Int) ≤ 0
      omega
    | negSucc n =>
      show -((m.succ % n.succ : Nat) : Int) ≤ 0
      omega

/-- C8 as stated fails: on the document `{"l": 2147483648, "r": 3}` the expression `l % r`
is split at `%`, its sides are the Numbers 2147483648 and 3, and the claim gives
`2147483648 rem 3`; but `static_cast<int>(2147483648.0)` is not representable in `int`, the
behaviour is undefined and no such Number is returned. -/
theorem C8_modulus_counterexample :
    (parse (str "\x7b\"l\": 2147483648, \"r\": 3\x7d") = .ok wide_json
        ∧ Spec.NotCall (str "l % r") ∧ Spec.SplitAt (str "l % r") .mod 2
        ∧ evaluate wide_json (str "l ") = .ok (num 2147483648)
        ∧ evaluate wide_json (str " r") = .ok (num 3))
      ∧ evaluate wide_json (str "l % r") = .error .undefined_behavior
      ∧ evaluate wide_json (str "l % r")
          ≠ .ok (.number (Double.ofInt (Int.tmod 2147483648 3))) := by
  decide

/-- C8, amended: when an expression is split at `%` and its sides evaluate to Numbers `l`
and `r` whose truncations `a` and `b` are representable in `int`, with `b` not zero and not
`a = INT_MIN, b = -1`, it returns the Number `a rem b`, the remainder of the division
truncated toward zero (it has the sign of `a` and is smaller than `b` in absolute value);
when both sides evaluate and one of them is not a Number it fails with TypeMismatch. -/
theorem C8_modulus {D : Type} [Double D] (root : JSONValue D) (expr : List Char) (pos : Nat)
    (hcall : Spec.NotCall expr) (hsplit : Spec.SplitAt expr .mod pos) :
    (∀ (l r : D) (a b : Int), evaluate root (expr.take pos) = .ok (.number l) →
      evaluate root (expr.drop (pos + 1)) = .ok (.number r) →
      Double.toInt l = some a → Double.toInt r = some b → b ≠ 0 →
      ¬ (a = INT_MIN ∧ b = -1) →
      evaluate root expr = .ok (.number (Double.ofInt (Int.tmod a b)))
        ∧ Int.tmod a b = a - b * Int.tdiv a b
        ∧ (0 ≤ a → 0 ≤ Int.tmod a b) ∧ (a ≤ 0 → Int.tmod a b ≤ 0)
        ∧ (Int.tmod a b).natAbs < b.natAbs)
    ∧ (∀ vl vr : JSONValue D, evaluate root (expr.take pos) = .ok vl →
        evaluate root (expr.drop (pos + 1)) = .ok vr →
        (vl.is_number = false ∨ vr.is_number = false) →
        evaluate root expr
          = .error (.EvalError .TypeMismatch "% requires numeric operands".toList)) := by
  have heq := evaluate_split root expr .mod pos hcall hsplit
  simp only [Spec.Operator.text, List.length_singleton, Spec.Operator.apply] at heq
  constructor
  · intro l r a b hl hr ha hb hb0 hmin
    refine ⟨?_, ?_, ?_, ?_, ?_⟩
    · rw [heq, eval_sides_ok _ _ _ _ _ _ hl hr]
      simp only [mod_op, ha, hb, int_rem]
      rw [if_neg (by
        intro h
        rcases h with h | h
        · exact hb0 h
        · exact hmin h)]
    · have := Int.tmod_add_tdiv a b
      omega
    · intro h0
      exact Int.tmod_nonneg b h0
    · intro h0
      exact tmod_nonpos a b h0
    · rw [natAbs_tmod]
      exact Nat.mod_lt _ (Int.natAbs_pos.2 hb0)
  · intro vl vr hl hr hnot
    rw [heq, eval_sides_ok _ _ _ _ _ _ hl hr]
    cases vl <;> cases vr <;> simp [JSONValue.is_number] at hnot <;> rfl

/-- C8 on the test document: `a.b[5][1] % a.b[4]` is `10 % 3`, that is 1. -/
theorem C8_modulus_witness :
    (Spec.NotCall (str "a.b[5][1] % a.b[4]")
        ∧ Spec.SplitAt (str "a.b[5][1] % a.b[4]") .mod 10
        ∧ evaluate test_json (str "a.b[5][1] ") = .ok (num 10)
        ∧ evaluate test_json (str " a.b[4]") = .ok (num 3)
        ∧ Double.toInt (XDouble.fin 10 1) = some 10 ∧ Double.toInt (XDouble.fin 3 1) = some 3
        ∧ (3 : Int) ≠ 0 ∧ ¬ ((10 : Int) = INT_MIN ∧ (3 : Int) = -1))
      ∧ evaluate test_json (str "a.b[5][1] % a.b[4]") = .ok (num 1) :=
  ⟨⟨by decide, by decide, by decide, by decide, by decide, by decide, by decide, by decide⟩,
    ((C8_modulus test_json (str "a.b[5][1] % a.b[4]") 10 (by decide) (by decide)).1
      (.fin 10 1) (.fin 3 1) 10 3 (by decide) (by decide) (by decide) (by decide) (by decide)
      (by decide)).1⟩

theorem find_first_of_eq_none {chars : List Char} (s : List Char)
    (h : ∀ c ∈ s, c ∉ chars) : find_first_of s chars = none := by
  induction s with
  | nil => rfl
  | cons a as ih =>
    simp only [find_first_of]
    rw [if_neg (h a (List.mem_cons_self _ _)),
      ih (fun c hc => h c (List.mem_cons_of_mem _ hc))]
    rfl

/-- A text without parenthesis and operator characters is evaluated as a path. -/
theorem evaluate_plain {D : Type} [Double D] (root : JSONValue D) (path : List Char)
    (h : Spec.Plain path) : evaluate root path = evaluate_json_path root (trim path) := by
  rw [evaluate_not_call root path (not_call_of_not_mem (plain_not_mem h (by decide)))]
  unfold evaluate_operators
  have e1 : "**".toList = ['*', '*'] := rfl
  have e2 : "&&".toList = ['&', '&'] := rfl
  have e3 : "||".toList = ['|', '|'] := rfl
  have e4 : "+-*/".toList = Spec.arith_chars := rfl
  rw [e1, e2, e3, e4, find_char_eq_find_str,
    find_str_none_of_not_occurs _
      (not_occurs_of_not_mem '*' (by simp) (plain_not_mem h (by decide))),
    find_str_none_of_not_occurs _
      (not_occurs_of_not_mem '&' (by simp) (plain_not_mem h (by decide))),
    find_str_none_of_not_occurs _
      (not_occurs_of_not_mem '|' (by simp) (plain_not_mem h (by decide))),
    find_str_none_of_not_occurs _
      (not_occurs_of_not_mem '%' (by simp) (plain_not_mem h (by decide))),
    find_first_of_eq_none _ (fun c hc hca => h c hc (arith_special hca))]


theorem takeWhile_append_stop {α : Type} (p : α → Bool) (l rest : List α)
    (hl : ∀ a ∈ l, p a = true) (hrest : ∀ a, rest.head? = some a → p a = false) :
    (l ++ rest).takeWhile p = l ∧ (l ++ rest).dropWhile p = rest := by
  induction l with
  | nil =>
    cases rest with
    | nil => simp
    | cons a as =>
      have := hrest a rfl
      simp [List.takeWhile, List.dropWhile, this]
  | cons b bs ih =>
    have hb := hl b (List.mem_cons_self _ _)
    have ih' := ih (fun a ha => hl a (List.mem_cons_of_mem _ ha))
    simp [List.takeWhile, List.dropWhile, hb, ih'.1, ih'.2]

theorem dropWhile_eq_self {α : Type} (p : α → Bool) (l : List α)
    (h : ∀ a ∈ l, p a = false) : l.dropWhile p = l := by
  cases l with
  | nil => rfl
  | cons a as => simp [List.dropWhile, h a (List.mem_cons_self _ _)]

theorem trim_eq_self (s : List Char) (h : ∀ c ∈ s, is_trim_char c = false) : trim s = s := by
  unfold trim
  rw [dropWhile_eq_self _ s h,
    dropWhile_eq_self _ s.reverse (fun c hc => h c (List.mem_reverse.1 hc)),
    List.reverse_reverse]

theorem segments_text_head (segs : List Spec.Segment) (a : Char)
    (h : (Spec.segments_text segs).head? = some a) : is_ident_char a = false := by
  cases segs with
  | nil => simp [Spec.segments_text] at h
  | cons seg segs =>
    cases seg <;> simp [Spec.segments_text, Spec.Segment.text] at h <;> subst h <;> decide

theorem isdigit_not_isspace (c : Char) (h : isdigit c = true) : isspace c = false := by
  simp only [isdigit, Bool.and_eq_true, decide_eq_true_eq] at h
  have h0 : '0'.toNat = 48 := rfl
  have h9 : '9'.toNat = 57 := rfl
  rw [h0, h9] at h
  simp only [isspace, Bool.or_eq_false_iff, decide_eq_false_iff_not]
  refine ⟨⟨⟨⟨⟨?_, ?_⟩, ?_⟩, ?_⟩, ?_⟩, ?_⟩ <;> intro e <;> subst e <;> simp at h

theorem stoul_digits (c : List Char) (hne : c ≠ []) (hd : c.all isdigit = true) :
    stoul c = if digits_value 0 c > ULONG_MAX then .error .out_of_range
      else .ok (digits_value 0 c) := by
  have hall : ∀ a ∈ c, isdigit a = true := by simpa using hd
  obtain ⟨a, as, rfl⟩ := List.exists_cons_of_ne_nil hne
  have ha := hall a (List.mem_cons_self _ _)
  have h1 : (a :: as).dropWhile isspace = a :: as := by
    simp [List.dropWhile, isdigit_not_isspace a ha]
  have h2 : (a :: as).takeWhile isdigit = a :: as := by
    have := (takeWhile_append_stop isdigit (a :: as) [] hall (by simp)).1
    simpa using this
  have hm : a ≠ '-' := by intro e; subst e; simp [isdigit] at ha
  have hp : a ≠ '+' := by intro e; subst e; simp [isdigit] at ha
  have hs : stoul_sign (a :: as) = (false, a :: as) := by
    unfold stoul_sign
    split
    · next r heq => cases heq; exact absurd rfl hm
    · next r heq => cases heq; exact absurd rfl hp
    · rfl
  unfold stoul
  simp only [h1, hs, h2]
  simp

/-- The loop of `evaluate_json_path` on the text of a list of segments is the reference
walk, when no all-digit index exceeds `ULONG_MAX`. -/
theorem evaluate_json_path_loop_walk {D : Type} [Double D] (segs : List Spec.Segment) :
    ∀ (fuel : Nat) (current : JSONValue D),
      (Spec.segments_text segs).length < fuel →
      (∀ seg ∈ segs, seg.WellFormed) →
      (∀ c, Spec.Segment.index c ∈ segs → c ≠ [] → c.all isdigit = true →
        digits_value 0 c ≤ ULONG_MAX) →
      evaluate_json_path_loop fuel current (Spec.segments_text segs) = Spec.walk current segs := by
  induction segs with
  | nil =>
    intro fuel current hf _ _
    cases fuel with
    | zero => simp at hf
    | succ n => rfl
  | cons seg segs ih =>
    intro fuel current hf hwf hidx
    cases fuel with
    | zero => simp at hf
    | succ n =>
      have hwf' : ∀ s ∈ segs, s.WellFormed := fun s hs => hwf s (List.mem_cons_of_mem _ hs)
      have hidx' : ∀ c, Spec.Segment.index c ∈ segs → c ≠ [] → c.all isdigit = true →
          digits_value 0 c ≤ ULONG_MAX := fun c hc => hidx c (List.mem_cons_of_mem _ hc)
      cases seg with
      | key name =>
        have hname : ∀ c ∈ name, is_ident_char c = true := hwf _ (List.mem_cons_self _ _)
        have hsplit := takeWhile_append_stop is_ident_char name (Spec.segments_text segs)
          hname (segments_text_head segs)
        have hlen : (Spec.segments_text segs).length < n := by
          simp [Spec.segments_text, Spec.Segment.text] at hf
          omega
        simp only [Spec.segments_text, Spec.Segment.text, List.cons_append,
          evaluate_json_path_loop, if_true, hsplit.1, hsplit.2, Spec.walk, Spec.step]
        cases current <;> simp only [JSONValue.is_object, Bool.not_true, Bool.not_false,
          if_true, if_false, Bool.false_eq_true, get_value]
        case object o =>
          cases JSONObject.find o name with
          | none => rfl
          | some v => exact ih n v hlen hwf' hidx'
      | index content =>
        have hcontent : ']' ∉ content := hwf _ (List.mem_cons_self _ _)
        have hsplit := takeWhile_append_stop (· ≠ ']') content
          (']' :: Spec.segments_text segs)
          (fun c hc => by
            simp only [ne_eq, decide_not, Bool.not_eq_true', decide_eq_false_iff_not]
            intro e; exact hcontent (e ▸ hc))
          (fun a ha => by simp at ha; subst ha; simp)
        have hlen : (Spec.segments_text segs).length < n := by
          simp [Spec.segments_text, Spec.Segment.text] at hf
          omega
        have hne : ('[' : Char) ≠ '.' := by decide
        simp only [Spec.segments_text, Spec.Segment.text, List.cons_append, List.append_assoc,
          List.singleton_append, List.nil_append, evaluate_json_path_loop, if_neg hne, if_true,
          hsplit.1, hsplit.2, Spec.walk, Spec.step]
        by_cases hdig : content ≠ [] ∧ content.all isdigit = true
        · rw [if_pos hdig, if_pos hdig, stoul_digits content hdig.1 hdig.2]
          have hle := hidx content (List.mem_cons_self _ _) hdig.1 hdig.2
          rw [if_neg (by omega)]
          cases current with
          | array a =>
            simp only []
            cases a.get? (digits_value 0 content) with
            | none => rfl
            | some v => exact ih n v hlen hwf' hidx'
          | _ => rfl
        · rw [if_neg hdig, if_neg hdig]

/-- Path resolution is the reference walk: on a root Mapping, the value of a path made of
an identifier and well-formed segments, with no blank, operator or parenthesis character,
is the result of the walk, when no all-digit index exceeds `ULONG_MAX`. -/
theorem evaluate_path_walk {D : Type} [Double D] (o : JSONObject D) (first : List Char)
    (segs : List Spec.Segment) (hfirst : ∀ c ∈ first, is_ident_char c = true)
    (hwf : ∀ seg ∈ segs, seg.WellFormed)
    (hplain : Spec.Plain (Spec.path_text first segs))
    (hblank : ∀ c ∈ Spec.path_text first segs, is_trim_char c = false)
    (hidx : ∀ c, Spec.Segment.index c ∈ segs → c ≠ [] → c.all isdigit = true →
      digits_value 0 c ≤ ULONG_MAX) :
    evaluate (.object o) (Spec.path_text first segs) = Spec.resolve o first segs := by
  rw [evaluate_plain _ _ hplain, trim_eq_self _ hblank]
  have hsplit := takeWhile_append_stop is_ident_char first (Spec.segments_text segs)
    hfirst (segments_text_head segs)
  unfold evaluate_json_path Spec.resolve Spec.path_text
  simp only [hsplit.1, hsplit.2, get_value]
  cases JSONObject.find o first with
  | none => rfl
  | some v => exact evaluate_json_path_loop_walk segs _ v (Nat.lt_succ_self _) hwf hidx

/-! ## Paths and aggregate calls -/

theorem sum_items_numbers {D : Type} [Double D] (ds : List D) (sum : D) :
    sum_items sum (ds.map JSONValue.number) = .ok (ds.foldl Double.add sum) := by
  induction ds generalizing sum with
  | nil => rfl
  | cons d ds ih => simp only [List.map_cons, sum_items, List.foldl_cons, ih]

theorem evaluate_function_sum {D : Type} [Double D] (ev : List Char → Result (JSONValue D))
    (args : List (List Char)) :
    evaluate_function ev (str "sum") args
      = (match sum_collect ev (Double.zero : D) args with
        | Except.error e => Except.error e
        | Except.ok sum => Except.ok (JSONValue.number sum) : Result (JSONValue D)) := by
  unfold evaluate_function
  rw [if_neg (by decide), if_neg (by decide), if_neg (by decide), if_pos rfl]

/-- C4 as stated fails: in `{"a": {"b": [1, 2, 3]}}` the path `a.b` is a Sequence of
Numbers, but `sum(1,2,a.b)` does not return 9: the argument `1` is resolved as a key of the
root, and the call fails with KeyNotFound. -/
theorem C4_sum_literals_counterexample :
    evaluate sum_json (str "a.b") = .ok (.array [num 1, num 2, num 3])
      ∧ evaluate sum_json (str "sum(1,2,a.b)")
          = .error (.EvalError .KeyNotFound (str "Key not found: 1"))
      ∧ evaluate sum_json (str "sum(1,2,a.b)") ≠ .ok (num 9) := by
  decide

/-- C4, amended: in `sum(1,2,a.b)` the arguments `1` and `2` are keys of the root Mapping,
not numeric literals.  For every root Mapping in which `a.b` is a Sequence of Numbers, the
call fails with KeyNotFound when the root has no key `1`; when the root maps the keys `1`
and `2` to Numbers `u` and `v` it returns `0 + u + v` plus the elements of `a.b`, added
from left to right: Number arguments and Sequence arguments are mixed in one call. -/
theorem C4_sum_mixed {D : Type} [Double D] (o oa : JSONObject D) (ds : List D)
    (ha : JSONObject.find o (str "a") = some (.object oa))
    (hb : JSONObject.find oa (str "b") = some (.array (ds.map JSONValue.number))) :
    (JSONObject.find o (str "1") = none →
        evaluate (.object o) (str "sum(1,2,a.b)")
          = .error (.EvalError .KeyNotFound (str "Key not found: 1")))
      ∧ (∀ u v : D, JSONObject.find o (str "1") = some (.number u) →
          JSONObject.find o (str "2") = some (.number v) →
          evaluate (.object o) (str "sum(1,2,a.b)")
            = .ok (.number (ds.foldl Double.add
                (Double.add (Double.add (Double.zero : D) u) v)))) := by
  have hcall : evaluate (.object o) (str "sum(1,2,a.b)")
      = evaluate_function (evaluate (.object o)) (str "sum") [str "1", str "2", str "a.b"] := by
    rw [evaluate_unfold]
    rfl
  have h1 : evaluate (.object o) (str "1") = Spec.resolve o (str "1") [] :=
    evaluate_path_walk o (str "1") [] (by decide) (by simp) (by decide) (by decide) (by simp)
  have h2 : evaluate (.object o) (str "2") = Spec.resolve o (str "2") [] :=
    evaluate_path_walk o (str "2") [] (by decide) (by simp) (by decide) (by decide) (by simp)
  have h3 : evaluate (.object o) (str "a.b") = .ok (.array (ds.map JSONValue.number)) := by
    have h := evaluate_path_walk o (str "a") [.key (str "b")] (by decide) (by decide)
      (by decide) (by decide) (by simp)
    simp only [Spec.resolve, Spec.walk, Spec.step, ha, hb] at h
    exact h
  constructor
  · intro hn
    rw [hcall]
    have : evaluate (.object o) (str "1")
        = .error (.EvalError .KeyNotFound (str "Key not found: 1")) := by
      rw [h1]; simp only [Spec.resolve, hn]; rfl
    rw [evaluate_function_sum]
    simp only [sum_collect, this]
  · intro u v hu hv
    rw [hcall]
    have e1 : evaluate (.object o) (str "1") = .ok (.number u) := by
      rw [h1]; simp only [Spec.resolve, Spec.walk, hu]
    have e2 : evaluate (.object o) (str "2") = .ok (.number v) := by
      rw [h2]; simp only [Spec.resolve, Spec.walk, hv]
    rw [evaluate_function_sum]
    simp only [sum_collect, e1, e2, h3, sum_items_numbers]

/-- C4, amended, on two documents: without the keys `1` and `2` the call fails with
KeyNotFound; with `{"1": 10, "2": 20, "a": {"b": [1, 2, 3]}}` it returns 36. -/
theorem C4_sum_mixed_witness :
    (JSONObject.find [(str "a", JSONValue.object [(str "b", .array [num 1, num 2, num 3])])]
          (str "1") = none
        ∧ evaluate sum_json (str "sum(1,2,a.b)")
          = .error (.EvalError .KeyNotFound (str "Key not found: 1")))
      ∧ evaluate keyed_json (str "sum(1,2,a.b)") = .ok (num 36) :=
  ⟨⟨by decide,
      (C4_sum_mixed [(str "a", JSONValue.object [(str "b", .array [num 1, num 2, num 3])])]
        [(str "b", .array [num 1, num 2, num 3])] [.fin 1 1, .fin 2 1, .fin 3 1]
        (by decide) (by decide)).1 (by decide)⟩,
    (C4_sum_mixed [(str "1", num 10), (str "2", num 20),
        (str "a", JSONValue.object [(str "b", .array [num 1, num 2, num 3])])]
      [(str "b", .array [num 1, num 2, num 3])] [.fin 1 1, .fin 2 1, .fin 3 1]
      (by decide) (by decide)).2 (.fin 10 1) (.fin 20 1) (by decide) (by decide)⟩

/-- C1 at the failing input: on the test document, the all-digit index of
`a.b[99999999999999999999]` is not below the length 7 of `a.b`, yet the path does not fail
with IndexOutOfBounds: the index exceeds `ULONG_MAX`, `std::stoul` throws
`std::out_of_range`, and `evaluate_json_path` lets it escape (it is no `EvalError`).  The
sibling `get_value` catches the same exception of the same call and reports an index out of
range. -/
theorem C1_index_overflow :
    (str "99999999999999999999").all isdigit = true
      ∧ digits_value 0 (str "99999999999999999999") ≥ 7
      ∧ evaluate test_json (str "a.b[6]") = .ok (.object [(str "c", .string (str "test"))])
      ∧ evaluate test_json (str "a.b[7]")
          = .error (.EvalError .IndexOutOfBounds (str "Array index out of bounds: 7"))
      ∧ evaluate test_json (str "a.b[99999999999999999999]") = .error .out_of_range
      ∧ Exception.kind? .out_of_range = none
      ∧ get_value (.array [num 0, num 1] : JSONValue XDouble) (str "99999999999999999999")
          = .error (.EvalError .IndexOutOfBounds
              (str "Array index out of range: 99999999999999999999")) := by
  decide

/-- The examples of C1 on the test document. -/
theorem path_examples :
    evaluate test_json (str "a.b[0]") = .ok (num 0)
      ∧ evaluate test_json (str "a.b[4]") = .ok (num 3)
      ∧ evaluate test_json (str "a.b[5][2]") = .ok (num 20)
      ∧ evaluate test_json (str "a.b[6].c") = .ok (.string (str "test"))
      ∧ evaluate test_json (str "a.b[99]")
          = .error (.EvalError .IndexOutOfBounds (str "Array index out of bounds: 99"))
      ∧ evaluate test_json (str "a.b[x]")
          = .error (.EvalError .InvalidIndex
              (str "Invalid array index: x (must be an integer).")) := by
  decide

/-- C10 at the failing input: on the document `{"m": -1, "z": 0}` the argument of
`min(z ** m)` evaluates to a Number, `pow(0, -1)`, which is +infinity; one number
contributes, yet the call fails with EmptyInput, because the result equals the initial value
of `min_value`.  The sibling `avg` counts the contributing numbers and returns this one. -/
theorem C10_min_infinity :
    parse (str "\x7b\"m\": -1, \"z\": 0\x7d") = .ok pole_json
      ∧ evaluate pole_json (str "z ** m") = .ok (.number XDouble.pinf)
      ∧ evaluate pole_json (str "min(z ** m)")
          = .error (.EvalError .EmptyInput (str "min requires at least one numeric value"))
      ∧ evaluate pole_json (str "avg(z ** m)") = .ok (.number XDouble.pinf) := by
  decide

/-- C5 as stated fails: `1 x`, `nullx` and `[1] 2` carry a non-blank character after their
first complete value, and `parse` returns that first value for each of them. -/
theorem C5_trailing_text_counterexample :
    (parse (str "1 x") : Result (JSONValue XDouble)) = .ok (num 1)
      ∧ (parse (str "nullx") : Result (JSONValue XDouble)) = .ok .null
      ∧ (parse (str "[1] 2") : Result (JSONValue XDouble)) = .ok (.array [num 1]) := by
  decide

theorem peek_cons_of_ne {s : List Char} (h : peek s ≠ '\x00') : s = peek s :: advance s := by
  cases s with
  | nil => exact absurd rfl h
  | cons a as => rfl

theorem peek_cons_of_isdigit {s : List Char} (h : isdigit (peek s) = true) :
    s = peek s :: advance s :=
  peek_cons_of_ne (fun e => by rw [e] at h; exact absurd h (by decide))

theorem takeWhile_isdigit_ne_nil {s : List Char} (h : isdigit (peek s) = true) :
    s.takeWhile isdigit ≠ [] := by
  rw [peek_cons_of_isdigit h]
  simp [List.takeWhile, h]

theorem takeWhile_head {s : List Char} (h : isdigit (peek s) = true) :
    (s.takeWhile isdigit).head? = some (peek s) := by
  conv => lhs; rw [peek_cons_of_isdigit h]
  simp [List.takeWhile, h]

theorem sign_rel_iff (s s1 : List Char) :
    ((peek s ≠ '-' ∧ s1 = s) ∨ s = '-' :: s1)
      ↔ (if peek s = '-' then advance s else s) = s1 := by
  by_cases hm : peek s = '-'
  · rw [if_pos hm]
    constructor
    · rintro (⟨h, _⟩ | h)
      · exact absurd hm h
      · rw [h]; rfl
    · intro h
      right
      have := peek_cons_of_ne (s := s) (by rw [hm]; decide)
      rw [hm, h] at this
      exact this
  · rw [if_neg hm]
    constructor
    · rintro (⟨_, h⟩ | h)
      · exact h.symm
      · rw [h] at hm; exact absurd rfl hm
    · intro h
      exact Or.inl ⟨hm, h.symm⟩

theorem scan_int_part_ok (s s2 : List Char) (h : scan_int_part s = .ok s2) :
    ∃ ip, Spec.IntPart ip ∧ s = ip ++ s2 := by
  unfold scan_int_part at h
  by_cases h0 : peek s = '0'
  · rw [if_pos h0] at h
    cases h
    refine ⟨['0'], Or.inl rfl, ?_⟩
    have := peek_cons_of_ne (s := s) (by rw [h0]; decide)
    rw [h0] at this
    exact this
  · by_cases hd : isdigit (peek s) = true
    · rw [if_neg h0, if_pos hd] at h
      cases h
      refine ⟨s.takeWhile isdigit, Or.inr ⟨takeWhile_isdigit_ne_nil hd,
        fun c hc => List.mem_takeWhile_imp hc, ?_⟩,
        (List.takeWhile_append_dropWhile _ _).symm⟩
      rw [takeWhile_head hd]
      intro e
      exact h0 (Option.some.inj e)
    · rw [if_neg h0, if_neg hd] at h
      cases h

theorem scan_fraction_ok (s rest : List Char) (h : scan_fraction s = .ok rest) :
    ∃ fp, Spec.FracPart fp ∧ s = fp ++ rest := by
  unfold scan_fraction at h
  by_cases hdot : peek s = '.'
  · rw [if_pos hdot] at h
    by_cases hd : isdigit (peek (advance s)) = true
    · simp only [hd, Bool.not_true, Bool.false_eq_true, if_false] at h
      cases h
      refine ⟨'.' :: (advance s).takeWhile isdigit,
        Or.inr ⟨_, takeWhile_isdigit_ne_nil hd, fun c hc => List.mem_takeWhile_imp hc, rfl⟩,
        ?_⟩
      have h2 := peek_cons_of_ne (s := s) (by rw [hdot]; decide)
      rw [hdot] at h2
      conv => lhs; rw [h2, ← List.takeWhile_append_dropWhile isdigit (advance s)]
      simp
    · simp only [hd, Bool.not_false, if_true] at h
      cases h
  · rw [if_neg hdot] at h
    cases h
    exact ⟨[], Or.inl rfl, rfl⟩

/-- What `scan_number` reads when it succeeds is a token of the number grammar. -/
theorem scan_number_ok (s rest : List Char) (h : scan_number s = .ok rest) :
    ∃ token, s = token ++ rest ∧ Spec.NumberToken token := by
  unfold scan_number at h
  cases hi : scan_int_part (if peek s = '-' then advance s else s) with
  | error e => rw [hi] at h; cases h
  | ok s2 =>
    rw [hi] at h
    simp only at h
    obtain ⟨ip, hip, hs1⟩ := scan_int_part_ok _ _ hi
    obtain ⟨fp, hfp, hs2⟩ := scan_fraction_ok _ _ h
    rcases (sign_rel_iff s _).2 rfl with ⟨_, hs⟩ | hs
    · refine ⟨ip ++ fp, ?_, [], ip, fp, Or.inl rfl, hip, hfp, by simp⟩
      rw [List.append_assoc, ← hs2, ← hs1]
      exact hs.symm
    · refine ⟨'-' :: (ip ++ fp), ?_, ['-'], ip, fp, Or.inr rfl, hip, hfp, by simp⟩
      rw [List.cons_append, List.append_assoc, ← hs2, ← hs1]
      exact hs

theorem peek_append {s : List Char} (t : List Char) (h : s ≠ []) : peek (s ++ t) = peek s := by
  cases s with
  | nil => exact absurd rfl h
  | cons a as => rfl

theorem advance_append {s : List Char} (t : List Char) (h : s ≠ []) :
    advance (s ++ t) = advance s ++ t := by
  cases s with
  | nil => exact absurd rfl h
  | cons a as => rfl

theorem ne_nil_of_peek {s : List Char} {c : Char} (h : peek s = c) (hc : c ≠ '\x00') :
    s ≠ [] := by
  intro e
  subst e
  exact hc h.symm

theorem ne_nil_of_isdigit_peek {s : List Char} (h : isdigit (peek s) = true) : s ≠ [] := by
  intro e
  subst e
  exact absurd h (by decide)

theorem dropWhile_append_of_ne_nil {α : Type} (p : α → Bool) (s t : List α)
    (h : s.dropWhile p ≠ []) : (s ++ t).dropWhile p = s.dropWhile p ++ t := by
  induction s with
  | nil => exact absurd rfl h
  | cons a as ih =>
    by_cases hp : p a = true
    · simp only [List.cons_append, List.dropWhile_cons, hp, if_true] at h ⊢
      exact ih h
    · simp [List.dropWhile, hp]

theorem dropWhile_append_stop {α : Type} (p : α → Bool) (s t : List α)
    (ht : ∀ a, t.head? = some a → p a = false) :
    (s ++ t).dropWhile p = s.dropWhile p ++ t := by
  induction s with
  | nil =>
    cases t with
    | nil => rfl
    | cons b bs => simp [List.dropWhile, ht b rfl]
  | cons a as ih =>
    by_cases hp : p a = true
    · simp only [List.cons_append, List.dropWhile_cons, hp, if_true]
      exact ih
    · simp [List.dropWhile, hp]

theorem skip_whitespace_append (s t : List Char) (h : skip_whitespace s ≠ []) :
    skip_whitespace (s ++ t) = skip_whitespace s ++ t :=
  dropWhile_append_of_ne_nil _ s t h

theorem ne_nil_of_skip {s : List Char} (h : skip_whitespace s ≠ []) : s ≠ [] := by
  intro e
  subst e
  exact h rfl

theorem peek_detached {t : List Char} (h : Spec.Detached t) :
    isdigit (peek t) = false ∧ peek t ≠ '.' := by
  cases t with
  | nil => exact ⟨by decide, by decide⟩
  | cons a as => exact h a rfl

theorem substr_append (s t : List Char) (n : Nat) (h : n ≤ s.length) :
    substr (s ++ t) 0 n = substr s 0 n ∧ (s ++ t).drop n = s.drop n ++ t := by
  unfold substr
  simp only [List.drop_zero]
  exact ⟨List.take_append_of_le_length h, List.drop_append_of_le_length h⟩

theorem length_of_substr_eq {s lit : List Char} {n : Nat} (h : substr s 0 n = lit)
    (hn : lit.length = n) : n ≤ s.length := by
  have := congrArg List.length h
  unfold substr at this
  simp only [List.drop_zero, List.length_take] at this
  omega

theorem parse_null_append {D : Type} (s t : List Char) (r : JSONValue D × List Char)
    (h : parse_null s = .ok r) : parse_null (s ++ t) = .ok (r.1, r.2 ++ t) := by
  unfold parse_null at h ⊢
  by_cases hn : substr s 0 4 = "null".toList
  · have hl := length_of_substr_eq hn rfl
    rw [if_pos hn] at h
    cases h
    rw [(substr_append s t 4 hl).1, if_pos hn, (substr_append s t 4 hl).2]
  · rw [if_neg hn] at h
    cases h

theorem parse_bool_append {D : Type} (s t : List Char) (r : JSONValue D × List Char)
    (h : parse_bool s = .ok r) : parse_bool (s ++ t) = .ok (r.1, r.2 ++ t) := by
  unfold parse_bool at h ⊢
  by_cases ht : substr s 0 4 = "true".toList
  · have hl := length_of_substr_eq ht rfl
    rw [if_pos ht] at h
    cases h
    rw [(substr_append s t 4 hl).1, if_pos ht, (substr_append s t 4 hl).2]
  · rw [if_neg ht] at h
    by_cases hf : substr s 0 5 = "false".toList
    · have hl := length_of_substr_eq hf rfl
      rw [if_pos hf] at h
      cases h
      rw [(substr_append s t 4 (by omega)).1, if_neg ht, (substr_append s t 5 hl).1,
        if_pos hf, (substr_append s t 5 hl).2]
    · rw [if_neg hf] at h
      cases h

theorem scan_int_part_append (s s2 t : List Char) (h : scan_int_part s = .ok s2)
    (ht : Spec.Detached t) : scan_int_part (s ++ t) = .ok (s2 ++ t) := by
  unfold scan_int_part at h ⊢
  by_cases h0 : peek s = '0'
  · have hne := ne_nil_of_peek h0 (by decide)
    rw [if_pos h0] at h
    cases h
    rw [peek_append t hne, if_pos h0, advance_append t hne]
  · by_cases hd : isdigit (peek s) = true
    · have hne := ne_nil_of_isdigit_peek hd
      rw [if_neg h0, if_pos hd] at h
      cases h
      rw [peek_append t hne, if_neg h0, if_pos hd,
        dropWhile_append_stop isdigit s t (fun a ha => (ht a ha).1)]
    · rw [if_neg h0, if_neg hd] at h
      cases h

theorem scan_fraction_append (s rest t : List Char) (h : scan_fraction s = .ok rest)
    (ht : Spec.Detached t) : scan_fraction (s ++ t) = .ok (rest ++ t) := by
  unfold scan_fraction at h ⊢
  by_cases hdot : peek s = '.'
  · have hne := ne_nil_of_peek hdot (by decide)
    rw [if_pos hdot] at h
    rw [peek_append t hne, if_pos hdot, advance_append t hne]
    by_cases hd : isdigit (peek (advance s)) = true
    · have hne2 := ne_nil_of_isdigit_peek hd
      simp only [hd, Bool.not_true, Bool.false_eq_true, if_false] at h
      cases h
      rw [peek_append t hne2]
      simp only [hd, Bool.not_true, Bool.false_eq_true, if_false]
      rw [dropWhile_append_stop isdigit _ t (fun a ha => (ht a ha).1)]
    · simp only [hd, Bool.not_false, if_true] at h
      cases h
  · rw [if_neg hdot] at h
    cases h
    have : peek (s ++ t) ≠ '.' := by
      by_cases hs : s = []
      · subst hs
        exact (peek_detached ht).2
      · rw [peek_append t hs]
        exact hdot
    rw [if_neg this]

theorem scan_number_append (s rest t : List Char) (h : scan_number s = .ok rest)
    (ht : Spec.Detached t) : scan_number (s ++ t) = .ok (rest ++ t) := by
  unfold scan_number at h ⊢
  cases hi : scan_int_part (if peek s = '-' then advance s else s) with
  | error e => rw [hi] at h; simp only at h; cases h
  | ok s2 =>
    rw [hi] at h
    simp only at h
    have hne : s ≠ [] := by
      intro e
      subst e
      have hnil : scan_int_part (if peek ([] : List Char) = '-' then advance [] else [])
          = .error (.JSONError .InvalidNumber "Invalid JSON number".toList) := by decide
      rw [hnil] at hi
      cases hi
    have hsign : (if peek (s ++ t) = '-' then advance (s ++ t) else s ++ t)
        = (if peek s = '-' then advance s else s) ++ t := by
      rw [peek_append t hne, advance_append t hne]
      split <;> rfl
    rw [hsign, scan_int_part_append _ _ t hi ht]
    exact scan_fraction_append _ _ t h ht

theorem scan_number_suffix (s rest : List Char) (h : scan_number s = .ok rest) :
    rest.length ≤ s.length := by
  obtain ⟨token, htok, _⟩ := scan_number_ok s rest h
  rw [htok, List.length_append]
  omega

theorem parse_number_append {D : Type} [Double D] (s t : List Char)
    (r : JSONValue D × List Char) (h : parse_number s = .ok r) (ht : Spec.Detached t) :
    parse_number (s ++ t) = .ok (r.1, r.2 ++ t) := by
  unfold parse_number at h ⊢
  cases hs : scan_number s with
  | error e => rw [hs] at h; simp only at h; cases h
  | ok rest =>
    rw [hs] at h
    simp only at h
    have hle := scan_number_suffix s rest hs
    have htake : (s ++ t).take ((s ++ t).length - (rest ++ t).length)
        = s.take (s.length - rest.length) := by
      have : (s ++ t).length - (rest ++ t).length = s.length - rest.length := by
        simp only [List.length_append]; omega
      rw [this, List.take_append_of_le_length (by omega)]
    rw [scan_number_append s rest t hs ht]
    simp only [htake]
    cases hd : (Double.stod (s.take (s.length - rest.length)) : Option D) with
    | none => rw [hd] at h; simp only at h; cases h
    | some d =>
      rw [hd] at h
      simp only at h
      cases h
      rfl

theorem parse_string_loop_append (n : Nat) :
    ∀ (s acc t : List Char) (r : List Char × List Char), s.length ≤ n →
      parse_string_loop s acc = .ok r → parse_string_loop (s ++ t) acc = .ok (r.1, r.2 ++ t) := by
  induction n with
  | zero =>
    intro s acc t r hl h
    have : s = [] := List.length_eq_zero.1 (Nat.le_zero.1 hl)
    subst this
    simp [parse_string_loop] at h
  | succ n ih =>
    intro s acc t r hl h
    cases s with
    | nil => simp [parse_string_loop] at h
    | cons c rest =>
      rw [parse_string_loop.eq_def] at h
      rw [List.cons_append, parse_string_loop.eq_def]
      simp only at h ⊢
      by_cases hq : c = '"'
      · rw [if_pos hq] at h ⊢
        cases h
        rfl
      · rw [if_neg hq] at h ⊢
        by_cases hz : c = '\x00'
        · rw [if_pos hz] at h
          cases h
        · rw [if_neg hz] at h ⊢
          by_cases hb : c = '\\'
          · rw [if_pos hb] at h ⊢
            cases rest with
            | nil => simp only at h; cases h
            | cons e r2 =>
              simp only [List.cons_append] at h ⊢
              cases hu : unescape e with
              | none => rw [hu] at h; simp only at h; cases h
              | some x =>
                rw [hu] at h
                simp only at h ⊢
                exact ih r2 _ t r (by simp at hl; omega) h
          · rw [if_neg hb] at h ⊢
            exact ih rest _ t r (by simp at hl; omega) h

theorem parse_string_append (s t : List Char) (r : List Char × List Char)
    (h : parse_string s = .ok r) : parse_string (s ++ t) = .ok (r.1, r.2 ++ t) := by
  unfold parse_string at h ⊢
  have hne : s ≠ [] := by
    intro e
    subst e
    simp [advance, parse_string_loop] at h
  rw [advance_append t hne]
  exact parse_string_loop_append _ _ _ t r (le_refl _) h

/-- A value is only parsed from an input that has something left after its leading white
space. -/
theorem skip_ne_of_value {D : Type} [Double D] (n : Nat) (s : List Char)
    (r : JSONValue D × List Char) (h : parse_value n s = .ok r) : skip_whitespace s ≠ [] := by
  intro e
  cases n with
  | zero => simp [parse_value] at h
  | succ j =>
    simp only [parse_value, e] at h
    revert h
    simp [peek, isdigit]

/-- Appending a detached text to the input of a parsing function that succeeds leaves its
value unchanged and is left unread, also with more fuel. -/
theorem parse_append_all {D : Type} [Double D] (t : List Char) (ht : Spec.Detached t)
    (n : Nat) :
    ∀ m, n ≤ m →
      (∀ (s : List Char) (r : JSONValue D × List Char), parse_value n s = .ok r →
        parse_value m (s ++ t) = .ok (r.1, r.2 ++ t))
      ∧ (∀ (s : List Char) (r : JSONValue D × List Char), parse_array n s = .ok r →
        parse_array m (s ++ t) = .ok (r.1, r.2 ++ t))
      ∧ (∀ (acc : JSONArray D) (s : List Char) (r : JSONValue D × List Char),
        parse_array_loop n acc s = .ok r → parse_array_loop m acc (s ++ t) = .ok (r.1, r.2 ++ t))
      ∧ (∀ (s : List Char) (r : JSONValue D × List Char), parse_object n s = .ok r →
        parse_object m (s ++ t) = .ok (r.1, r.2 ++ t))
      ∧ (∀ (obj : JSONObject D) (s : List Char) (r : JSONValue D × List Char),
        parse_object_loop n obj s = .ok r →
        parse_object_loop m obj (s ++ t) = .ok (r.1, r.2 ++ t)) := by
  induction n with
  | zero =>
    intro m _
    refine ⟨?_, ?_, ?_, ?_, ?_⟩
    · intro s r h; simp [parse_value] at h
    · intro s r h; simp [parse_array] at h
    · intro acc s r h; simp [parse_array_loop] at h
    · intro s r h; simp [parse_object] at h
    · intro obj s r h; simp [parse_object_loop] at h
  | succ n ih =>
    intro m hm
    cases m with
    | zero => omega
    | succ k =>
      obtain ⟨iv, ia, ial, io, iol⟩ := ih k (by omega)
      refine ⟨?_, ?_, ?_, ?_, ?_⟩
      · -- parse_value
        intro s r h
        simp only [parse_value] at h ⊢
        by_cases c1 : peek (skip_whitespace s) = 'n'
        · have hne := ne_nil_of_peek c1 (by decide)
          rw [skip_whitespace_append s t hne, peek_append t hne, if_pos c1]
          rw [if_pos c1] at h
          exact parse_null_append _ t r h
        rw [if_neg c1] at h
        by_cases c2 : peek (skip_whitespace s) = 't' ∨ peek (skip_whitespace s) = 'f'
        · have hne : skip_whitespace s ≠ [] := by
            rcases c2 with c | c <;> exact ne_nil_of_peek c (by decide)
          rw [skip_whitespace_append s t hne, peek_append t hne, if_neg c1, if_pos c2]
          rw [if_pos c2] at h
          exact parse_bool_append _ t r h
        rw [if_neg c2] at h
        by_cases c3 : peek (skip_whitespace s) = '-' ∨ isdigit (peek (skip_whitespace s)) = true
        · have hne : skip_whitespace s ≠ [] := by
            rcases c3 with c | c
            · exact ne_nil_of_peek c (by decide)
            · exact ne_nil_of_isdigit_peek c
          rw [skip_whitespace_append s t hne, peek_append t hne, if_neg c1, if_neg c2,
            if_pos c3]
          rw [if_pos c3] at h
          exact parse_number_append _ t r h ht
        rw [if_neg c3] at h
        by_cases c4 : peek (skip_whitespace s) = '"'
        · have hne := ne_nil_of_peek c4 (by decide)
          rw [skip_whitespace_append s t hne, peek_append t hne, if_neg c1, if_neg c2,
            if_neg c3, if_pos c4]
          rw [if_pos c4] at h
          cases hps : parse_string (skip_whitespace s) with
          | error e => rw [hps] at h; simp only at h; cases h
          | ok p =>
            rw [hps] at h
            rw [parse_string_append _ t p hps]
            obtain ⟨str, rest⟩ := p
            simp only at h ⊢
            cases h
            rfl
        rw [if_neg c4] at h
        by_cases c5 : peek (skip_whitespace s) = '['
        · have hne := ne_nil_of_peek c5 (by decide)
          rw [skip_whitespace_append s t hne, peek_append t hne, if_neg c1, if_neg c2,
            if_neg c3, if_neg c4, if_pos c5]
          rw [if_pos c5] at h
          exact ia _ r h
        rw [if_neg c5] at h
        by_cases c6 : peek (skip_whitespace s) = '\x7b'
        · have hne := ne_nil_of_peek c6 (by decide)
          rw [skip_whitespace_append s t hne, peek_append t hne, if_neg c1, if_neg c2,
            if_neg c3, if_neg c4, if_neg c5, if_pos c6]
          rw [if_pos c6] at h
          exact io _ r h
        rw [if_neg c6] at h
        cases h
      · -- parse_array
        intro s r h
        simp only [parse_array] at h ⊢
        have hne : skip_whitespace (advance s) ≠ [] := by
          by_cases c : peek (skip_whitespace (advance s)) = ']'
          · exact ne_nil_of_peek c (by decide)
          · rw [if_neg c] at h
            cases n with
            | zero => simp [parse_array_loop] at h
            | succ j =>
              simp only [parse_array_loop] at h
              cases hv : (parse_value j (skip_whitespace (advance s)) :
                  Result (JSONValue D × List Char)) with
              | error e => rw [hv] at h; simp only at h; cases h
              | ok p =>
                intro e
                have := skip_ne_of_value j _ p hv
                rw [e] at this
                exact this rfl
        have hs : s ≠ [] := by
          intro e
          subst e
          exact hne rfl
        rw [advance_append t hs, skip_whitespace_append _ t hne, peek_append t hne,
          advance_append t hne]
        by_cases c : peek (skip_whitespace (advance s)) = ']'
        · rw [if_pos c] at h ⊢
          cases h
          rfl
        · rw [if_neg c] at h ⊢
          exact ial _ _ r h
      · -- parse_array_loop
        intro acc s r h
        simp only [parse_array_loop] at h ⊢
        cases hv : (parse_value n s : Result (JSONValue D × List Char)) with
        | error e => rw [hv] at h; simp only at h; cases h
        | ok p =>
          rw [hv] at h
          rw [iv s p hv]
          obtain ⟨val, rest⟩ := p
          simp only at h ⊢
          by_cases c1 : peek (skip_whitespace rest) = ','
          · have hne := ne_nil_of_peek c1 (by decide)
            rw [skip_whitespace_append _ t hne, peek_append t hne, advance_append t hne,
              if_pos c1]
            rw [if_pos c1] at h
            exact ial _ _ r h
          · rw [if_neg c1] at h
            by_cases c2 : peek (skip_whitespace rest) = ']'
            · have hne := ne_nil_of_peek c2 (by decide)
              rw [skip_whitespace_append _ t hne, peek_append t hne, advance_append t hne,
                if_neg c1, if_pos c2]
              rw [if_pos c2] at h
              cases h
              rfl
            · rw [if_neg c2] at h
              cases h
      · -- parse_object
        intro s r h
        simp only [parse_object] at h ⊢
        have hne : skip_whitespace (advance s) ≠ [] := by
          by_cases c : peek (skip_whitespace (advance s)) = '\x7d'
          · exact ne_nil_of_peek c (by decide)
          · rw [if_neg c] at h
            cases n with
            | zero => simp [parse_object_loop] at h
            | succ j =>
              simp only [parse_object_loop] at h
              by_cases cq : peek (skip_whitespace (skip_whitespace (advance s))) = '"'
              · intro e
                rw [e] at cq
                exact absurd cq (by decide)
              · rw [if_pos cq] at h
                cases h
        have hs : s ≠ [] := by
          intro e
          subst e
          exact hne rfl
        rw [advance_append t hs, skip_whitespace_append _ t hne, peek_append t hne,
          advance_append t hne]
        by_cases c : peek (skip_whitespace (advance s)) = '\x7d'
        · rw [if_pos c] at h ⊢
          cases h
          rfl
        · rw [if_neg c] at h ⊢
          exact iol _ _ r h
      · -- parse_object_loop
        intro obj s r h
        simp only [parse_object_loop] at h ⊢
        by_cases cq : peek (skip_whitespace s) = '"'
        · have hne := ne_nil_of_peek cq (by decide)
          rw [skip_whitespace_append _ t hne, peek_append t hne]
          rw [if_neg (not_not.2 cq)] at h ⊢
          cases hps : parse_string (skip_whitespace s) with
          | error e => rw [hps] at h; simp only at h; cases h
          | ok p =>
            rw [hps] at h
            rw [parse_string_append _ t p hps]
            obtain ⟨key, rest⟩ := p
            simp only at h ⊢
            by_cases cc : peek (skip_whitespace rest) = ':'
            · have hne1 := ne_nil_of_peek cc (by decide)
              rw [skip_whitespace_append _ t hne1, peek_append t hne1,
                advance_append t hne1]
              rw [if_neg (not_not.2 cc)] at h ⊢
              cases hv : (parse_value n (skip_whitespace (advance (skip_whitespace rest))) :
                  Result (JSONValue D × List Char)) with
              | error e => rw [hv] at h; simp only at h; cases h
              | ok q =>
                rw [hv] at h
                have hne2 := skip_ne_of_value n _ q hv
                have hne3 : skip_whitespace (advance (skip_whitespace rest)) ≠ [] :=
                  ne_nil_of_skip hne2
                rw [skip_whitespace_append _ t hne3, iv _ q hv]
                obtain ⟨val, rest2⟩ := q
                simp only at h ⊢
                by_cases c1 : peek (skip_whitespace rest2) = ','
                · have hn := ne_nil_of_peek c1 (by decide)
                  rw [skip_whitespace_append _ t hn, peek_append t hn, advance_append t hn,
                    if_pos c1]
                  rw [if_pos c1] at h
                  exact iol _ _ r h
                · rw [if_neg c1] at h
                  by_cases c2 : peek (skip_whitespace rest2) = '\x7d'
                  · have hn := ne_nil_of_peek c2 (by decide)
                    rw [skip_whitespace_append _ t hn, peek_append t hn,
                      advance_append t hn, if_neg c1, if_pos c2]
                    rw [if_pos c2] at h
                    cases h
                    rfl
                  · rw [if_neg c2] at h
                    cases h
            · rw [if_pos cc] at h
              cases h
        · rw [if_pos cq] at h
          cases h

/-- C5 (amended): `parse` returns the first complete value of the text and never looks at
what follows it. If `parse text` returns the value `v`, then `parse` returns the same `v`
for `text` followed by any further text `t` that does not begin with a digit or a `.`
(a `t` that would lengthen a final number token); `t` may hold any non-white-space
characters, and no error is raised for them. -/
theorem C5_first_value {D : Type} [Double D] (text t : List Char) (v : JSONValue D)
    (h : parse text = .ok v) (ht : Spec.Detached t) : parse (text ++ t) = .ok v := by
  unfold parse at h ⊢
  cases hv : (parse_value (3 * text.length + 3) text : Result (JSONValue D × List Char)) with
  | error e => rw [hv] at h; simp only at h; cases h
  | ok p =>
    rw [hv] at h
    have hm : 3 * text.length + 3 ≤ 3 * (text ++ t).length + 3 := by
      rw [List.length_append]
      omega
    rw [(parse_append_all t ht _ _ hm).1 text p hv]
    obtain ⟨w, rest⟩ := p
    simp only at h ⊢
    exact h

/-- The amended C5 at the texts `[1]` and `[1] 2x`: both parse to the Sequence `[1]`. -/
theorem C5_first_value_witness :
    (parse (str "[1]") : Result (JSONValue XDouble)) = .ok (.array [num 1])
      ∧ Spec.Detached (str " 2x")
      ∧ (parse (str "[1]" ++ str " 2x") : Result (JSONValue XDouble))
          = .ok (.array [num 1]) :=
  ⟨by decide, by decide,
    C5_first_value (str "[1]") (str " 2x") (.array [num 1]) (by decide) (by decide)⟩

/-! ## Function calls -/

theorem depth_cons (c : Char) (s : List Char) :
    Spec.depth (c :: s)
      = (if c = '(' then 1 else 0) - (if c = ')' then 1 else 0) + Spec.depth s := by
  unfold Spec.depth
  simp only [List.count_cons, beq_iff_eq]
  by_cases h1 : c = '('
  · subst h1
    simp only [if_true, Char.reduceEq, if_false]
    push_cast
    ring
  · by_cases h2 : c = ')'
    · subst h2
      simp only [if_true, Char.reduceEq, if_false]
      push_cast
      ring
    · simp only [if_neg h1, if_neg h2]
      push_cast
      ring

theorem find_matching_bracket_loop_balanced (args tail : List Char) :
    ∀ (d : Int) (i : Nat), d - 1 + Spec.depth args = 0 →
      (∀ pre ∈ args.inits, 0 ≤ d - 1 + Spec.depth pre) →
      find_matching_bracket_loop (args ++ ')' :: tail) d i = .ok (i + args.length) := by
  induction args with
  | nil =>
    intro d i h0 _
    have hd : d = 1 := by
      simp only [Spec.depth, List.count_nil] at h0
      omega
    subst hd
    simp [find_matching_bracket_loop]
  | cons c cs ih =>
    intro d i h0 hpre
    have h1 := hpre [c] (by simp [List.inits])
    rw [depth_cons] at h0 h1
    have hnil : Spec.depth [] = 0 := rfl
    rw [hnil] at h1
    simp only [List.cons_append, find_matching_bracket_loop, List.append_eq]
    have hd : (if c = '(' then d + 1 else if c = ')' then d - 1 else d)
        = d + ((if c = '(' then 1 else 0) - (if c = ')' then 1 else 0)) := by
      by_cases e1 : c = '('
      · subst e1; simp
      · by_cases e2 : c = ')'
        · subst e2; simp; ring
        · simp [e1, e2]
    rw [hd]
    rw [if_neg (by omega)]
    rw [ih (d + ((if c = '(' then 1 else 0) - (if c = ')' then 1 else 0))) (i + 1)
      (by omega)]
    · simp only [List.length_cons]
      congr 1
      omega
    · intro pre hp
      have h2 := hpre (c :: pre) (by simp [List.inits, hp])
      rw [depth_cons] at h2
      omega

theorem find_char_append (name rest : List Char) (c : Char) (h : c ∉ name) :
    find_char (name ++ c :: rest) c = some name.length := by
  induction name with
  | nil => simp [find_char]
  | cons a as ih =>
    simp only [List.cons_append, find_char, List.append_eq]
    rw [if_neg (fun e => h (by rw [e]; exact List.mem_cons_self _ _)),
      ih (fun hm => h (List.mem_cons_of_mem _ hm))]
    rfl

/-- Step 1 of section 4.3: a call is dispatched to the function evaluation, on the pieces of
its argument text. -/
theorem evaluate_call {D : Type} [Double D] (root : JSONValue D)
    (expr name args_str tail : List Char) (h : Spec.Call expr name args_str tail) :
    evaluate root expr
      = evaluate_function (evaluate root) name (parse_arguments args_str) := by
  obtain ⟨ht, hne, hno, hd, hpre⟩ := h
  obtain ⟨p, hp⟩ : ∃ p, name.length = p + 1 := by
    cases name with
    | nil => exact absurd rfl hne
    | cons a as => exact ⟨as.length, rfl⟩
  rw [evaluate_unfold]
  unfold evaluate_expression_body
  have hf : find_char (trim expr) '(' = some (p + 1) := by
    rw [ht, ← hp, List.append_assoc, List.cons_append]
    exact find_char_append name _ '(' hno
  have hdrop : (trim expr).drop (p + 1 + 1) = args_str ++ ')' :: tail := by
    rw [ht, ← hp]
    have : name ++ '(' :: args_str ++ ')' :: tail
        = (name ++ ['(']) ++ (args_str ++ ')' :: tail) := by simp
    rw [this]
    exact List.drop_left' (by simp)
  have hm : find_matching_bracket (trim expr) (p + 1)
      = .ok (p + 1 + 1 + args_str.length) := by
    unfold find_matching_bracket
    rw [hdrop]
    exact find_matching_bracket_loop_balanced args_str tail 1 (p + 1 + 1)
      (by omega) (fun pre hpi => by have := hpre pre hpi; omega)
  have hname : substr (trim expr) 0 (p + 1) = name := by
    unfold substr
    rw [ht, ← hp, List.drop_zero, List.append_assoc]
    exact List.take_left' rfl
  have hargs : substr (trim expr) (p + 1 + 1) (p + 1 + 1 + args_str.length - (p + 1) - 1)
      = args_str := by
    unfold substr
    rw [hdrop]
    have : p + 1 + 1 + args_str.length - (p + 1) - 1 = args_str.length := by omega
    rw [this]
    exact List.take_left' rfl
  simp only [hf, hm, hname, hargs]

theorem evaluate_function_unknown {D : Type} [Double D]
    (ev : List Char → Result (JSONValue D)) (name : List Char) (args : List (List Char))
    (h : name ∉ Spec.function_names) :
    evaluate_function ev name args
      = .error (.EvalError .UnknownFunction ("Unknown function: ".toList ++ name)) := by
  simp only [Spec.function_names, List.mem_cons, List.mem_singleton, List.not_mem_nil,
    or_false, not_or] at h
  obtain ⟨h1, h2, h3, h4, h5, h6, h7, h8⟩ := h
  unfold evaluate_function
  rw [if_neg h1, if_neg h2, if_neg h5, if_neg h3, if_neg h4, if_neg h6, if_neg h7, if_neg h8]

/-! ## Calls without argument text, argument counts and unknown names -/

theorem evaluate_json_path_nil {D : Type} [Double D] (root : JSONValue D) :
    evaluate_json_path root [] = get_value root [] := by
  unfold evaluate_json_path
  simp only [List.takeWhile_nil, List.dropWhile_nil, List.length_nil]
  cases get_value root [] with
  | error e => rfl
  | ok v => rfl

/-- The empty text is the empty path: the entry of the root for the empty key. -/
theorem evaluate_nil {D : Type} [Double D] (root : JSONValue D) :
    evaluate root [] = get_value root [] := by
  rw [evaluate_plain root [] (by intro c hc; simp at hc)]
  exact evaluate_json_path_nil root

theorem parse_arguments_ne_nil (args_str : List Char) : parse_arguments args_str ≠ [] := by
  unfold parse_arguments
  generalize (0 : Int) = d
  generalize ([] : List Char) = cur
  induction args_str generalizing d cur with
  | nil => simp [parse_arguments_loop]
  | cons c cs ih =>
    simp only [parse_arguments_loop]
    split
    · exact ih _ _
    · split
      · exact ih _ _
      · split
        · simp
        · exact ih _ _

theorem min_call_nil {D : Type} [Double D] (ev : List Char → Result (JSONValue D))
    (e : Exception) (h : ev [] = .error e) :
    evaluate_function ev (str "min") [[]] = .error e
      ∧ evaluate_function ev (str "max") [[]] = .error e := by
  constructor
  · unfold evaluate_function
    rw [if_pos rfl]
    simp only [min_collect, h]
  · unfold evaluate_function
    rw [if_neg (by decide), if_pos rfl]
    simp only [max_collect, h]

theorem empty_call_eq {D : Type} [Double D] (root : JSONValue D) (name : List Char)
    (hne : name ≠ []) (hno : '(' ∉ name) (ht : ∀ c ∈ name, is_trim_char c = false) :
    evaluate root (name ++ str "()") = evaluate_function (evaluate root) name [[]] := by
  have hcall : Spec.Call (name ++ str "()") name [] [] := by
    refine ⟨?_, hne, hno, by decide⟩
    have e : name ++ '(' :: ([] : List Char) ++ ')' :: [] = name ++ str "()" := by
      rw [List.append_assoc]
      rfl
    rw [e]
    apply trim_eq_self
    intro c hc
    rcases List.mem_append.1 hc with h | h
    · exact ht c h
    · simp only [str, String.toList, List.mem_cons, List.mem_singleton] at h
      revert h
      simp only [List.not_mem_nil, or_false]
      rintro (h | h) <;> subst h <;> decide
  rw [evaluate_call root _ name [] [] hcall]
  rfl

/-- C11 as stated fails: on the test document `min()` and `max()` fail with KeyNotFound, not
with EmptyInput (the empty argument text is resolved as a path), and on the document
`{"": 5}` they do not fail at all. -/
theorem C11_empty_call_counterexample :
    evaluate test_json (str "min()")
        = .error (.EvalError .KeyNotFound (str "Key not found: "))
      ∧ evaluate test_json (str "max()")
        = .error (.EvalError .KeyNotFound (str "Key not found: "))
      ∧ evaluate empty_key_json (str "min()") = .ok (num 5)
      ∧ evaluate empty_key_json (str "max()") = .ok (num 5) := by
  decide

/-- C11, amended: `min()` and `max()` have one argument, the empty text, which is resolved
as the empty path, the entry of the root for the empty key.  For a root Mapping without the
empty key both calls fail with KeyNotFound, for a root Sequence with InvalidIndex, for any
other root that is not a Mapping with InvalidAccess; a call that fails with EmptyInput has a
root Mapping with the empty key. -/
theorem C11_empty_call {D : Type} [Double D] (root : JSONValue D) :
    (∀ o, root = .object o → JSONObject.find o [] = none →
        evaluate root (str "min()") = .error (.EvalError .KeyNotFound (str "Key not found: "))
          ∧ evaluate root (str "max()")
            = .error (.EvalError .KeyNotFound (str "Key not found: ")))
      ∧ (∀ a, root = .array a →
          evaluate root (str "min()")
              = .error (.EvalError .InvalidIndex (str "Invalid array index: "))
            ∧ evaluate root (str "max()")
              = .error (.EvalError .InvalidIndex (str "Invalid array index: ")))
      ∧ (root.is_object = false → root.is_array = false →
          evaluate root (str "min()")
              = .error (.EvalError .InvalidAccess
                  (str "Current value is not an object or array"))
            ∧ evaluate root (str "max()")
              = .error (.EvalError .InvalidAccess
                  (str "Current value is not an object or array")))
      ∧ (∀ m, evaluate root (str "min()") = .error (.EvalError .EmptyInput m)
            ∨ evaluate root (str "max()") = .error (.EvalError .EmptyInput m) →
          ∃ o v, root = .object o ∧ JSONObject.find o [] = some v) := by
  have hmin : evaluate root (str "min()")
      = evaluate_function (evaluate root) (str "min") [[]] :=
    empty_call_eq root (str "min") (by decide) (by decide) (by decide)
  have hmax : evaluate root (str "max()")
      = evaluate_function (evaluate root) (str "max") [[]] :=
    empty_call_eq root (str "max") (by decide) (by decide) (by decide)
  have hfail : ∀ e, get_value root [] = .error e →
      evaluate root (str "min()") = .error e ∧ evaluate root (str "max()") = .error e := by
    intro e he
    rw [hmin, hmax]
    exact min_call_nil (evaluate root) e (by rw [evaluate_nil, he])
  have h1 : ∀ o, root = .object o → JSONObject.find o [] = none →
      get_value root []
        = .error (.EvalError .KeyNotFound (str "Key not found: ")) := by
    intro o ho hf
    subst ho
    simp only [get_value, hf]
    rfl
  have h2 : ∀ a, root = .array a →
      get_value root [] = .error (.EvalError .InvalidIndex (str "Invalid array index: ")) := by
    intro a ha
    subst ha
    rfl
  have h3 : root.is_object = false → root.is_array = false →
      get_value root []
        = .error (.EvalError .InvalidAccess (str "Current value is not an object or array")) := by
    intro ho ha
    cases root with
    | object o => simp [JSONValue.is_object] at ho
    | array a => simp [JSONValue.is_array] at ha
    | null => rfl
    | bool b => rfl
    | number d => rfl
    | string s => rfl
  refine ⟨fun o ho hf => hfail _ (h1 o ho hf), fun a ha => hfail _ (h2 a ha),
    fun ho ha => hfail _ (h3 ho ha), ?_⟩
  intro m hm
  cases hr : root with
  | object o =>
    cases hf : JSONObject.find o [] with
    | some v => exact ⟨o, v, rfl, hf⟩
    | none =>
      have := hfail _ (h1 o hr hf)
      rcases hm with hm | hm
      · rw [this.1] at hm; cases hm
      · rw [this.2] at hm; cases hm
  | array a =>
    have := hfail _ (h2 a hr)
    rcases hm with hm | hm
    · rw [this.1] at hm; cases hm
    · rw [this.2] at hm; cases hm
  | null =>
    have := hfail _ (h3 (by rw [hr]; rfl) (by rw [hr]; rfl))
    rcases hm with hm | hm
    · rw [this.1] at hm; cases hm
    · rw [this.2] at hm; cases hm
  | bool b =>
    have := hfail _ (h3 (by rw [hr]; rfl) (by rw [hr]; rfl))
    rcases hm with hm | hm
    · rw [this.1] at hm; cases hm
    · rw [this.2] at hm; cases hm
  | number d =>
    have := hfail _ (h3 (by rw [hr]; rfl) (by rw [hr]; rfl))
    rcases hm with hm | hm
    · rw [this.1] at hm; cases hm
    · rw [this.2] at hm; cases hm
  | string s =>
    have := hfail _ (h3 (by rw [hr]; rfl) (by rw [hr]; rfl))
    rcases hm with hm | hm
    · rw [this.1] at hm; cases hm
    · rw [this.2] at hm; cases hm

/-- C11, amended, on the test document, whose root Mapping has no empty key: both calls fail
with KeyNotFound.  On the document `{"": []}`, whose empty key holds an empty Sequence, they
fail with EmptyInput. -/
theorem C11_empty_call_witness :
    JSONObject.find
        [(str "a", JSONValue.object [(str "b", JSONValue.array
          [num 0, num 0, num 1, num 2, num 3, .array [num 0, num 10, num 20],
            .object [(str "c", .string (str "test"))]])])] [] = none
      ∧ (evaluate test_json (str "min()")
          = .error (.EvalError .KeyNotFound (str "Key not found: "))
        ∧ evaluate test_json (str "max()")
          = .error (.EvalError .KeyNotFound (str "Key not found: ")))
      ∧ evaluate (.object [([], .array [])] : JSONValue XDouble) (str "min()")
          = .error (.EvalError .EmptyInput (str "min requires at least one numeric value"))
      ∧ evaluate (.object [([], .array [])] : JSONValue XDouble) (str "max()")
          = .error (.EvalError .EmptyInput (str "max requires at least one numeric value")) :=
  ⟨by decide, (C11_empty_call test_json).1 _ rfl (by decide), by decide, by decide⟩

theorem unary_call {D : Type} [Double D] (ev : List Char → Result (JSONValue D))
    (name : List Char) (hname : name ∈ Spec.unary_names) :
    (∀ a b (rest : List (List Char)), evaluate_function ev name (a :: b :: rest)
        = .error (.EvalError .ArityError (name ++ " requires exactly one argument".toList)))
      ∧ (∀ arg e, ev arg = .error e → evaluate_function ev name [arg] = .error e)
      ∧ (∀ arg v m, ev arg = .ok v →
          evaluate_function ev name [arg] ≠ .error (.EvalError .ArityError m)) := by
  simp only [Spec.unary_names, List.mem_cons, List.mem_singleton, List.not_mem_nil,
    or_false] at hname
  rcases hname with h | h | h | h <;> subst h
  · refine ⟨fun a b rest => ?_, fun arg e he => ?_, fun arg v m hv => ?_⟩
    · unfold evaluate_function
      rw [if_neg (by decide), if_neg (by decide), if_pos rfl]
      rfl
    · unfold evaluate_function
      rw [if_neg (by decide), if_neg (by decide), if_pos rfl]
      simp only [he]
    · unfold evaluate_function
      rw [if_neg (by decide), if_neg (by decide), if_pos rfl]
      simp only [hv]
      cases v <;> simp
  · refine ⟨fun a b rest => ?_, fun arg e he => ?_, fun arg v m hv => ?_⟩
    · unfold evaluate_function
      rw [if_neg (by decide), if_neg (by decide), if_neg (by decide), if_neg (by decide),
        if_neg (by decide), if_pos rfl]
      rfl
    · unfold evaluate_function
      rw [if_neg (by decide), if_neg (by decide), if_neg (by decide), if_neg (by decide),
        if_neg (by decide), if_pos rfl]
      simp only [he]
    · unfold evaluate_function
      rw [if_neg (by decide), if_neg (by decide), if_neg (by decide), if_neg (by decide),
        if_neg (by decide), if_pos rfl]
      simp only [hv]
      cases v <;> simp
  · refine ⟨fun a b rest => ?_, fun arg e he => ?_, fun arg v m hv => ?_⟩
    · unfold evaluate_function
      rw [if_neg (by decide), if_neg (by decide), if_neg (by decide), if_neg (by decide),
        if_neg (by decide), if_neg (by decide), if_pos rfl]
      rfl
    · unfold evaluate_function
      rw [if_neg (by decide), if_neg (by decide), if_neg (by decide), if_neg (by decide),
        if_neg (by decide), if_neg (by decide), if_pos rfl]
      simp only [he]
    · unfold evaluate_function
      rw [if_neg (by decide), if_neg (by decide), if_neg (by decide), if_neg (by decide),
        if_neg (by decide), if_neg (by decide), if_pos rfl]
      simp only [hv]
      cases v <;> simp
  · refine ⟨fun a b rest => ?_, fun arg e he => ?_, fun arg v m hv => ?_⟩
    · unfold evaluate_function
      rw [if_neg (by decide), if_neg (by decide), if_neg (by decide), if_neg (by decide),
        if_neg (by decide), if_neg (by decide), if_neg (by decide), if_pos rfl]
      rfl
    · unfold evaluate_function
      rw [if_neg (by decide), if_neg (by decide), if_neg (by decide), if_neg (by decide),
        if_neg (by decide), if_neg (by decide), if_neg (by decide), if_pos rfl]
      simp only [he]
    · unfold evaluate_function
      rw [if_neg (by decide), if_neg (by decide), if_neg (by decide), if_neg (by decide),
        if_neg (by decide), if_neg (by decide), if_neg (by decide), if_pos rfl]
      simp only [hv]
      cases v <;> simp

/-- C12 as stated fails: `size()`, `count()`, `abs()` and `round()` have one argument, the
empty text, and on the test document they fail with KeyNotFound, not with ArityError; on
`{"": "abc"}` the call `size()` returns 3.  Two arguments do fail with ArityError. -/
theorem C12_arity_counterexample :
    evaluate test_json (str "size()")
        = .error (.EvalError .KeyNotFound (str "Key not found: "))
      ∧ evaluate test_json (str "count()")
        = .error (.EvalError .KeyNotFound (str "Key not found: "))
      ∧ evaluate test_json (str "abs()")
        = .error (.EvalError .KeyNotFound (str "Key not found: "))
      ∧ evaluate test_json (str "round()")
        = .error (.EvalError .KeyNotFound (str "Key not found: "))
      ∧ evaluate empty_key_text_json (str "size()") = .ok (num 3)
      ∧ evaluate test_json (str "abs(a, a)")
        = .error (.EvalError .ArityError (str "abs requires exactly one argument")) := by
  decide

/-- C12, amended: a call of size, count, abs or round never has zero arguments: its argument
text is split at the top-level commas, and an empty text is one (empty) argument.  With two
or more pieces the call fails with ArityError.  With one piece the call fails with the error
of that argument if its evaluation fails, and does not fail with ArityError if it succeeds;
for an empty argument text (`size()`) on a root Mapping without the empty key this error is
KeyNotFound. -/
theorem C12_arity {D : Type} [Double D] (root : JSONValue D)
    (expr name args_str tail : List Char) (hcall : Spec.Call expr name args_str tail)
    (hname : name ∈ Spec.unary_names) :
    (parse_arguments args_str).length ≠ 0
      ∧ (2 ≤ (parse_arguments args_str).length →
          evaluate root expr
            = .error (.EvalError .ArityError
                (name ++ " requires exactly one argument".toList)))
      ∧ (∀ arg, parse_arguments args_str = [arg] →
          (∀ e, evaluate root arg = .error e → evaluate root expr = .error e)
            ∧ (∀ v m, evaluate root arg = .ok v →
                evaluate root expr ≠ .error (.EvalError .ArityError m)))
      ∧ (args_str = [] → ∀ o, root = .object o → JSONObject.find o [] = none →
          evaluate root expr = .error (.EvalError .KeyNotFound (str "Key not found: "))) := by
  rw [evaluate_call root expr name args_str tail hcall]
  obtain ⟨h2, h1e, h1v⟩ := unary_call (evaluate root) name hname
  refine ⟨?_, ?_, ?_, ?_⟩
  · intro h
    exact parse_arguments_ne_nil args_str (List.length_eq_zero.1 h)
  · intro h
    cases hp : parse_arguments args_str with
    | nil => rw [hp] at h; simp at h
    | cons a l =>
      cases l with
      | nil => rw [hp] at h; simp at h
      | cons b rest => exact h2 a b rest
  · intro arg hp
    rw [hp]
    exact ⟨fun e he => h1e arg e he, fun v m hv => h1v arg v m hv⟩
  · intro ha o ho hf
    subst ha
    subst ho
    have : parse_arguments [] = [[]] := rfl
    rw [this]
    apply h1e
    rw [evaluate_nil]
    simp only [get_value, hf]
    rfl

/-- C12, amended, on the test document: `abs(a, a)` has two arguments and fails with
ArityError; `size()` has the empty argument text and fails with KeyNotFound. -/
theorem C12_arity_witness :
    (Spec.Call (str "abs(a, a)") (str "abs") (str "a, a") []
        ∧ str "abs" ∈ Spec.unary_names
        ∧ 2 ≤ (parse_arguments (str "a, a")).length
        ∧ evaluate test_json (str "abs(a, a)")
          = .error (.EvalError .ArityError (str "abs requires exactly one argument")))
      ∧ (Spec.Call (str "size()") (str "size") [] []
        ∧ evaluate test_json (str "size()")
          = .error (.EvalError .KeyNotFound (str "Key not found: "))) :=
  ⟨⟨by decide, by decide, by decide,
      (C12_arity test_json (str "abs(a, a)") (str "abs") (str "a, a") [] (by decide)
        (by decide)).2.1 (by decide)⟩,
    ⟨by decide,
      (C12_arity test_json (str "size()") (str "size") [] [] (by decide)
        (by decide)).2.2.2 rfl _ rfl (by decide)⟩⟩

/-- C13: for every expression whose trimmed text has its first `(` after a non-empty text
and the matching `)` of that `(`, if the text before the `(` is not exactly one of min, max,
sum, avg, size, count, abs, round, then evaluate fails with UnknownFunction, for every root
and whatever the argument text is; no argument is evaluated. -/
theorem C13_unknown_function {D : Type} [Double D] (root : JSONValue D)
    (expr name args_str tail : List Char) (hcall : Spec.Call expr name args_str tail)
    (hname : name ∉ Spec.function_names) :
    evaluate root expr
      = .error (.EvalError .UnknownFunction ("Unknown function: ".toList ++ name)) := by
  rw [evaluate_call root expr name args_str tail hcall]
  exact evaluate_function_unknown (evaluate root) name (parse_arguments args_str) hname

/-- C13 on the test document: `max (x)` (a blank after the name), `x + max(y)` (an operator
expression in front of the call) and `median(a.b)` fail with UnknownFunction. -/
theorem C13_unknown_function_witness :
    (Spec.Call (str "max (x)") (str "max ") (str "x") [] ∧ str "max " ∉ Spec.function_names
        ∧ evaluate test_json (str "max (x)")
          = .error (.EvalError .UnknownFunction (str "Unknown function: max ")))
      ∧ (Spec.Call (str "x + max(y)") (str "x + max") (str "y") []
        ∧ str "x + max" ∉ Spec.function_names
        ∧ evaluate test_json (str "x + max(y)")
          = .error (.EvalError .UnknownFunction (str "Unknown function: x + max")))
      ∧ (Spec.Call (str " median(a.b) ") (str "median") (str "a.b") []
        ∧ str "median" ∉ Spec.function_names
        ∧ evaluate test_json (str " median(a.b) ")
          = .error (.EvalError .UnknownFunction (str "Unknown function: median"))) :=
  ⟨⟨by decide, by decide,
      C13_unknown_function test_json (str "max (x)") (str "max ") (str "x") [] (by decide)
        (by decide)⟩,
    ⟨by decide, by decide,
      C13_unknown_function test_json (str "x + max(y)") (str "x + max") (str "y") []
        (by decide) (by decide)⟩,
    ⟨by decide, by decide,
      C13_unknown_function test_json (str " median(a.b) ") (str "median") (str "a.b") []
        (by decide) (by decide)⟩⟩

/-! ## The first failing argument of an aggregate -/

theorem isPrefixOf_cons_ne (pat rest : List Char) (c : Char) (hp : pat ≠ [])
    (h : pat.head? ≠ some c) : pat.isPrefixOf (c :: rest) = false := by
  cases pat with
  | nil => exact absurd rfl hp
  | cons p ps =>
    have : p ≠ c := fun e => h (by rw [e]; rfl)
    simp [List.isPrefixOf, this]

theorem find_str_skip (w s pat : List Char) (hp : pat ≠ [])
    (h : ∀ c ∈ w, pat.head? ≠ some c) :
    find_str (w ++ s) pat = (find_str s pat).map (· + w.length) := by
  induction w with
  | nil => simp
  | cons c cs ih =>
    simp only [List.cons_append, find_str, List.append_eq]
    rw [isPrefixOf_cons_ne pat _ c hp (h c (List.mem_cons_self _ _))]
    rw [ih (fun d hd => h d (List.mem_cons_of_mem _ hd))]
    cases find_str s pat with
    | none => rfl
    | some k => simp only [Option.map_some', List.length_cons]; rfl

theorem find_char_skip (w s : List Char) (c : Char) (h : c ∉ w) :
    find_char (w ++ s) c = (find_char s c).map (· + w.length) := by
  rw [find_char_eq_find_str, find_char_eq_find_str]
  apply find_str_skip w s [c] (by simp)
  intro d hd e
  simp only [List.head?_cons, Option.some.injEq] at e
  exact h (e ▸ hd)

theorem find_first_of_skip (w s chars : List Char) (h : ∀ c ∈ w, c ∉ chars) :
    find_first_of (w ++ s) chars = (find_first_of s chars).map (· + w.length) := by
  induction w with
  | nil => simp
  | cons c cs ih =>
    simp only [List.cons_append, find_first_of, List.append_eq]
    rw [if_neg (h c (List.mem_cons_self _ _)),
      ih (fun d hd => h d (List.mem_cons_of_mem _ hd))]
    cases find_first_of s chars with
    | none => rfl
    | some k => simp only [Option.map_some', List.length_cons]; rfl

theorem le_of_map_add_eq_some {o : Option Nat} {n pos : Nat}
    (h : o.map (· + n) = some pos) : n ≤ pos := by
  cases o with
  | none => simp at h
  | some k => simp at h; omega

/-- The trimmed text of a text that has a non-blank character `c` keeps `c` and what
precedes it up to the leading blanks. -/
theorem trim_split (w rest : List Char) (c : Char) (hc : is_trim_char c = false) :
    trim (w ++ c :: rest)
      = w.dropWhile is_trim_char ++ c :: ((rest.reverse.dropWhile is_trim_char).reverse) := by
  unfold trim
  rw [dropWhile_append_stop is_trim_char w (c :: rest)
    (fun a ha => by simp only [List.head?_cons, Option.some.injEq] at ha; rw [← ha]; exact hc)]
  have e : (List.dropWhile is_trim_char w ++ c :: rest).reverse
      = rest.reverse ++ (c :: (List.dropWhile is_trim_char w).reverse) := by
    simp
  rw [e, dropWhile_append_stop is_trim_char rest.reverse _
    (fun a ha => by simp only [List.head?_cons, Option.some.injEq] at ha; rw [← ha]; exact hc)]
  simp

theorem eval_sides_error {D T : Type} (ev : List Char → Result (JSONValue D))
    (l r : List Char) (op : JSONValue D → JSONValue D → Result T) (e : Exception)
    (h : ev l = .error e) : eval_sides ev l r op = .error e := by
  simp only [eval_sides, h]

theorem evaluate_json_path_open {D : Type} [Double D] (root : JSONValue D)
    (rest : List Char) : ∃ e, evaluate_json_path root ('(' :: rest) = .error e := by
  unfold evaluate_json_path
  have h1 : ('(' :: rest).takeWhile is_ident_char = [] := by
    rw [List.takeWhile_cons, if_neg (by decide)]
  have h2 : ('(' :: rest).dropWhile is_ident_char = '(' :: rest := by
    rw [List.dropWhile_cons, if_neg (by decide)]
  simp only [h1, h2]
  cases get_value root [] with
  | error e => exact ⟨e, rfl⟩
  | ok v =>
    simp only [List.length_cons, evaluate_json_path_loop]
    rw [if_neg (by decide), if_neg (by decide)]
    exact ⟨_, rfl⟩

theorem function_names_head : ∀ nm ∈ Spec.function_names, ∀ c : Char,
    nm.head? = some c → isspace c = false := by
  decide

/-! ## A leading parenthesis -/

theorem evaluate_open_fails {D : Type} [Double D] (root : JSONValue D) :
    ∀ (n : Nat) (expr w rest : List Char), expr.length ≤ n → expr = w ++ '(' :: rest →
      (∀ c ∈ w, isspace c = true) → ∃ e, evaluate root expr = .error e := by
  intro n
  induction n with
  | zero =>
    intro expr w rest hlen hexpr _
    rw [hexpr] at hlen
    simp at hlen
  | succ n ih =>
    intro expr w rest hlen hexpr hw
    have hwo : ∀ c ∈ w ++ ['('], isspace c = true ∨ c = '(' := by
      intro c hc
      rcases List.mem_append.1 hc with h | h
      · exact Or.inl (hw c h)
      · exact Or.inr (List.mem_singleton.1 h)
    have hexpr2 : expr = (w ++ ['(']) ++ rest := by rw [hexpr]; simp
    -- the left side of a split at a position after the parenthesis fails
    have hop : ∀ pos, pos < expr.length → w.length + 1 ≤ pos →
        ∃ e, evaluate root (substr expr 0 pos) = .error e := by
      intro pos hlt hge
      have hs : substr expr 0 pos = w ++ '(' :: rest.take (pos - (w.length + 1)) := by
        unfold substr
        rw [List.drop_zero, hexpr, List.take_append_eq_append_take,
          List.take_of_length_le (by omega)]
        have : pos - w.length = (pos - (w.length + 1)) + 1 := by omega
        rw [this, List.take_succ_cons]
      have hl : (substr expr 0 pos).length ≤ n := by
        have := substr_zero_length_le expr pos
        omega
      exact ih _ w _ hl hs hw
    have hge_str : ∀ pat pos, pat ≠ [] →
        (∀ c, isspace c = true ∨ c = '(' → pat.head? ≠ some c) →
        find_str expr pat = some pos → w.length + 1 ≤ pos := by
      intro pat pos hp hh hf
      rw [hexpr2, find_str_skip _ _ pat hp (fun c hc => hh c (hwo c hc))] at hf
      have := le_of_map_add_eq_some hf
      simpa using this
    have hge_first : ∀ pos, find_first_of expr "+-*/".toList = some pos →
        w.length + 1 ≤ pos := by
      intro pos hf
      rw [hexpr2, find_first_of_skip _ _ _ (fun c hc => by
        rcases hwo c hc with h | h
        · intro hm
          simp only [String.toList, List.mem_cons, List.mem_singleton, List.not_mem_nil,
            or_false] at hm
          rcases hm with e | e | e | e <;> subst e <;> revert h <;> decide
        · subst h; decide)] at hf
      have := le_of_map_add_eq_some hf
      simpa using this
    rw [evaluate_unfold]
    unfold evaluate_expression_body
    have ht := trim_split w rest '(' (by decide)
    rw [← hexpr] at ht
    have hw2 : ∀ c ∈ w.dropWhile is_trim_char, isspace c = true :=
      fun c hc => hw c (mem_of_mem_dropWhile _ hc)
    have hfc : find_char (trim expr) '(' = some (w.dropWhile is_trim_char).length := by
      rw [ht]
      apply find_char_append
      intro hm
      have := hw2 _ hm
      revert this
      decide
    cases hwd : w.dropWhile is_trim_char with
    | cons a as =>
      rw [hwd] at hfc ht hw2
      simp only [hfc, List.length_cons]
      cases find_matching_bracket (trim expr) (as.length + 1) with
      | error e => exact ⟨e, rfl⟩
      | ok q =>
        simp only []
        have hname : substr (trim expr) 0 (as.length + 1) = a :: as := by
          unfold substr
          rw [List.drop_zero, ht]
          exact List.take_left' rfl
        rw [hname, evaluate_function_unknown]
        · exact ⟨_, rfl⟩
        · intro hm
          have := function_names_head _ hm a rfl
          rw [hw2 a (List.mem_cons_self _ _)] at this
          cases this
    | nil =>
      rw [hwd] at hfc ht
      simp only [List.nil_append] at ht
      simp only [hfc, List.length_nil]
      unfold evaluate_operators
      cases h1 : find_str expr "**".toList with
      | some pos =>
        obtain ⟨e, he⟩ := hop pos (find_str_lt (by decide) h1)
          (hge_str _ pos (by decide) (by
            intro c hc; rcases hc with h | h
            · intro e; simp only [String.toList, List.head?_cons, Option.some.injEq] at e
              subst e; revert h; decide
            · subst h; decide) h1)
        exact ⟨e, eval_sides_error _ _ _ _ e he⟩
      | none =>
      simp only []
      cases h2 : find_str expr "&&".toList with
      | some pos =>
        obtain ⟨e, he⟩ := hop pos (find_str_lt (by decide) h2)
          (hge_str _ pos (by decide) (by
            intro c hc; rcases hc with h | h
            · intro e; simp only [String.toList, List.head?_cons, Option.some.injEq] at e
              subst e; revert h; decide
            · subst h; decide) h2)
        exact ⟨e, eval_sides_error _ _ _ _ e he⟩
      | none =>
      simp only []
      cases h3 : find_str expr "||".toList with
      | some pos =>
        obtain ⟨e, he⟩ := hop pos (find_str_lt (by decide) h3)
          (hge_str _ pos (by decide) (by
            intro c hc; rcases hc with h | h
            · intro e; simp only [String.toList, List.head?_cons, Option.some.injEq] at e
              subst e; revert h; decide
            · subst h; decide) h3)
        exact ⟨e, eval_sides_error _ _ _ _ e he⟩
      | none =>
      simp only []
      cases h4 : find_char expr '%' with
      | some pos =>
        obtain ⟨e, he⟩ := hop pos (find_char_lt h4)
          (hge_str ['%'] pos (by decide) (by
            intro c hc; rcases hc with h | h
            · intro e; simp only [List.head?_cons, Option.some.injEq] at e
              subst e; revert h; decide
            · subst h; decide) (by rw [← find_char_eq_find_str]; exact h4))
        exact ⟨e, eval_sides_error _ _ _ _ e he⟩
      | none =>
      simp only []
      cases h5 : find_first_of expr "+-*/".toList with
      | some pos =>
        obtain ⟨e, he⟩ := hop pos (find_first_of_lt h5) (hge_first pos h5)
        simp only [eval_sides_error _ _ _ _ e he]
        exact ⟨e, rfl⟩
      | none =>
        simp only [ht]
        exact evaluate_json_path_open root _

/-- C20: for every root and every expression whose first non-white-space character is `(`,
evaluate fails: a parenthesis that does not follow a function name is never accepted,
whether or not operators follow. -/
theorem C20_grouping_fails {D : Type} [Double D] (root : JSONValue D) (expr : List Char)
    (h : (expr.dropWhile isspace).head? = some '(') :
    ∃ e, evaluate root expr = .error e := by
  cases hd : expr.dropWhile isspace with
  | nil => rw [hd] at h; simp at h
  | cons a rest =>
    rw [hd] at h
    simp only [List.head?_cons, Option.some.injEq] at h
    subst h
    refine evaluate_open_fails root expr.length expr (expr.takeWhile isspace) rest
      (le_refl _) ?_ (fun c hc => List.mem_takeWhile_imp hc)
    rw [← hd, List.takeWhile_append_dropWhile]

/-- C20 on the test document: `(1+2)*3`, `(a.b[2])` and ` (a) && b` fail. -/
theorem C20_grouping_fails_witness :
    ((str "(1+2)*3").dropWhile isspace).head? = some '('
      ∧ (∃ e, evaluate test_json (str "(1+2)*3") = .error e)
      ∧ evaluate test_json (str "(1+2)*3")
          = .error (.EvalError .KeyNotFound (str "Key not found: "))
      ∧ evaluate test_json (str "(a.b[2])")
          = .error (.EvalError .KeyNotFound (str "Key not found: "))
      ∧ evaluate test_json (str " (a) && b")
          = .error (.EvalError .KeyNotFound (str "Key not found: ")) :=
  ⟨by decide, C20_grouping_fails test_json (str "(1+2)*3") (by decide), by decide, by decide,
    by decide⟩

/-! ## Blanks around an expression -/

theorem dropWhile_append_all {α : Type} (p : α → Bool) (w s : List α)
    (h : ∀ a ∈ w, p a = true) : (w ++ s).dropWhile p = s.dropWhile p := by
  induction w with
  | nil => rfl
  | cons a as ih =>
    simp only [List.cons_append, List.dropWhile_cons, h a (List.mem_cons_self _ _), if_true]
    exact ih (fun b hb => h b (List.mem_cons_of_mem _ hb))

theorem dropWhile_eq_nil_of_all {α : Type} (p : α → Bool) (w : List α)
    (h : ∀ a ∈ w, p a = true) : w.dropWhile p = [] := by
  have := dropWhile_append_all p w [] h
  simpa using this

/-- Blanks at both ends of a text do not change its trimmed text. -/
theorem trim_pad (w1 e w2 : List Char) (h1 : ∀ c ∈ w1, is_trim_char c = true)
    (h2 : ∀ c ∈ w2, is_trim_char c = true) : trim (w1 ++ e ++ w2) = trim e := by
  unfold trim
  rw [List.append_assoc, dropWhile_append_all _ w1 _ h1]
  by_cases he : e.dropWhile is_trim_char = []
  · have hall : ∀ c ∈ e ++ w2, is_trim_char c = true := by
      intro c hc
      rcases List.mem_append.1 hc with h | h
      · exact (List.dropWhile_eq_nil_iff.1 he) c h
      · exact h2 c h
    rw [dropWhile_eq_nil_of_all _ _ hall, he]
  · rw [dropWhile_append_of_ne_nil _ e w2 he, List.reverse_append,
      dropWhile_append_all _ w2.reverse _ (fun c hc => h2 c (List.mem_reverse.1 hc))]

theorem isPrefixOf_append_right (pat w2 : List Char) (h : ∀ c ∈ w2, c ∉ pat) :
    ∀ s : List Char, pat ≠ [] → pat.isPrefixOf (s ++ w2) = pat.isPrefixOf s := by
  induction pat with
  | nil => intro s hp; exact absurd rfl hp
  | cons p ps ih =>
    intro s _
    cases s with
    | nil =>
      cases w2 with
      | nil => rfl
      | cons c cs =>
        have : p ≠ c := fun e => h c (List.mem_cons_self _ _) (by rw [e]; exact List.mem_cons_self _ _)
        simp [List.isPrefixOf, this]
    | cons a as =>
      simp only [List.cons_append, List.isPrefixOf, List.append_eq]
      cases ps with
      | nil => simp [List.isPrefixOf]
      | cons q qs =>
        rw [ih (fun c hc hm => h c hc (List.mem_cons_of_mem _ hm)) as (by simp)]

theorem find_str_pad_right (s w2 pat : List Char) (hp : pat ≠ [])
    (h : ∀ c ∈ w2, c ∉ pat) : find_str (s ++ w2) pat = find_str s pat := by
  induction s with
  | nil =>
    have := find_str_skip w2 [] pat hp
      (fun c hc e => h c hc (List.mem_of_mem_head? e))
    rw [List.append_nil] at this
    rw [List.nil_append, this]
    simp [find_str, hp]
  | cons a as ih =>
    simp only [List.cons_append, find_str, List.append_eq]
    have := isPrefixOf_append_right pat w2 h (a :: as) hp
    simp only [List.cons_append] at this
    rw [this, ih]

theorem find_first_of_pad_right (s w2 chars : List Char) (h : ∀ c ∈ w2, c ∉ chars) :
    find_first_of (s ++ w2) chars = find_first_of s chars := by
  induction s with
  | nil => exact find_first_of_eq_none w2 h
  | cons a as ih => simp only [List.cons_append, find_first_of, List.append_eq, ih]

theorem find_str_pad (w1 e w2 pat : List Char) (hp : pat ≠ [])
    (h1 : ∀ c ∈ w1, pat.head? ≠ some c) (h2 : ∀ c ∈ w2, c ∉ pat) :
    find_str (w1 ++ e ++ w2) pat = (find_str e pat).map (· + w1.length) := by
  rw [List.append_assoc, find_str_skip w1 _ pat hp h1, find_str_pad_right e w2 pat hp h2]

theorem find_first_of_pad (w1 e w2 chars : List Char) (h1 : ∀ c ∈ w1, c ∉ chars)
    (h2 : ∀ c ∈ w2, c ∉ chars) :
    find_first_of (w1 ++ e ++ w2) chars = (find_first_of e chars).map (· + w1.length) := by
  rw [List.append_assoc, find_first_of_skip w1 _ chars h1, find_first_of_pad_right e w2 chars h2]

/-- The two sides of a split of a padded text are the padded sides of the split. -/
theorem eval_sides_pad {D T : Type} (ev : List Char → Result (JSONValue D))
    (w1 e w2 : List Char) (pos k : Nat) (op : JSONValue D → JSONValue D → Result T)
    (hk : 0 < k) (hle : pos + k ≤ e.length)
    (ih : ∀ e' v1 v2 : List Char, e'.length < e.length →
      (v1 = w1 ∨ v1 = []) → (v2 = w2 ∨ v2 = []) → ev (v1 ++ e' ++ v2) = ev e') :
    eval_sides ev (substr (w1 ++ e ++ w2) 0 (pos + w1.length))
        ((w1 ++ e ++ w2).drop (pos + w1.length + k)) op
      = eval_sides ev (substr e 0 pos) (e.drop (pos + k)) op := by
  have hl : substr (w1 ++ e ++ w2) 0 (pos + w1.length) = w1 ++ substr e 0 pos ++ [] := by
    unfold substr
    rw [List.drop_zero, List.drop_zero, List.append_assoc, List.take_append_eq_append_take,
      List.take_of_length_le (by omega), List.append_nil]
    have : pos + w1.length - w1.length = pos := by omega
    rw [this, List.take_append_of_le_length (by omega)]
  have hr : (w1 ++ e ++ w2).drop (pos + w1.length + k) = [] ++ e.drop (pos + k) ++ w2 := by
    rw [List.append_assoc, List.drop_append_eq_append_drop,
      List.drop_of_length_le (by omega)]
    have : pos + w1.length + k - w1.length = pos + k := by omega
    rw [this, List.drop_append_of_le_length hle]
    simp
  have e1 := ih (substr e 0 pos) w1 [] (by
    have := substr_zero_length_le e pos
    omega) (Or.inl rfl) (Or.inr rfl)
  have e2 := ih (e.drop (pos + k)) [] w2 (by
    rw [List.length_drop]
    omega) (Or.inr rfl) (Or.inl rfl)
  rw [hl, hr]
  simp only [eval_sides, e1, e2]

theorem getD_pad (w1 e w2 : List Char) (pos : Nat) (h : pos < e.length) :
    (w1 ++ e ++ w2).getD (pos + w1.length) ' ' = e.getD pos ' ' := by
  rw [List.getD_eq_getElem?_getD, List.getD_eq_getElem?_getD, List.append_assoc,
    List.getElem?_append_right (by omega)]
  have : pos + w1.length - w1.length = pos := by omega
  rw [this, List.getElem?_append_left h]

theorem evaluate_pad {D : Type} [Double D] (root : JSONValue D) :
    ∀ (n : Nat) (e w1 w2 : List Char), e.length < n →
      (∀ c ∈ w1, is_trim_char c = true) → (∀ c ∈ w2, is_trim_char c = true) →
      evaluate root (w1 ++ e ++ w2) = evaluate root e := by
  intro n
  induction n with
  | zero => intro e w1 w2 h; omega
  | succ n ih =>
    intro e w1 w2 hlen h1 h2
    have ihs : ∀ e' v1 v2 : List Char, e'.length < e.length →
        (v1 = w1 ∨ v1 = []) → (v2 = w2 ∨ v2 = []) →
        evaluate root (v1 ++ e' ++ v2) = evaluate root e' := by
      intro e' v1 v2 hl hv1 hv2
      apply ih e' v1 v2 (by omega)
      · rcases hv1 with h | h <;> subst h
        · exact h1
        · intro c hc; simp at hc
      · rcases hv2 with h | h <;> subst h
        · exact h2
        · intro c hc; simp at hc
    have hne1 : ∀ pat : List Char, (∀ c ∈ pat, is_trim_char c = false) →
        ∀ c ∈ w1, pat.head? ≠ some c := by
      intro pat hp c hc e
      have := hp c (List.mem_of_mem_head? e)
      rw [h1 c hc] at this
      cases this
    have hni1 : ∀ pat : List Char, (∀ c ∈ pat, is_trim_char c = false) →
        ∀ c ∈ w1, c ∉ pat := by
      intro pat hp c hc hm
      have := hp c hm
      rw [h1 c hc] at this
      cases this
    have hni2 : ∀ pat : List Char, (∀ c ∈ pat, is_trim_char c = false) →
        ∀ c ∈ w2, c ∉ pat := by
      intro pat hp c hc hm
      have := hp c hm
      rw [h2 c hc] at this
      cases this
    have hle : ∀ (pat : List Char) (pos : Nat), pat ≠ [] → find_str e pat = some pos →
        pos + pat.length ≤ e.length := by
      intro pat pos hp hf
      have h3 := (first_of_find_str e pos hf).1.length_le
      rw [List.length_drop] at h3
      have h4 := find_str_lt hp hf
      omega
    have key : evaluate_operators root (evaluate root) (w1 ++ e ++ w2) (trim e)
        = evaluate_operators root (evaluate root) e (trim e) := by
      unfold evaluate_operators
      rw [find_str_pad w1 e w2 "**".toList (by decide) (hne1 _ (by decide))
        (hni2 _ (by decide))]
      cases f1 : find_str e "**".toList with
      | some pos =>
        simp only [Option.map_some']
        exact eval_sides_pad (evaluate root) w1 e w2 pos 2 pow_op (by decide)
          (hle _ pos (by decide) f1) ihs
      | none =>
      simp only [Option.map_none']
      rw [find_str_pad w1 e w2 "&&".toList (by decide) (hne1 _ (by decide))
        (hni2 _ (by decide))]
      cases f2 : find_str e "&&".toList with
      | some pos =>
        simp only [Option.map_some']
        exact eval_sides_pad (evaluate root) w1 e w2 pos 2 and_op (by decide)
          (hle _ pos (by decide) f2) ihs
      | none =>
      simp only [Option.map_none']
      rw [find_str_pad w1 e w2 "||".toList (by decide) (hne1 _ (by decide))
        (hni2 _ (by decide))]
      cases f3 : find_str e "||".toList with
      | some pos =>
        simp only [Option.map_some']
        exact eval_sides_pad (evaluate root) w1 e w2 pos 2 or_op (by decide)
          (hle _ pos (by decide) f3) ihs
      | none =>
      simp only [Option.map_none']
      rw [find_char_eq_find_str (w1 ++ e ++ w2), find_char_eq_find_str e,
        find_str_pad w1 e w2 ['%'] (by decide) (hne1 _ (by decide)) (hni2 _ (by decide))]
      cases f4 : find_str e ['%'] with
      | some pos =>
        simp only [Option.map_some']
        exact eval_sides_pad (evaluate root) w1 e w2 pos 1 mod_op (by decide)
          (hle _ pos (by decide) f4) ihs
      | none =>
      simp only [Option.map_none']
      rw [find_first_of_pad w1 e w2 "+-*/".toList (hni1 _ (by decide)) (hni2 _ (by decide))]
      cases f5 : find_first_of e "+-*/".toList with
      | some pos =>
        simp only [Option.map_some']
        have hlt := find_first_of_lt f5
        rw [getD_pad w1 e w2 pos hlt,
          eval_sides_pad (evaluate root) w1 e w2 pos 1 (arith_op (e.getD pos ' '))
            (by decide) (by omega) ihs]
      | none => rfl
    rw [evaluate_unfold root (w1 ++ e ++ w2), evaluate_unfold root e]
    unfold evaluate_expression_body
    simp only [trim_pad w1 e w2 h1 h2]
    cases hf : find_char (trim e) '(' with
    | none => exact key
    | some k =>
      cases k with
      | zero => exact key
      | succ p => rfl

/-- C18: for every root, every expression `e` and all texts `w1`, `w2` made only of space,
tab, newline and carriage return, `evaluate (w1 ++ e ++ w2)` has the same outcome as
`evaluate e`: the same Value or the same error. -/
theorem C18_whitespace {D : Type} [Double D] (root : JSONValue D) (e w1 w2 : List Char)
    (h1 : ∀ c ∈ w1, c = ' ' ∨ c = '\t' ∨ c = '\n' ∨ c = '\r')
    (h2 : ∀ c ∈ w2, c = ' ' ∨ c = '\t' ∨ c = '\n' ∨ c = '\r') :
    evaluate root (w1 ++ e ++ w2) = evaluate root e := by
  apply evaluate_pad root (e.length + 1) e w1 w2 (Nat.lt_succ_self _)
  · intro c hc
    rcases h1 c hc with h | h | h | h <;> subst h <;> rfl
  · intro c hc
    rcases h2 c hc with h | h | h | h <;> subst h <;> rfl

/-- C18 on the test document: blanks around a path, an operator expression and a call. -/
theorem C18_whitespace_witness :
    (∀ c ∈ str " \t", c = ' ' ∨ c = '\t' ∨ c = '\n' ∨ c = '\r')
      ∧ (∀ c ∈ str "\r\n ", c = ' ' ∨ c = '\t' ∨ c = '\n' ∨ c = '\r')
      ∧ evaluate test_json (str " \t" ++ str "a.b[2] + a.b[3]" ++ str "\r\n ")
          = evaluate test_json (str "a.b[2] + a.b[3]")
      ∧ evaluate test_json (str "a.b[2] + a.b[3]") = .ok (num 3)
      ∧ evaluate test_json (str " \ta.b[2] + a.b[3]\r\n ") = .ok (num 3)
      ∧ evaluate test_json (str "\n max(a.b[3], a.b[4]) ") = .ok (num 3)
      ∧ evaluate test_json (str "\t a.zz \n")
          = .error (.EvalError .KeyNotFound (str "Key not found: zz")) :=
  ⟨by decide, by decide,
    C18_whitespace test_json (str "a.b[2] + a.b[3]") (str " \t") (str "\r\n ") (by decide)
      (by decide),
    by decide, by decide, by decide, by decide⟩

/-! ## String literals -/

theorem unescape_eq_lookup (escaped : Char) :
    unescape escaped = Spec.escapes.lookup escaped := by
  unfold unescape Spec.escapes
  by_cases h1 : escaped = '"'
  · subst h1; rfl
  by_cases h2 : escaped = '\\'
  · subst h2; rfl
  by_cases h3 : escaped = '/'
  · subst h3; rfl
  by_cases h4 : escaped = 'b'
  · subst h4; rfl
  by_cases h5 : escaped = 'f'
  · subst h5; rfl
  by_cases h6 : escaped = 'n'
  · subst h6; rfl
  by_cases h7 : escaped = 'r'
  · subst h7; rfl
  by_cases h8 : escaped = 't'
  · subst h8; rfl
  rw [if_neg h1, if_neg h2, if_neg h3, if_neg h4, if_neg h5, if_neg h6, if_neg h7, if_neg h8]
  have e1 : (escaped == '"') = false := by simpa using h1
  have e2 : (escaped == '\\') = false := by simpa using h2
  have e3 : (escaped == '/') = false := by simpa using h3
  have e4 : (escaped == 'b') = false := by simpa using h4
  have e5 : (escaped == 'f') = false := by simpa using h5
  have e6 : (escaped == 'n') = false := by simpa using h6
  have e7 : (escaped == 'r') = false := by simpa using h7
  have e8 : (escaped == 't') = false := by simpa using h8
  simp only [List.lookup, e1, e2, e3, e4, e5, e6, e7, e8]

/-- The loop of `parse_string` decodes the items of a well-formed body one by one. -/
theorem parse_string_loop_body (items : List Spec.StringItem)
    (hwf : ∀ item ∈ items, item.WellFormed) (tl : List Char) :
    ∀ acc, parse_string_loop (Spec.body_text items ++ tl) acc
      = parse_string_loop tl (acc ++ items.map Spec.StringItem.decoded) := by
  induction items with
  | nil => intro acc; simp [Spec.body_text]
  | cons item items ih =>
    intro acc
    have hi := hwf item (List.mem_cons_self _ _)
    have ih2 := ih (fun i hm => hwf i (List.mem_cons_of_mem _ hm))
    cases item with
    | plain c =>
      obtain ⟨h1, h2, h3⟩ := hi
      simp only [Spec.body_text, Spec.StringItem.text, List.cons_append, List.nil_append,
        List.map_cons, Spec.StringItem.decoded]
      rw [parse_string_loop.eq_def]
      simp only [if_neg h1, if_neg h3, if_neg h2]
      rw [ih2]
      simp
    | escape letter =>
      simp only [Spec.StringItem.WellFormed] at hi
      obtain ⟨x, hx⟩ := Option.isSome_iff_exists.1 hi
      simp only [Spec.body_text, Spec.StringItem.text, List.cons_append, List.nil_append,
        List.map_cons, Spec.StringItem.decoded, hx, Option.getD_some]
      rw [parse_string_loop.eq_def]
      simp only [Char.reduceEq, if_false, if_true, unescape_eq_lookup, hx]
      rw [ih2]
      simp

/-- A document that starts with a quote is parsed as a string literal. -/
theorem parse_quote {D : Type} [Double D] (s : List Char) :
    (parse ('"' :: s) : Result (JSONValue D))
      = match parse_string ('"' :: s) with
        | .error e => .error e
        | .ok (x, _) => .ok (.string x) := by
  unfold parse
  have h3 : 3 * ('"' :: s).length + 3 = (3 * ('"' :: s).length + 2) + 1 := rfl
  rw [h3]
  simp only [parse_value]
  have hs : skip_whitespace ('"' :: s) = '"' :: s := by
    unfold skip_whitespace
    rw [List.dropWhile_cons, if_neg (by decide)]
  rw [hs]
  simp only [peek]
  rw [if_neg (by decide), if_neg (by decide), if_neg (by decide)]
  cases parse_string ('"' :: s) with
  | error e => rfl
  | ok p => rfl

/-- C14 as stated fails for one character: a NUL character inside a literal is not copied;
it ends the literal like the end of the input, and `parse` fails with UnterminatedString.
Without the NUL the same literal is decoded. -/
theorem C14_nul_counterexample :
    (parse (str "\"a\x00b\"") : Result (JSONValue XDouble))
        = .error (.JSONError .UnterminatedString (str "Unterminated string"))
      ∧ (parse (str "\"ab\"") : Result (JSONValue XDouble)) = .ok (.string (str "ab")) := by
  decide

/-- C14, amended: a literal is a quote, a body and a closing quote, where the body is made
of the eight escapes and of characters other than the quote, the backslash and NUL.  `parse`
returns the String of the decoded body: each escape gives its single character, every other
character is copied.  After such a body, a backslash followed by a character that is not one
of the eight letters (`u` included) or by the end of the input fails with InvalidEscape, and
a NUL character or the end of the input fails with UnterminatedString. -/
theorem C14_string_literal {D : Type} [Double D] (items : List Spec.StringItem)
    (hwf : ∀ item ∈ items, item.WellFormed) (rest : List Char) :
    parse_string ('"' :: (Spec.body_text items ++ '"' :: rest))
        = .ok (items.map Spec.StringItem.decoded, rest)
      ∧ (parse ('"' :: (Spec.body_text items ++ '"' :: rest)) : Result (JSONValue D))
        = .ok (.string (items.map Spec.StringItem.decoded))
      ∧ (∀ c, Spec.escapes.lookup c = none →
          (parse ('"' :: (Spec.body_text items ++ '\\' :: c :: rest)) : Result (JSONValue D))
            = .error (.JSONError .InvalidEscape (str "Invalid escape character")))
      ∧ (parse ('"' :: (Spec.body_text items ++ ['\\'])) : Result (JSONValue D))
        = .error (.JSONError .InvalidEscape (str "Invalid escape character"))
      ∧ (parse ('"' :: (Spec.body_text items ++ '\x00' :: rest)) : Result (JSONValue D))
        = .error (.JSONError .UnterminatedString (str "Unterminated string"))
      ∧ (parse ('"' :: Spec.body_text items) : Result (JSONValue D))
        = .error (.JSONError .UnterminatedString (str "Unterminated string")) := by
  have hloop := parse_string_loop_body items hwf
  have h1 : parse_string ('"' :: (Spec.body_text items ++ '"' :: rest))
      = .ok (items.map Spec.StringItem.decoded, rest) := by
    unfold parse_string
    simp only [advance]
    rw [hloop, parse_string_loop.eq_def]
    simp
  refine ⟨h1, ?_, ?_, ?_, ?_, ?_⟩
  · rw [parse_quote, h1]
  · intro c hc
    rw [parse_quote]
    unfold parse_string
    simp only [advance]
    rw [hloop, parse_string_loop.eq_def]
    simp only [Char.reduceEq, if_false, if_true, unescape_eq_lookup, hc]
  · rw [parse_quote]
    unfold parse_string
    simp only [advance]
    rw [hloop, parse_string_loop.eq_def]
    simp only [Char.reduceEq, if_false, if_true]
  · rw [parse_quote]
    unfold parse_string
    simp only [advance]
    rw [hloop, parse_string_loop.eq_def]
    simp only [Char.reduceEq, if_false, if_true]
  · rw [parse_quote]
    unfold parse_string
    simp only [advance]
    have := hloop [] []
    rw [List.append_nil] at this
    rw [this, parse_string_loop.eq_def]

/-- C14, amended, on the literal `"a\n\"\/z"`: its String is `a`, newline, quote, slash,
`z`; with `\u` after the same body the document fails with InvalidEscape. -/
theorem C14_string_literal_witness :
    (∀ item ∈ [Spec.StringItem.plain 'a', .escape 'n', .escape '"', .escape '/', .plain 'z'],
        item.WellFormed)
      ∧ '"' :: (Spec.body_text [.plain 'a', .escape 'n', .escape '"', .escape '/', .plain 'z']
          ++ '"' :: str " x") = str "\"a\\n\\\"\\/z\" x"
      ∧ (parse (str "\"a\\n\\\"\\/z\" x") : Result (JSONValue XDouble))
          = .ok (.string ['a', '\n', '"', '/', 'z'])
      ∧ Spec.escapes.lookup 'u' = none
      ∧ (parse (str "\"a\\n\\\"\\/z\\u0041\"") : Result (JSONValue XDouble))
          = .error (.JSONError .InvalidEscape (str "Invalid escape character")) :=
  ⟨by decide, by decide,
    (C14_string_literal
      [Spec.StringItem.plain 'a', .escape 'n', .escape '"', .escape '/', .plain 'z']
      (by decide) (str " x")).2.1,
    by decide,
    (C14_string_literal
      [Spec.StringItem.plain 'a', .escape 'n', .escape '"', .escape '/', .plain 'z']
      (by decide) (str "0041\"")).2.2.1 'u' (by decide)⟩

/-! ## The order of the keys -/

theorem string_lt_irrefl (a : List Char) : string_lt a a = false := by
  induction a with
  | nil => rfl
  | cons c cs ih => simp [string_lt, ih]

theorem string_lt_trans (a : List Char) :
    ∀ b c : List Char, string_lt a b = true → string_lt b c = true →
      string_lt a c = true := by
  induction a with
  | nil =>
    intro b c h1 h2
    cases b with
    | nil => simp [string_lt] at h1
    | cons y ys =>
      cases c with
      | nil => simp [string_lt] at h2
      | cons z zs => rfl
  | cons x xs ih =>
    intro b c h1 h2
    cases b with
    | nil => simp [string_lt] at h1
    | cons y ys =>
      cases c with
      | nil => simp [string_lt] at h2
      | cons z zs =>
        simp only [string_lt] at h1 h2 ⊢
        by_cases hxy : x.toNat < y.toNat
        · by_cases hyz : y.toNat < z.toNat
          · rw [if_pos (by omega)]
          · rw [if_neg hyz] at h2
            by_cases hzy : z.toNat < y.toNat
            · rw [if_pos hzy] at h2; cases h2
            · rw [if_pos (by omega)]
        · rw [if_neg hxy] at h1
          by_cases hyx : y.toNat < x.toNat
          · rw [if_pos hyx] at h1; cases h1
          · rw [if_neg hyx] at h1
            by_cases hyz : y.toNat < z.toNat
            · rw [if_pos (by omega)]
            · rw [if_neg hyz] at h2
              by_cases hzy : z.toNat < y.toNat
              · rw [if_pos hzy] at h2; cases h2
              · rw [if_neg hzy] at h2
                rw [if_neg (by omega), if_neg (by omega)]
                exact ih _ _ h1 h2

theorem char_eq_of_toNat_eq {x y : Char} (h : x.toNat = y.toNat) : x = y := by
  rw [← Char.ofNat_toNat x, ← Char.ofNat_toNat y, h]

theorem string_lt_total (a : List Char) :
    ∀ b : List Char, string_lt a b = false → a ≠ b → string_lt b a = true := by
  induction a with
  | nil =>
    intro b h hne
    cases b with
    | nil => exact absurd rfl hne
    | cons y ys => simp [string_lt] at h
  | cons x xs ih =>
    intro b h hne
    cases b with
    | nil => rfl
    | cons y ys =>
      simp only [string_lt] at h ⊢
      by_cases hxy : x.toNat < y.toNat
      · rw [if_pos hxy] at h; cases h
      · rw [if_neg hxy] at h
        by_cases hyx : y.toNat < x.toNat
        · rw [if_pos hyx]
        · rw [if_neg hyx] at h
          rw [if_neg hyx, if_neg hxy]
          have hc : x = y := char_eq_of_toNat_eq (by omega)
          subst hc
          exact ih ys h (fun e => hne (by rw [e]))

theorem pairwise_lt_nodup (ks : List (List Char))
    (h : ks.Pairwise (fun a b => string_lt a b = true)) : ks.Nodup := by
  unfold List.Nodup
  refine h.imp ?_
  intro a b hab e
  subst e
  rw [string_lt_irrefl] at hab
  cases hab

/-! ## The assignment `object[key] = val` -/

theorem mem_keys_assign {D : Type} (o : JSONObject D) (key : List Char) (val : JSONValue D) :
    ∀ k ∈ (JSONObject.assign o key val).map Prod.fst, k = key ∨ k ∈ o.map Prod.fst := by
  induction o with
  | nil => intro k hk; simp [JSONObject.assign] at hk; exact Or.inl hk
  | cons e rest ih =>
    obtain ⟨k0, v0⟩ := e
    intro k hk
    simp only [JSONObject.assign] at hk
    by_cases h1 : k0 = key
    · rw [if_pos h1] at hk
      right
      simp only [List.map_cons, List.mem_cons] at hk ⊢
      exact hk
    · rw [if_neg h1] at hk
      by_cases h2 : string_lt key k0 = true
      · rw [if_pos h2] at hk
        simp only [List.map_cons, List.mem_cons] at hk ⊢
        rcases hk with h | h | h
        · exact Or.inl h
        · exact Or.inr (Or.inl h)
        · exact Or.inr (Or.inr h)
      · rw [if_neg h2] at hk
        simp only [List.map_cons, List.mem_cons] at hk ⊢
        rcases hk with h | h
        · exact Or.inr (Or.inl h)
        · rcases ih k h with h' | h'
          · exact Or.inl h'
          · exact Or.inr (Or.inr h')

/-- The assignment keeps the entries in strictly ascending key order. -/
theorem assign_pairwise {D : Type} (o : JSONObject D) (key : List Char) (val : JSONValue D)
    (h : (o.map Prod.fst).Pairwise (fun a b => string_lt a b = true)) :
    ((JSONObject.assign o key val).map Prod.fst).Pairwise
      (fun a b => string_lt a b = true) := by
  induction o with
  | nil => simp [JSONObject.assign]
  | cons e rest ih =>
    obtain ⟨k0, v0⟩ := e
    simp only [List.map_cons, List.pairwise_cons] at h
    obtain ⟨hhead, htail⟩ := h
    simp only [JSONObject.assign]
    by_cases h1 : k0 = key
    · rw [if_pos h1]
      simp only [List.map_cons, List.pairwise_cons]
      exact ⟨hhead, htail⟩
    · rw [if_neg h1]
      by_cases h2 : string_lt key k0 = true
      · rw [if_pos h2]
        simp only [List.map_cons, List.pairwise_cons]
        refine ⟨?_, hhead, htail⟩
        intro k hk
        rcases List.mem_cons.1 hk with e | e
        · rw [e]; exact h2
        · exact string_lt_trans _ _ _ h2 (hhead k e)
      · rw [if_neg h2]
        simp only [List.map_cons, List.pairwise_cons]
        refine ⟨?_, ih htail⟩
        intro k hk
        rcases mem_keys_assign rest key val k hk with e | e
        · rw [e]
          exact string_lt_total key k0 (by simpa using h2) (fun e => h1 e.symm)
        · exact hhead k e

theorem assign_entries {D : Type} (o : JSONObject D) (key : List Char) (val : JSONValue D)
    (h : Spec.KeysAscendingEntries o) (hv : Spec.KeysAscending val) :
    Spec.KeysAscendingEntries (JSONObject.assign o key val) := by
  induction o with
  | nil => exact ⟨hv, trivial⟩
  | cons e rest ih =>
    obtain ⟨k0, v0⟩ := e
    simp only [Spec.KeysAscendingEntries] at h
    simp only [JSONObject.assign]
    by_cases h1 : k0 = key
    · rw [if_pos h1]
      exact ⟨hv, h.2⟩
    · rw [if_neg h1]
      by_cases h2 : string_lt key k0 = true
      · rw [if_pos h2]
        exact ⟨hv, h.1, h.2⟩
      · rw [if_neg h2]
        exact ⟨h.1, ih h.2⟩

theorem assign_ascending {D : Type} (o : JSONObject D) (key : List Char) (val : JSONValue D)
    (h : Spec.KeysAscending (.object o)) (hv : Spec.KeysAscending val) :
    Spec.KeysAscending (.object (JSONObject.assign o key val)) := by
  simp only [Spec.KeysAscending] at h ⊢
  exact ⟨assign_pairwise o key val h.1, assign_entries o key val h.2 hv⟩

theorem items_append_ascending {D : Type} (a : JSONArray D) (val : JSONValue D)
    (h : Spec.KeysAscendingItems a) (hv : Spec.KeysAscending val) :
    Spec.KeysAscendingItems (a ++ [val]) := by
  induction a with
  | nil => exact ⟨hv, trivial⟩
  | cons x xs ih =>
    simp only [Spec.KeysAscendingItems] at h
    exact ⟨h.1, ih h.2⟩

/-- The value of a key after an assignment is the assigned one; the other keys keep their
values. -/
theorem find_assign {D : Type} (o : JSONObject D) (key : List Char) (val : JSONValue D) :
    JSONObject.find (JSONObject.assign o key val) key = some val
      ∧ ∀ k, k ≠ key → JSONObject.find (JSONObject.assign o key val) k
          = JSONObject.find o k := by
  induction o with
  | nil =>
    refine ⟨by simp [JSONObject.assign, JSONObject.find], fun k hk => ?_⟩
    simp only [JSONObject.assign, JSONObject.find]
    rw [if_neg (Ne.symm hk)]
  | cons e rest ih =>
    obtain ⟨k0, v0⟩ := e
    simp only [JSONObject.assign]
    by_cases h1 : k0 = key
    · rw [if_pos h1]
      subst h1
      refine ⟨by simp [JSONObject.find], fun k hk => ?_⟩
      simp only [JSONObject.find]
      rw [if_neg (Ne.symm hk), if_neg (Ne.symm hk)]
    · rw [if_neg h1]
      by_cases h2 : string_lt key k0 = true
      · rw [if_pos h2]
        refine ⟨by simp [JSONObject.find], fun k hk => ?_⟩
        simp only [JSONObject.find]
        rw [if_neg (Ne.symm hk)]
      · rw [if_neg h2]
        refine ⟨by simp only [JSONObject.find, if_neg h1]; exact ih.1, fun k hk => ?_⟩
        simp only [JSONObject.find]
        by_cases h3 : k0 = k
        · rw [if_pos h3, if_pos h3]
        · rw [if_neg h3, if_neg h3]
          exact ih.2 k hk

/-! ## Every parsed Mapping is in ascending key order -/

theorem parse_null_value {D : Type} (s : List Char) (r : JSONValue D × List Char)
    (h : parse_null s = .ok r) : r.1 = .null := by
  unfold parse_null at h
  split at h
  · cases h; rfl
  · cases h

theorem parse_bool_value {D : Type} (s : List Char) (r : JSONValue D × List Char)
    (h : parse_bool s = .ok r) : ∃ b, r.1 = .bool b := by
  unfold parse_bool at h
  split at h
  · cases h; exact ⟨true, rfl⟩
  · split at h
    · cases h; exact ⟨false, rfl⟩
    · cases h

theorem parse_number_value {D : Type} [Double D] (s : List Char)
    (r : JSONValue D × List Char) (h : parse_number s = .ok r) : ∃ d, r.1 = .number d := by
  unfold parse_number at h
  cases hs : scan_number s with
  | error e => rw [hs] at h; simp only at h; cases h
  | ok rest =>
    rw [hs] at h
    simp only at h
    cases hd : (Double.stod (s.take (s.length - rest.length)) : Option D) with
    | none => rw [hd] at h; simp only at h; cases h
    | some d => rw [hd] at h; simp only at h; cases h; exact ⟨d, rfl⟩

theorem parse_keys_ascending_all {D : Type} [Double D] (n : Nat) :
    (∀ (s : List Char) (r : JSONValue D × List Char), parse_value n s = .ok r →
        Spec.KeysAscending r.1)
      ∧ (∀ (s : List Char) (r : JSONValue D × List Char), parse_array n s = .ok r →
        Spec.KeysAscending r.1)
      ∧ (∀ (acc : JSONArray D) (s : List Char) (r : JSONValue D × List Char),
        Spec.KeysAscendingItems acc → parse_array_loop n acc s = .ok r →
        Spec.KeysAscending r.1)
      ∧ (∀ (s : List Char) (r : JSONValue D × List Char), parse_object n s = .ok r →
        Spec.KeysAscending r.1)
      ∧ (∀ (obj : JSONObject D) (s : List Char) (r : JSONValue D × List Char),
        Spec.KeysAscending (.object obj) → parse_object_loop n obj s = .ok r →
        Spec.KeysAscending r.1) := by
  induction n with
  | zero =>
    refine ⟨?_, ?_, ?_, ?_, ?_⟩
    · intro s r h; simp [parse_value] at h
    · intro s r h; simp [parse_array] at h
    · intro acc s r _ h; simp [parse_array_loop] at h
    · intro s r h; simp [parse_object] at h
    · intro obj s r _ h; simp [parse_object_loop] at h
  | succ n ih =>
    obtain ⟨iv, ia, ial, io, iol⟩ := ih
    refine ⟨?_, ?_, ?_, ?_, ?_⟩
    · intro s r h
      simp only [parse_value] at h
      by_cases c1 : peek (skip_whitespace s) = 'n'
      · rw [if_pos c1] at h
        rw [parse_null_value _ r h]
        simp only [Spec.KeysAscending]
      rw [if_neg c1] at h
      by_cases c2 : peek (skip_whitespace s) = 't' ∨ peek (skip_whitespace s) = 'f'
      · rw [if_pos c2] at h
        obtain ⟨b, hb⟩ := parse_bool_value _ r h
        rw [hb]
        simp only [Spec.KeysAscending]
      rw [if_neg c2] at h
      by_cases c3 : peek (skip_whitespace s) = '-' ∨ isdigit (peek (skip_whitespace s)) = true
      · rw [if_pos c3] at h
        obtain ⟨d, hd⟩ := parse_number_value _ r h
        rw [hd]
        simp only [Spec.KeysAscending]
      rw [if_neg c3] at h
      by_cases c4 : peek (skip_whitespace s) = '"'
      · rw [if_pos c4] at h
        cases hps : parse_string (skip_whitespace s) with
        | error e => rw [hps] at h; simp only at h; cases h
        | ok p =>
          rw [hps] at h
          obtain ⟨x, rest⟩ := p
          simp only at h
          cases h
          simp only [Spec.KeysAscending]
      rw [if_neg c4] at h
      by_cases c5 : peek (skip_whitespace s) = '['
      · rw [if_pos c5] at h
        exact ia _ r h
      rw [if_neg c5] at h
      by_cases c6 : peek (skip_whitespace s) = '\x7b'
      · rw [if_pos c6] at h
        exact io _ r h
      rw [if_neg c6] at h
      cases h
    · intro s r h
      simp only [parse_array] at h
      by_cases c : peek (skip_whitespace (advance s)) = ']'
      · rw [if_pos c] at h
        cases h
        simp only [Spec.KeysAscending, Spec.KeysAscendingItems]
      · rw [if_neg c] at h
        exact ial [] _ r (by simp only [Spec.KeysAscendingItems]) h
    · intro acc s r hacc h
      simp only [parse_array_loop] at h
      cases hv : (parse_value n s : Result (JSONValue D × List Char)) with
      | error e => rw [hv] at h; simp only at h; cases h
      | ok p =>
        rw [hv] at h
        have hval := iv s p hv
        obtain ⟨val, rest⟩ := p
        simp only at h hval
        have happ := items_append_ascending acc val hacc hval
        by_cases c1 : peek (skip_whitespace rest) = ','
        · rw [if_pos c1] at h
          exact ial _ _ r happ h
        · rw [if_neg c1] at h
          by_cases c2 : peek (skip_whitespace rest) = ']'
          · rw [if_pos c2] at h
            cases h
            simp only [Spec.KeysAscending]
            exact happ
          · rw [if_neg c2] at h
            cases h
    · intro s r h
      simp only [parse_object] at h
      by_cases c : peek (skip_whitespace (advance s)) = '\x7d'
      · rw [if_pos c] at h
        cases h
        simp only [Spec.KeysAscending, Spec.KeysAscendingEntries, List.map_nil,
          List.Pairwise.nil, and_self]
      · rw [if_neg c] at h
        refine iol [] _ r ?_ h
        simp only [Spec.KeysAscending, Spec.KeysAscendingEntries, List.map_nil,
          List.Pairwise.nil, and_self]
    · intro obj s r hobj h
      simp only [parse_object_loop] at h
      by_cases cq : peek (skip_whitespace s) = '"'
      · rw [if_neg (not_not.2 cq)] at h
        cases hps : parse_string (skip_whitespace s) with
        | error e => rw [hps] at h; simp only at h; cases h
        | ok p =>
          rw [hps] at h
          obtain ⟨key, rest⟩ := p
          simp only at h
          by_cases cc : peek (skip_whitespace rest) = ':'
          · rw [if_neg (not_not.2 cc)] at h
            cases hv : (parse_value n (skip_whitespace (advance (skip_whitespace rest))) :
                Result (JSONValue D × List Char)) with
            | error e => rw [hv] at h; simp only at h; cases h
            | ok q =>
              rw [hv] at h
              have hval := iv _ q hv
              obtain ⟨val, rest2⟩ := q
              simp only at h hval
              have hasg := assign_ascending obj key val hobj hval
              by_cases c1 : peek (skip_whitespace rest2) = ','
              · rw [if_pos c1] at h
                exact iol _ _ r hasg h
              · rw [if_neg c1] at h
                by_cases c2 : peek (skip_whitespace rest2) = '\x7d'
                · rw [if_pos c2] at h
                  cases h
                  exact hasg
                · rw [if_neg c2] at h
                  cases h
          · rw [if_pos cc] at h
            cases h
      · rw [if_pos cq] at h
        cases h

/-- Every Mapping of a parsed document has its entries in strictly ascending key order. -/
theorem parse_keys_ascending {D : Type} [Double D] (text : List Char) (v : JSONValue D)
    (h : parse text = .ok v) : Spec.KeysAscending v := by
  unfold parse at h
  cases hv : (parse_value (3 * text.length + 3) text : Result (JSONValue D × List Char)) with
  | error e => rw [hv] at h; simp only at h; cases h
  | ok p =>
    rw [hv] at h
    have := (parse_keys_ascending_all (3 * text.length + 3)).1 text p hv
    obtain ⟨w, rest⟩ := p
    simp only at h this
    cases h
    exact this

mutual

theorem ascending_distinct {D : Type} : ∀ v : JSONValue D,
    Spec.KeysAscending v → Spec.DistinctKeys v
  | .object o, h => by
      simp only [Spec.KeysAscending] at h
      simp only [Spec.DistinctKeys]
      exact ⟨pairwise_lt_nodup _ h.1, ascending_distinct_entries o h.2⟩
  | .array a, h => by
      simp only [Spec.KeysAscending] at h
      simp only [Spec.DistinctKeys]
      exact ascending_distinct_items a h
  | .null, _ => by simp only [Spec.DistinctKeys]
  | .bool _, _ => by simp only [Spec.DistinctKeys]
  | .number _, _ => by simp only [Spec.DistinctKeys]
  | .string _, _ => by simp only [Spec.DistinctKeys]

theorem ascending_distinct_items {D : Type} : ∀ a : List (JSONValue D),
    Spec.KeysAscendingItems a → Spec.DistinctKeysItems a
  | [], _ => by simp only [Spec.DistinctKeysItems]
  | v :: vs, h => by
      simp only [Spec.KeysAscendingItems] at h
      simp only [Spec.DistinctKeysItems]
      exact ⟨ascending_distinct v h.1, ascending_distinct_items vs h.2⟩

theorem ascending_distinct_entries {D : Type} : ∀ o : List (List Char × JSONValue D),
    Spec.KeysAscendingEntries o → Spec.DistinctKeysEntries o
  | [], _ => by simp only [Spec.DistinctKeysEntries]
  | (_, v) :: es, h => by
      simp only [Spec.KeysAscendingEntries] at h
      simp only [Spec.DistinctKeysEntries]
      exact ⟨ascending_distinct v h.1, ascending_distinct_entries es h.2⟩

end

/-- C15: for every text on which `parse` succeeds, every Mapping of the resulting tree has
pairwise distinct keys: a key that the document repeats inside one object is kept once.  It
holds the value of its last occurrence: an assignment replaces the value of an existing key
(`find_assign`), and the entries of an object are assigned in the order of the text
(`object_last_occurrence`). -/
theorem C15_distinct_keys {D : Type} [Double D] (text : List Char) (v : JSONValue D)
    (h : parse text = .ok v) : Spec.DistinctKeys v :=
  ascending_distinct v (parse_keys_ascending text v h)

/-- C15 on the document `{"a":1,"a":2}`: the Mapping has the single pair `a -> 2`. -/
theorem C15_distinct_keys_witness :
    (parse (str "\x7b\"a\":1,\"a\":2\x7d") : Result (JSONValue XDouble))
        = .ok (.object [(str "a", num 2)])
      ∧ Spec.DistinctKeys (.object [(str "a", num 2)] : JSONValue XDouble)
      ∧ (parse (str "\x7b\"b\":\x7b\"y\":1,\"x\":2,\"y\":3\x7d,\"a\":0,\"b\":\x7b\x7d\x7d")
          : Result (JSONValue XDouble))
        = .ok (.object [(str "a", num 0), (str "b", .object [])]) :=
  ⟨by decide,
    C15_distinct_keys (str "\x7b\"a\":1,\"a\":2\x7d") (.object [(str "a", num 2)])
      (by decide),
    by decide⟩

/-- Examples of the executable conversion: integers, fractions, six significant digits and
the change to scientific notation. -/
theorem put_examples :
    XDouble.put (.fin 3 1) = str "3"
      ∧ XDouble.put (.fin (-5) 2) = str "-2.5"
      ∧ XDouble.put (.fin 1 3) = str "0.333333"
      ∧ XDouble.put (.fin 2 3) = str "0.666667"
      ∧ XDouble.put (.fin 1000000 1) = str "1e+06"
      ∧ XDouble.put (.fin 999999 1) = str "999999"
      ∧ XDouble.put (.fin 123456789 1) = str "1.23457e+08"
      ∧ XDouble.put (.fin 1 10000) = str "0.0001"
      ∧ XDouble.put (.fin 1 100000) = str "1e-05"
      ∧ XDouble.put (.fin 9999995 10) = str "1e+06"
      ∧ XDouble.put (.fin 100 1) = str "100"
      ∧ XDouble.put (.fin 12345 100) = str "123.45"
      ∧ XDouble.put (.fin 0 1) = str "0"
      ∧ XDouble.put .ninf = str "-inf" := by
  decide




/-! ## The rendering -/

theorem render_entries_keys {D : Type} [DoubleOutput D] (o : List (List Char × JSONValue D)) :
    (Spec.render_entries o).map Prod.fst = o.map Prod.fst := by
  induction o with
  | nil => simp [Spec.render_entries]
  | cons e es ih =>
    obtain ⟨k, v⟩ := e
    simp only [Spec.render_entries, List.map_cons, ih]

/-- Sorting the entries of a Mapping that is in ascending key order changes nothing. -/
theorem sort_by_key_eq {D : Type} [DoubleOutput D] (o : List (List Char × JSONValue D))
    (h : (o.map Prod.fst).Pairwise (fun a b => string_lt a b = true)) :
    Spec.sort_by_key (Spec.render_entries o) = Spec.render_entries o := by
  unfold Spec.sort_by_key
  apply List.Sorted.insertionSort_eq
  unfold List.Sorted
  rw [← render_entries_keys o, List.pairwise_map] at h
  exact h

theorem intercalate_cons_cons (sep x y : List Char) (l : List (List Char)) :
    sep.intercalate (x :: y :: l) = x ++ sep ++ sep.intercalate (y :: l) := by
  simp [List.intercalate, List.intersperse]

mutual

/-- The code renders a value whose Mappings are in ascending key order as the
specification does. -/
theorem to_string_eq_render {D : Type} [DoubleOutput D] : ∀ v : JSONValue D,
    Spec.KeysAscending v → v.to_string = Spec.render v
  | .object o, h => by
      simp only [Spec.KeysAscending] at h
      simp only [JSONValue.to_string, Spec.render]
      rw [sort_by_key_eq o h.1, to_string_object_eq o h.2]
  | .array a, h => by
      simp only [Spec.KeysAscending] at h
      simp only [JSONValue.to_string, Spec.render]
      rw [to_string_array_eq a h]
  | .null, _ => by simp only [JSONValue.to_string, Spec.render]
  | .bool true, _ => by simp only [JSONValue.to_string, Spec.render, if_true]
  | .bool false, _ => by
      simp only [JSONValue.to_string, Spec.render, Bool.false_eq_true, if_false]
  | .number _, _ => by simp only [JSONValue.to_string, Spec.render]
  | .string _, _ => by simp only [JSONValue.to_string, Spec.render]

theorem to_string_array_eq {D : Type} [DoubleOutput D] : ∀ a : List (JSONValue D),
    Spec.KeysAscendingItems a →
      JSONValue.to_string_array a = ", ".toList.intercalate (Spec.render_items a)
  | [], _ => by simp [JSONValue.to_string_array, Spec.render_items, List.intercalate]
  | v :: rest, h => by
      simp only [Spec.KeysAscendingItems] at h
      have hv := to_string_eq_render v h.1
      have hr := to_string_array_eq rest h.2
      cases rest with
      | nil =>
        simp [JSONValue.to_string_array, Spec.render_items, List.intercalate, hv]
      | cons w ws =>
        simp only [JSONValue.to_string_array, Spec.render_items] at hr ⊢
        rw [intercalate_cons_cons, ← hr, hv]
        simp

theorem to_string_object_eq {D : Type} [DoubleOutput D] :
    ∀ o : List (List Char × JSONValue D), Spec.KeysAscendingEntries o →
      JSONValue.to_string_object o
        = ", ".toList.intercalate ((Spec.render_entries o).map Spec.entry_text)
  | [], _ => by simp [JSONValue.to_string_object, Spec.render_entries, List.intercalate]
  | (k, v) :: rest, h => by
      simp only [Spec.KeysAscendingEntries] at h
      have hv := to_string_eq_render v h.1
      have hr := to_string_object_eq rest h.2
      cases rest with
      | nil =>
        simp [JSONValue.to_string_object, Spec.render_entries, Spec.entry_text,
          List.intercalate, hv]
      | cons e es =>
        obtain ⟨k2, v2⟩ := e
        simp only [JSONValue.to_string_object, Spec.render_entries, List.map_cons] at hr ⊢
        rw [intercalate_cons_cons, ← hr, hv]
        simp [Spec.entry_text]

end

/-- C16: `to_string` returns `null`, `true` or `false`, the string itself, the renderings of
the elements joined by `, ` between `[` and `]` for a Sequence, and the entries
`"key": rendering` joined by `, ` between braces for a Mapping, in ascending key order (a
Number is written by `operator<<`).  This holds for every Value whose Mappings iterate in
ascending key order, as every `std::map` does, and so for every parsed document, whatever
the order of the keys in its text. -/
theorem C16_render {D : Type} [Double D] [DoubleOutput D] (v : JSONValue D) :
    (Spec.KeysAscending v → v.to_string = Spec.render v)
      ∧ (∀ text : List Char, parse text = .ok v → v.to_string = Spec.render v) :=
  ⟨to_string_eq_render v, fun text h => to_string_eq_render v (parse_keys_ascending text v h)⟩

/-- C16 on the document `{"b":null,"a":[true,"x"]}`: it renders as
`{"a": [true, x], "b": null}`. -/
theorem C16_render_witness :
    (parse (str "\x7b\"b\":null,\"a\":[true,\"x\"]\x7d") : Result (JSONValue XDouble))
        = .ok (.object [(str "a", .array [.bool true, .string (str "x")]), (str "b", .null)])
      ∧ (JSONValue.object [(str "a", .array [.bool true, .string (str "x")]),
            (str "b", .null)] : JSONValue XDouble).to_string
          = Spec.render (JSONValue.object [(str "a", .array [.bool true, .string (str "x")]),
            (str "b", .null)] : JSONValue XDouble)
      ∧ (JSONValue.object [(str "a", .array [.bool true, .string (str "x")]),
            (str "b", .null)] : JSONValue XDouble).to_string
          = str "\x7b\"a\": [true, x], \"b\": null\x7d"
      ∧ Spec.render (JSONValue.object [(str "b", .null),
            (str "a", .array [.bool true, .string (str "x")])] : JSONValue XDouble)
          = str "\x7b\"a\": [true, x], \"b\": null\x7d" :=
  ⟨by decide,
    (C16_render (JSONValue.object [(str "a", .array [.bool true, .string (str "x")]),
        (str "b", .null)] : JSONValue XDouble)).2
      (str "\x7b\"b\":null,\"a\":[true,\"x\"]\x7d") (by decide),
    by decide, by decide⟩

theorem nat_digits_ne_nil (fuel n : Nat) (acc : List Char) :
    XDouble.nat_digits fuel n acc ≠ [] := by
  induction fuel generalizing n acc with
  | zero => simp [XDouble.nat_digits]
  | succ k ih =>
    simp only [XDouble.nat_digits]
    split
    · simp
    · exact ih _ _

theorem format_digits_ne_nil (m : Nat) (X : Int) : XDouble.format_digits m X ≠ [] := by
  unfold XDouble.format_digits
  split
  · exact List.append_ne_nil_of_left_ne_nil (nat_digits_ne_nil _ _ _) _
  · split
    · simp
    · rw [List.append_assoc]
      exact List.append_ne_nil_of_left_ne_nil (nat_digits_ne_nil _ _ _) _

theorem ite_ne_nil (b : Prop) [Decidable b] (x y : List Char) (hx : x ≠ []) (hy : y ≠ []) :
    (if b then x else y) ≠ [] := by
  split
  · exact hx
  · exact hy

theorem format_pos_ne_nil (n d : Nat) : XDouble.format_pos n d ≠ [] := by
  unfold XDouble.format_pos
  exact ite_ne_nil _ _ _ (format_digits_ne_nil _ _) (format_digits_ne_nil _ _)

/-- The executable conversion writes at least one character for every number. -/
theorem put_ne_nil (d : XDouble) : (DoubleOutput.put d : List Char) ≠ [] := by
  show XDouble.put d ≠ []
  cases d with
  | fin n den =>
    simp only [XDouble.put]
    split
    · simp
    · exact List.append_ne_nil_of_right_ne_nil _ (format_pos_ne_nil _ _)
  | pinf => decide
  | ninf => decide
  | nan => decide

/-- C17 as stated fails: the document `""` is valid, its value is the empty String, and the
rendering of a String is the String itself, which is empty. -/
theorem C17_empty_string_counterexample :
    (parse (str "\"\"") : Result (JSONValue XDouble)) = .ok (.string [])
      ∧ (JSONValue.string [] : JSONValue XDouble).to_string = []
      ∧ (parse (str " \"\" x") : Result (JSONValue XDouble)) = .ok (.string []) := by
  decide

/-! ## The call of the specification is the call of the code -/

theorem find_char_split (s : List Char) (c : Char) :
    ∀ k, find_char s c = some k →
      ∃ pre rest, s = pre ++ c :: rest ∧ c ∉ pre ∧ pre.length = k := by
  induction s with
  | nil => intro k h; simp [find_char] at h
  | cons a as ih =>
    intro k h
    simp only [find_char] at h
    by_cases e : a = c
    · rw [if_pos e] at h
      cases h
      exact ⟨[], as, by rw [e]; rfl, by simp, rfl⟩
    · rw [if_neg e] at h
      cases hf : find_char as c with
      | none => rw [hf] at h; cases h
      | some j =>
        rw [hf] at h
        simp only [Option.map_some', Option.some.injEq] at h
        obtain ⟨pre, rest, h1, h2, h3⟩ := ih j hf
        refine ⟨a :: pre, rest, by rw [h1]; rfl, ?_, by simp [h3, h]⟩
        intro hm
        rcases List.mem_cons.1 hm with h' | h'
        · exact e h'.symm
        · exact h2 h'

theorem find_matching_bracket_loop_split (s : List Char) :
    ∀ (d : Int) (i q : Nat), 1 ≤ d → find_matching_bracket_loop s d i = .ok q →
      ∃ args tail, s = args ++ ')' :: tail ∧ d - 1 + Spec.depth args = 0
        ∧ (∀ pre ∈ args.inits, 0 ≤ d - 1 + Spec.depth pre) ∧ q = i + args.length := by
  induction s with
  | nil => intro d i q _ h; simp [find_matching_bracket_loop] at h
  | cons c cs ih =>
    intro d i q hd h
    simp only [find_matching_bracket_loop] at h
    have hdep : (if c = '(' then d + 1 else if c = ')' then d - 1 else d)
        = d + ((if c = '(' then 1 else 0) - (if c = ')' then 1 else 0)) := by
      by_cases e1 : c = '('
      · subst e1; simp
      · by_cases e2 : c = ')'
        · subst e2; simp; ring
        · simp [e1, e2]
    rw [hdep] at h
    by_cases h0 : d + ((if c = '(' then (1 : Int) else 0) - (if c = ')' then 1 else 0)) = 0
    · rw [if_pos h0] at h
      cases h
      have hc : c = ')' := by
        by_contra hne
        rw [if_neg hne] at h0
        by_cases e1 : c = '('
        · rw [if_pos e1] at h0; omega
        · rw [if_neg e1] at h0; omega
      subst hc
      simp only [Char.reduceEq, if_false, if_true] at h0
      refine ⟨[], cs, rfl, ?_, ?_, rfl⟩
      · simp only [Spec.depth, List.count_nil]; omega
      · intro pre hp
        simp only [List.inits, List.mem_singleton] at hp
        subst hp
        simp only [Spec.depth, List.count_nil]; omega
    · rw [if_neg h0] at h
      have hge : 1 ≤ d + ((if c = '(' then (1 : Int) else 0) - (if c = ')' then 1 else 0)) := by
        by_cases e1 : c = '('
        · rw [if_pos e1] at h0 ⊢
          by_cases e2 : c = ')'
          · rw [if_pos e2] at h0 ⊢; omega
          · rw [if_neg e2] at h0 ⊢; omega
        · rw [if_neg e1] at h0 ⊢
          by_cases e2 : c = ')'
          · rw [if_pos e2] at h0 ⊢; omega
          · rw [if_neg e2] at h0 ⊢; omega
      obtain ⟨args, tail, h1, h2, h3, h4⟩ := ih _ (i + 1) q hge h
      refine ⟨c :: args, tail, by rw [h1]; rfl, ?_, ?_, ?_⟩
      · rw [depth_cons]; omega
      · intro pre hp
        simp only [List.inits, List.mem_cons, List.mem_map] at hp
        rcases hp with e | ⟨pre2, hp2, e⟩
        · subst e
          simp only [Spec.depth, List.count_nil]; omega
        · subst e
          have := h3 pre2 hp2
          rw [depth_cons]; omega
      · rw [h4]; simp only [List.length_cons]; omega

/-- The trimmed text is a call in the sense of the specification exactly when the code finds
a `(` that is not its first character and a closing parenthesis by depth counting. -/
theorem call_iff (expr : List Char) :
    (∃ name args_str tail, Spec.Call expr name args_str tail)
      ↔ ∃ p q, find_char (trim expr) '(' = some (p + 1)
          ∧ find_matching_bracket (trim expr) (p + 1) = .ok q := by
  constructor
  · rintro ⟨name, args_str, tail, ht, hne, hno, hd, hpre⟩
    obtain ⟨p, hp⟩ : ∃ p, name.length = p + 1 := by
      cases name with
      | nil => exact absurd rfl hne
      | cons a as => exact ⟨as.length, rfl⟩
    refine ⟨p, p + 1 + 1 + args_str.length, ?_, ?_⟩
    · rw [ht, ← hp, List.append_assoc, List.cons_append]
      exact find_char_append name _ '(' hno
    · unfold find_matching_bracket
      have hdrop : (trim expr).drop (p + 1 + 1) = args_str ++ ')' :: tail := by
        rw [ht, ← hp]
        have : name ++ '(' :: args_str ++ ')' :: tail
            = (name ++ ['(']) ++ (args_str ++ ')' :: tail) := by simp
        rw [this]
        exact List.drop_left' (by simp)
      rw [hdrop]
      exact find_matching_bracket_loop_balanced args_str tail 1 (p + 1 + 1)
        (by omega) (fun pre hpi => by have := hpre pre hpi; omega)
  · rintro ⟨p, q, hf, hm⟩
    obtain ⟨name, rest, h1, h2, h3⟩ := find_char_split _ _ _ hf
    unfold find_matching_bracket at hm
    have hdrop : (trim expr).drop (p + 1 + 1) = rest := by
      rw [h1, ← h3]
      have : name ++ '(' :: rest = (name ++ ['(']) ++ rest := by simp
      rw [this]
      exact List.drop_left' (by simp)
    rw [hdrop] at hm
    obtain ⟨args, tail, e1, e2, e3, _⟩ :=
      find_matching_bracket_loop_split rest 1 (p + 1 + 1) q (le_refl _) hm
    refine ⟨name, args, tail, ?_, ?_, h2, by omega, fun pre hp => by
      have := e3 pre hp; omega⟩
    · rw [h1, e1]; simp
    · intro e
      rw [e] at h3
      simp at h3

/-! ## The documents with an empty rendering -/

theorem parse_array_loop_is_array {D : Type} [Double D] (n : Nat) :
    ∀ (acc : JSONArray D) (s : List Char) (r : JSONValue D × List Char),
      parse_array_loop n acc s = .ok r → ∃ a, r.1 = .array a := by
  induction n with
  | zero => intro acc s r h; simp [parse_array_loop] at h
  | succ n ih =>
    intro acc s r h
    simp only [parse_array_loop] at h
    cases hv : (parse_value n s : Result (JSONValue D × List Char)) with
    | error e => rw [hv] at h; simp only at h; cases h
    | ok p =>
      rw [hv] at h
      obtain ⟨val, rest⟩ := p
      simp only at h
      by_cases c1 : peek (skip_whitespace rest) = ','
      · rw [if_pos c1] at h
        exact ih _ _ r h
      · rw [if_neg c1] at h
        by_cases c2 : peek (skip_whitespace rest) = ']'
        · rw [if_pos c2] at h
          cases h
          exact ⟨_, rfl⟩
        · rw [if_neg c2] at h
          cases h

theorem parse_array_is_array {D : Type} [Double D] (n : Nat) (s : List Char)
    (r : JSONValue D × List Char) (h : parse_array n s = .ok r) : ∃ a, r.1 = .array a := by
  cases n with
  | zero => simp [parse_array] at h
  | succ n =>
    simp only [parse_array] at h
    by_cases c : peek (skip_whitespace (advance s)) = ']'
    · rw [if_pos c] at h
      cases h
      exact ⟨_, rfl⟩
    · rw [if_neg c] at h
      exact parse_array_loop_is_array n _ _ r h

theorem parse_object_loop_is_object {D : Type} [Double D] (n : Nat) :
    ∀ (obj : JSONObject D) (s : List Char) (r : JSONValue D × List Char),
      parse_object_loop n obj s = .ok r → ∃ o, r.1 = .object o := by
  induction n with
  | zero => intro obj s r h; simp [parse_object_loop] at h
  | succ n ih =>
    intro obj s r h
    simp only [parse_object_loop] at h
    by_cases cq : peek (skip_whitespace s) = '"'
    · rw [if_neg (not_not.2 cq)] at h
      cases hps : parse_string (skip_whitespace s) with
      | error e => rw [hps] at h; simp only at h; cases h
      | ok p =>
        rw [hps] at h
        obtain ⟨key, rest⟩ := p
        simp only at h
        by_cases cc : peek (skip_whitespace rest) = ':'
        · rw [if_neg (not_not.2 cc)] at h
          cases hv : (parse_value n (skip_whitespace (advance (skip_whitespace rest))) :
              Result (JSONValue D × List Char)) with
          | error e => rw [hv] at h; simp only at h; cases h
          | ok q =>
            rw [hv] at h
            obtain ⟨val, rest2⟩ := q
            simp only at h
            by_cases c1 : peek (skip_whitespace rest2) = ','
            · rw [if_pos c1] at h
              exact ih _ _ r h
            · rw [if_neg c1] at h
              by_cases c2 : peek (skip_whitespace rest2) = '\x7d'
              · rw [if_pos c2] at h
                cases h
                exact ⟨_, rfl⟩
              · rw [if_neg c2] at h
                cases h
        · rw [if_pos cc] at h
          cases h
    · rw [if_pos cq] at h
      cases h

theorem parse_object_is_object {D : Type} [Double D] (n : Nat) (s : List Char)
    (r : JSONValue D × List Char) (h : parse_object n s = .ok r) : ∃ o, r.1 = .object o := by
  cases n with
  | zero => simp [parse_object] at h
  | succ n =>
    simp only [parse_object] at h
    by_cases c : peek (skip_whitespace (advance s)) = '\x7d'
    · rw [if_pos c] at h
      cases h
      exact ⟨_, rfl⟩
    · rw [if_neg c] at h
      exact parse_object_loop_is_object n _ _ r h

/-- The loop of `parse_string` only adds characters to its string; it adds none exactly when
the text starts with the closing quote. -/
theorem parse_string_loop_grows (n : Nat) :
    ∀ (s acc x rest : List Char), s.length ≤ n → parse_string_loop s acc = .ok (x, rest) →
      acc.length ≤ x.length ∧ (x.length = acc.length → s = '"' :: rest) := by
  induction n with
  | zero =>
    intro s acc x rest hl h
    have : s = [] := List.length_eq_zero.1 (Nat.le_zero.1 hl)
    subst this
    simp [parse_string_loop] at h
  | succ n ih =>
    intro s acc x rest hl h
    rw [parse_string_loop.eq_def] at h
    cases s with
    | nil => simp only at h; cases h
    | cons c r =>
      simp only at h
      by_cases c1 : c = '"'
      · rw [if_pos c1] at h
        cases h
        exact ⟨le_refl _, fun _ => by rw [c1]⟩
      · rw [if_neg c1] at h
        by_cases c2 : c = '\x00'
        · rw [if_pos c2] at h; cases h
        · rw [if_neg c2] at h
          by_cases c3 : c = '\\'
          · rw [if_pos c3] at h
            cases r with
            | nil => simp only at h; cases h
            | cons e r2 =>
              simp only at h
              cases hu : unescape e with
              | none => rw [hu] at h; simp only at h; cases h
              | some y =>
                rw [hu] at h
                simp only at h
                have := ih r2 (acc ++ [y]) x rest (by simp at hl ⊢; omega) h
                simp only [List.length_append, List.length_singleton] at this
                exact ⟨by omega, fun e => by omega⟩
          · rw [if_neg c3] at h
            have := ih r (acc ++ [c]) x rest (by simp at hl ⊢; omega) h
            simp only [List.length_append, List.length_singleton] at this
            exact ⟨by omega, fun e => by omega⟩

/-- A document whose value is the empty String starts, after its leading white space, with
two quotes. -/
theorem empty_string_text {D : Type} [Double D] (n : Nat) (text rest : List Char)
    (h : (parse_value n text : Result (JSONValue D × List Char)) = .ok (.string [], rest)) :
    skip_whitespace text = '"' :: '"' :: rest := by
  cases n with
  | zero => simp [parse_value] at h
  | succ n =>
    simp only [parse_value] at h
    by_cases c1 : peek (skip_whitespace text) = 'n'
    · rw [if_pos c1] at h
      have := parse_null_value _ _ h
      cases this
    rw [if_neg c1] at h
    by_cases c2 : peek (skip_whitespace text) = 't' ∨ peek (skip_whitespace text) = 'f'
    · rw [if_pos c2] at h
      obtain ⟨b, hb⟩ := parse_bool_value _ _ h
      cases hb
    rw [if_neg c2] at h
    by_cases c3 : peek (skip_whitespace text) = '-'
        ∨ isdigit (peek (skip_whitespace text)) = true
    · rw [if_pos c3] at h
      obtain ⟨d, hd⟩ := parse_number_value _ _ h
      cases hd
    rw [if_neg c3] at h
    by_cases c4 : peek (skip_whitespace text) = '"'
    · rw [if_pos c4] at h
      cases hps : parse_string (skip_whitespace text) with
      | error e => rw [hps] at h; simp only at h; cases h
      | ok p =>
        rw [hps] at h
        obtain ⟨x, rest'⟩ := p
        simp only at h
        cases h
        unfold parse_string at hps
        have := (parse_string_loop_grows _ _ [] [] rest (le_refl _) hps).2 rfl
        rw [peek_cons_of_ne (s := skip_whitespace text) (by rw [c4]; decide), c4, this]
    rw [if_neg c4] at h
    by_cases c5 : peek (skip_whitespace text) = '['
    · rw [if_pos c5] at h
      obtain ⟨a, ha⟩ := parse_array_is_array _ _ _ h
      cases ha
    rw [if_neg c5] at h
    by_cases c6 : peek (skip_whitespace text) = '\x7b'
    · rw [if_pos c6] at h
      obtain ⟨o, ho⟩ := parse_object_is_object _ _ _ h
      cases ho
    rw [if_neg c6] at h
    cases h

/-- C17, amended: `operator<<` writes at least one character for every `double`; then for
every text on which `parse` succeeds, the rendering of the parsed Value is empty exactly
when the Value is the empty String, that is, when the text starts, after its leading white
space, with the literal `""`; the rendering of every other document is not empty. -/
theorem C17_render_nonempty {D : Type} [Double D] [DoubleOutput D]
    (hput : ∀ d : D, (DoubleOutput.put d : List Char) ≠ []) (text : List Char)
    (v : JSONValue D) (h : parse text = .ok v) :
    (v.to_string = [] ↔ v = .string [])
      ∧ (v.to_string = [] ↔ ∃ rest, skip_whitespace text = '"' :: '"' :: rest) := by
  have key : v.to_string = [] ↔ v = .string [] := by
    cases v with
    | null => simp [JSONValue.to_string]
    | bool b => cases b <;> simp [JSONValue.to_string]
    | number d => simp [JSONValue.to_string, hput d]
    | string s => simp [JSONValue.to_string]
    | object o => simp [JSONValue.to_string]
    | array a => simp [JSONValue.to_string]
  refine ⟨key, ?_⟩
  rw [key]
  constructor
  · intro hv
    subst hv
    unfold parse at h
    cases hp : (parse_value (3 * text.length + 3) text :
        Result (JSONValue D × List Char)) with
    | error e => rw [hp] at h; simp only at h; cases h
    | ok p =>
      rw [hp] at h
      obtain ⟨w, rest⟩ := p
      simp only at h
      cases h
      exact ⟨rest, empty_string_text _ text rest hp⟩
  · rintro ⟨rest, hr⟩
    have h2 : (parse text : Result (JSONValue D)) = .ok (.string []) := by
      unfold parse
      have h3 : 3 * text.length + 3 = (3 * text.length + 2) + 1 := rfl
      rw [h3]
      simp only [parse_value, hr, peek]
      rw [if_neg (by decide), if_neg (by decide), if_neg (by decide)]
      have hs : parse_string ('"' :: '"' :: rest) = .ok ([], rest) := by
        unfold parse_string
        simp only [advance]
        rw [parse_string_loop.eq_def]
        simp
      simp only [if_true, hs]
    rw [h2] at h
    cases h
    rfl

/-- C17, amended, on the documents `[""]` and ` ""x`: the rendering `[]` of the first is not
empty, the second starts with the empty literal and its rendering is empty. -/
theorem C17_render_nonempty_witness :
    (parse (str "[\"\"]") : Result (JSONValue XDouble)) = .ok (.array [.string []])
      ∧ (JSONValue.array [.string []] : JSONValue XDouble).to_string = str "[]"
      ∧ ¬ (JSONValue.array [.string []] : JSONValue XDouble).to_string = []
      ∧ (parse (str " \"\"x") : Result (JSONValue XDouble)) = .ok (.string [])
      ∧ (JSONValue.string [] : JSONValue XDouble).to_string = []
      ∧ (parse (str "12.50") : Result (JSONValue XDouble)) = .ok (.number (.fin 25 2))
      ∧ (JSONValue.number (.fin 25 2) : JSONValue XDouble).to_string = str "12.5" :=
  ⟨by decide, by decide,
    fun he =>
      absurd ((C17_render_nonempty put_ne_nil (str "[\"\"]") (.array [.string []])
        (by decide)).1.1 he) (by decide),
    by decide,
    (C17_render_nonempty put_ne_nil (str " \"\"x") (.string []) (by decide)).2.2
      ⟨str "x", by decide⟩,
    by decide, by decide⟩

/-! ## A repeated key holds the value of its last occurrence -/

theorem find_foldl_assign {D : Type} (es : List (Spec.Entry D)) :
    ∀ (o : JSONObject D) (k : List Char),
      JSONObject.find (es.foldl (fun o e => JSONObject.assign o e.key_text e.value) o) k
        = (Spec.last_value es k).or (JSONObject.find o k) := by
  induction es with
  | nil => intro o k; simp [Spec.last_value]
  | cons e es ih =>
    intro o k
    simp only [List.foldl_cons]
    rw [ih]
    simp only [Spec.last_value, List.reverse_cons, List.find?_append, List.find?_cons,
      List.find?_nil]
    cases hl : List.find? (fun e => decide (e.key_text = k)) es.reverse with
    | some x => simp
    | none =>
      by_cases hk : e.key_text = k
      · subst hk
        simp [(find_assign o e.key_text e.value).1]
      · simp [hk, (find_assign o e.key_text e.value).2 k (fun h => hk h.symm)]

theorem parse_value_skip {D : Type} [Double D] (n : Nat) (s : List Char) :
    (parse_value n (skip_whitespace s) : Result (JSONValue D × List Char))
      = parse_value n s := by
  have hs : skip_whitespace (skip_whitespace s) = skip_whitespace s := by
    unfold skip_whitespace
    induction s with
    | nil => rfl
    | cons a as ih =>
      by_cases h : isspace a = true
      · simp only [List.dropWhile_cons, h, if_true]
        exact ih
      · simp [List.dropWhile_cons, h]
  cases n with
  | zero => simp [parse_value]
  | succ n => simp only [parse_value, hs]

theorem skip_whitespace_cons (c : Char) (s : List Char) (h : isspace c = false) :
    skip_whitespace (c :: s) = c :: s := by
  unfold skip_whitespace
  rw [List.dropWhile_cons, if_neg (by rw [h]; decide)]

theorem entries_source_length {D : Type} (e : Spec.Entry D) (es : List (Spec.Entry D)) :
    e.text.length + 3 ≤ (Spec.entries_source (e :: es)).length
      ∧ (es ≠ [] → e.text.length + 4 + (Spec.entries_source es).length
          ≤ (Spec.entries_source (e :: es)).length) := by
  constructor
  · simp only [Spec.entries_source, Spec.Entry.source, List.length_append, List.length_cons]
    omega
  · intro hne
    cases es with
    | nil => exact absurd rfl hne
    | cons e2 es2 =>
      simp only [Spec.entries_source, Spec.Entry.source, List.length_append,
        List.length_cons, List.isEmpty_cons, Bool.false_eq_true, if_false,
        List.length_singleton, List.length_nil]
      omega

/-- The loop of `parse_object` on the entries of an object: each entry is assigned in the
order of the text. -/
theorem parse_object_loop_entries {D : Type} [Double D] (es : List (Spec.Entry D)) :
    es ≠ [] → (∀ e ∈ es, e.WellFormed) →
      ∀ (obj : JSONObject D) (fuel : Nat) (tl : List Char),
        3 * (Spec.entries_source es).length + 3 ≤ fuel →
        parse_object_loop fuel obj (Spec.entries_source es ++ '\x7d' :: tl)
          = .ok (.object (es.foldl (fun o e => JSONObject.assign o e.key_text e.value) obj),
              tl) := by
  induction es with
  | nil => intro h; exact absurd rfl h
  | cons e es ih =>
    intro _ hwf obj fuel tl hfuel
    obtain ⟨hkey, hval⟩ := hwf e (List.mem_cons_self _ _)
    have hlen := entries_source_length e es
    cases fuel with
    | zero => omega
    | succ f =>
      have hstr : ∀ rest : List Char,
          parse_string ('"' :: (Spec.body_text e.key ++ '"' :: rest))
            = .ok (e.key_text, rest) := by
        intro rest
        unfold parse_string
        simp only [advance]
        rw [parse_string_loop_body e.key hkey, parse_string_loop.eq_def]
        simp [Spec.Entry.key_text]
      have hv : ∀ (c : Char) (rest : List Char), isdigit c = false → c ≠ '.' →
          (parse_value f (e.text ++ c :: rest) : Result (JSONValue D × List Char))
            = .ok (e.value, c :: rest) := by
        intro c rest hc1 hc2
        have hd : Spec.Detached (c :: rest) := by
          intro a ha
          simp only [List.head?_cons, Option.some.injEq] at ha
          subst ha
          exact ⟨hc1, hc2⟩
        have := (parse_append_all (c :: rest) hd (3 * e.text.length + 3) f (by omega)).1
          e.text (e.value, []) hval
        simpa using this
      cases hes : es with
      | nil =>
        subst hes
        simp only [Spec.entries_source, List.isEmpty_nil, if_true, List.append_nil,
          List.foldl_cons, List.foldl_nil, Spec.Entry.source, List.cons_append,
          List.append_assoc, parse_object_loop]
        rw [skip_whitespace_cons _ _ (by decide)]
        simp only [peek, ne_eq, not_true_eq_false, if_false, hstr]
        rw [skip_whitespace_cons _ _ (by decide)]
        simp only [peek, ne_eq, not_true_eq_false, if_false, advance]
        rw [parse_value_skip, hv '\x7d' tl (by decide) (by decide)]
        simp only []
        rw [skip_whitespace_cons _ _ (by decide)]
        simp only [peek, advance]
        rw [if_neg (by decide)]
        simp only [if_true]
      | cons e2 es2 =>
        rw [← hes]
        have hne : es ≠ [] := by rw [hes]; simp
        have hsrc : Spec.entries_source (e :: es) ++ '\x7d' :: tl
            = '"' :: (Spec.body_text e.key ++ '"' :: ':' :: (e.text
                ++ ',' :: (Spec.entries_source es ++ '\x7d' :: tl))) := by
          rw [hes]
          simp [Spec.entries_source, Spec.Entry.source]
        rw [hsrc]
        simp only [List.foldl_cons, parse_object_loop]
        rw [skip_whitespace_cons _ _ (by decide)]
        simp only [peek, ne_eq, not_true_eq_false, if_false, hstr]
        rw [skip_whitespace_cons _ _ (by decide)]
        simp only [peek, ne_eq, not_true_eq_false, if_false, advance]
        rw [parse_value_skip, hv ',' _ (by decide) (by decide)]
        simp only []
        rw [skip_whitespace_cons _ _ (by decide)]
        simp only [peek, advance, if_true]
        exact ih hne (fun x hx => hwf x (List.mem_cons_of_mem _ hx)) _ f tl
          (by have := hlen.2 hne; omega)

/-- The document of an object with the given entries, each value text a complete document,
is parsed to the Mapping in which every key holds the value of its last entry. -/
theorem object_last_occurrence {D : Type} [Double D] (es : List (Spec.Entry D))
    (hne : es ≠ []) (hwf : ∀ e ∈ es, e.WellFormed) :
    ∃ o : JSONObject D, parse (Spec.object_source es) = .ok (.object o)
      ∧ ∀ k, JSONObject.find o k = Spec.last_value es k := by
  refine ⟨es.foldl (fun o e => JSONObject.assign o e.key_text e.value) [], ?_, ?_⟩
  · unfold parse Spec.object_source
    have h3 : 3 * ('\x7b' :: (Spec.entries_source es ++ ['\x7d'])).length + 3
        = (3 * (Spec.entries_source es).length + 7) + 1 + 1 := by
      simp only [List.length_cons, List.length_append, List.length_singleton,
        List.length_nil]
      omega
    rw [h3]
    simp only [parse_value]
    rw [skip_whitespace_cons _ _ (by decide)]
    simp only [peek]
    rw [if_neg (by decide), if_neg (by decide), if_neg (by decide), if_neg (by decide),
      if_neg (by decide)]
    simp only [if_true, parse_object, advance]
    obtain ⟨a, as, has⟩ := List.exists_cons_of_ne_nil hne
    have hq : ∃ r, Spec.entries_source es ++ ['\x7d'] = '"' :: r := by
      rw [has]
      simp only [Spec.entries_source, Spec.Entry.source, List.cons_append, List.append_assoc]
      exact ⟨_, rfl⟩
    obtain ⟨r, hr⟩ := hq
    have hsk : skip_whitespace (Spec.entries_source es ++ ['\x7d'])
        = Spec.entries_source es ++ ['\x7d'] := by
      rw [hr]
      exact skip_whitespace_cons _ _ (by decide)
    rw [hsk]
    have hpk : peek (Spec.entries_source es ++ ['\x7d']) = '"' := by rw [hr]; rfl
    rw [hpk, if_neg (by decide),
      parse_object_loop_entries es hne hwf [] (3 * (Spec.entries_source es).length + 7) []
        (by omega)]
  · intro k
    rw [find_foldl_assign]
    simp [JSONObject.find]

/-- The document `{"a":1,"a":2}` as an object of two entries with the same key: the key `a`
holds the value 2 of its last entry. -/
theorem object_last_occurrence_example :
    Spec.object_source [(⟨[.plain 'a'], str "1", num 1⟩ : Spec.Entry XDouble),
        ⟨[.plain 'a'], str "2", num 2⟩] = str "\x7b\"a\":1,\"a\":2\x7d"
      ∧ ∃ o : JSONObject XDouble,
          parse (Spec.object_source [(⟨[.plain 'a'], str "1", num 1⟩ : Spec.Entry XDouble),
            ⟨[.plain 'a'], str "2", num 2⟩]) = .ok (.object o)
          ∧ JSONObject.find o (str "a") = some (num 2) := by
  refine ⟨by decide, ?_⟩
  obtain ⟨o, h1, h2⟩ := object_last_occurrence
    [(⟨[.plain 'a'], str "1", num 1⟩ : Spec.Entry XDouble), ⟨[.plain 'a'], str "2", num 2⟩]
    (by simp) (by
      intro e he
      simp only [List.mem_cons, List.mem_singleton, List.not_mem_nil, or_false] at he
      rcases he with h | h <;> subst h <;> exact ⟨by decide, by decide⟩)
  exact ⟨o, h1, by rw [h2]; decide⟩

/-! ## The text after a call -/

theorem dropWhile_head_not {α : Type} (p : α → Bool) (l : List α) (c : α)
    (h : (l.dropWhile p).head? = some c) : p c = false := by
  induction l with
  | nil => simp at h
  | cons a as ih =>
    by_cases hp : p a = true
    · rw [List.dropWhile_cons, if_pos hp] at h
      exact ih h
    · rw [List.dropWhile_cons, if_neg hp] at h
      simp only [List.head?_cons, Option.some.injEq] at h
      subst h
      simpa using hp

/-- The trimmed text does not start with a blank. -/
theorem trim_head (expr : List Char) (c : Char) (h : (trim expr).head? = some c) :
    is_trim_char c = false := by
  unfold trim at h
  have hpre : ((expr.dropWhile is_trim_char).reverse.dropWhile is_trim_char).reverse
      <+: expr.dropWhile is_trim_char := by
    rw [← List.reverse_suffix, List.reverse_reverse]
    exact List.dropWhile_suffix _
  obtain ⟨t, ht⟩ := hpre
  apply dropWhile_head_not is_trim_char expr c
  rw [← ht]
  cases hx : ((expr.dropWhile is_trim_char).reverse.dropWhile is_trim_char).reverse with
  | nil => rw [hx] at h; simp at h
  | cons a as =>
    rw [hx] at h
    simpa using h

/-- C22: for every root and every expression whose trimmed text is `name(args)` followed by
any further text `tail` after the parenthesis that matches the first `(`, evaluate returns
the outcome of `name(args)` alone; the text after the call is not read. -/
theorem C22_tail_ignored {D : Type} [Double D] (root : JSONValue D)
    (expr name args_str tail : List Char) (hcall : Spec.Call expr name args_str tail) :
    evaluate root expr = evaluate root (name ++ '(' :: args_str ++ [')']) := by
  have h2 : Spec.Call (name ++ '(' :: args_str ++ [')']) name args_str [] := by
    obtain ⟨ht, hne, hno, hbal⟩ := hcall
    refine ⟨?_, hne, hno, hbal⟩
    rw [trim_split (name ++ '(' :: args_str) [] ')' (by decide)]
    have hd : (name ++ '(' :: args_str).dropWhile is_trim_char = name ++ '(' :: args_str := by
      cases name with
      | nil => exact absurd rfl hne
      | cons a as =>
        have ha : is_trim_char a = false := trim_head expr a (by rw [ht]; rfl)
        rw [List.cons_append, List.dropWhile_cons, if_neg (by rw [ha]; decide)]
    rw [hd]
    rfl
  rw [evaluate_call root expr name args_str tail hcall,
    evaluate_call root _ name args_str [] h2]

/-- C22 on the test document: `sum(a.b[5]) + a.b[2]` gives 30, the result of `sum(a.b[5])`;
also an unbalanced or meaningless text after the call is ignored. -/
theorem C22_tail_ignored_witness :
    Spec.Call (str "sum(a.b[5]) + a.b[2]") (str "sum") (str "a.b[5]") (str " + a.b[2]")
      ∧ evaluate test_json (str "sum(a.b[5]) + a.b[2]")
          = evaluate test_json (str "sum" ++ '(' :: str "a.b[5]" ++ [')'])
      ∧ evaluate test_json (str "sum(a.b[5])") = .ok (num 30)
      ∧ evaluate test_json (str "sum(a.b[5]) + a.b[2]") = .ok (num 30)
      ∧ evaluate test_json (str " sum(a.b[5])) ?? (") = .ok (num 30) :=
  ⟨by decide,
    C22_tail_ignored test_json (str "sum(a.b[5]) + a.b[2]") (str "sum") (str "a.b[5]")
      (str " + a.b[2]") (by decide),
    by decide, by decide, by decide⟩

/-! ## The short circuit of the logical operators -/

theorem depth_append (a b : List Char) :
    Spec.depth (a ++ b) = Spec.depth a + Spec.depth b := by
  simp only [Spec.depth, List.count_append]
  push_cast
  ring

theorem depth_singleton (c : Char) (h1 : c ≠ '(') (h2 : c ≠ ')') : Spec.depth [c] = 0 := by
  rw [depth_cons, if_neg h1, if_neg h2]
  rfl

theorem parse_arguments_loop_ne_nil (cs : List Char) (d : Int) (cur : List Char) :
    parse_arguments_loop cs d cur ≠ [] := by
  induction cs generalizing d cur with
  | nil => simp [parse_arguments_loop]
  | cons c cs ih =>
    simp only [parse_arguments_loop]
    split
    · exact ih _ _
    · split
      · exact ih _ _
      · split
        · simp
        · exact ih _ _

theorem intercalate_cons_of_ne_nil (sep x : List Char) (l : List (List Char)) (h : l ≠ []) :
    sep.intercalate (x :: l) = x ++ sep ++ sep.intercalate l := by
  cases l with
  | nil => exact absurd rfl h
  | cons y ys => exact intercalate_cons_cons sep x y ys

/-- Joining the pieces with commas gives back the text. -/
theorem parse_arguments_loop_join (cs : List Char) :
    ∀ (d : Int) (cur : List Char),
      [','].intercalate (parse_arguments_loop cs d cur) = cur ++ cs := by
  induction cs with
  | nil => intro d cur; simp [parse_arguments_loop, List.intercalate]
  | cons c cs ih =>
    intro d cur
    simp only [parse_arguments_loop]
    by_cases h1 : c = '('
    · rw [if_pos h1, ih]; simp
    · rw [if_neg h1]
      by_cases h2 : c = ')'
      · rw [if_pos h2, ih]; simp
      · rw [if_neg h2]
        by_cases h3 : c = ',' ∧ d = 0
        · rw [if_pos h3, intercalate_cons_of_ne_nil _ _ _ (parse_arguments_loop_ne_nil _ _ _),
            ih, h3.1]
          simp
        · rw [if_neg h3, ih]; simp

/-- The commas at depth zero behind a text of depth `d`, counted on the remaining text. -/
theorem countP_inits_cons (c : Char) (cs : List Char) (d : Int) :
    (c :: cs).inits.countP
        (fun pre => decide (d + Spec.depth pre = 0) && (pre ++ [',']).isPrefixOf (c :: cs))
      = (if c = ',' ∧ d = 0 then 1 else 0)
        + cs.inits.countP (fun pre =>
            decide (d + ((if c = '(' then 1 else 0) - (if c = ')' then 1 else 0))
              + Spec.depth pre = 0) && (pre ++ [',']).isPrefixOf cs) := by
  rw [List.inits_cons, List.countP_cons, List.countP_map]
  have e1 : (decide (d + Spec.depth [] = 0) && ([] ++ [',']).isPrefixOf (c :: cs)) = true
      ↔ c = ',' ∧ d = 0 := by
    simp only [Spec.depth, List.count_nil, List.nil_append, List.isPrefixOf,
      Bool.and_true, Bool.and_eq_true, decide_eq_true_eq, beq_iff_eq]
    constructor
    · rintro ⟨h1, h2⟩; exact ⟨h2.symm, by omega⟩
    · rintro ⟨h1, h2⟩; exact ⟨by omega, h1.symm⟩
  have e2 : ((fun pre => decide (d + Spec.depth pre = 0)
        && (pre ++ [',']).isPrefixOf (c :: cs)) ∘ fun t => c :: t)
      = fun pre => decide (d + ((if c = '(' then 1 else 0) - (if c = ')' then 1 else 0))
        + Spec.depth pre = 0) && (pre ++ [',']).isPrefixOf cs := by
    funext pre
    simp only [Function.comp, depth_cons, List.cons_append, List.isPrefixOf, beq_self_eq_true,
      Bool.true_and]
    congr 2
    apply propext
    constructor <;> intro h <;> omega
  rw [e2]
  by_cases h : c = ',' ∧ d = 0
  · rw [if_pos (e1.2 h), if_pos h]; omega
  · rw [if_neg (fun hh => h (e1.1 hh)), if_neg h]; omega

theorem parse_arguments_loop_count (cs : List Char) :
    ∀ (d : Int) (cur : List Char),
      (parse_arguments_loop cs d cur).length
        = cs.inits.countP (fun pre =>
            decide (d + Spec.depth pre = 0) && (pre ++ [',']).isPrefixOf cs) + 1 := by
  induction cs with
  | nil =>
    intro d cur
    simp [parse_arguments_loop, List.isPrefixOf]
  | cons c cs ih =>
    intro d cur
    rw [countP_inits_cons]
    simp only [parse_arguments_loop]
    by_cases h1 : c = '('
    · subst h1
      rw [if_pos rfl, ih, if_neg (fun h => absurd h.1 (by decide))]
      simp
    · rw [if_neg h1]
      by_cases h2 : c = ')'
      · subst h2
        rw [if_pos rfl, ih, if_neg (fun h => absurd h.1 (by decide))]
        simp
        rfl
      · rw [if_neg h2]
        by_cases h3 : c = ',' ∧ d = 0
        · rw [if_pos h3, if_pos h3, List.length_cons, ih]
          simp only [if_neg h1, if_neg h2, sub_self, add_zero]
          omega
        · rw [if_neg h3, if_neg h3, ih]
          simp only [if_neg h1, if_neg h2, sub_self, add_zero, zero_add]

theorem concat_eq_comma (cur pre post : List Char) (c : Char)
    (h : cur ++ [c] = pre ++ ',' :: post) :
    (c = ',' ∧ pre = cur) ∨ ∃ post', cur = pre ++ ',' :: post' := by
  rcases List.eq_nil_or_concat post with hp | ⟨init, last, hp⟩
  · subst hp
    have := List.append_inj' h rfl
    exact Or.inl ⟨by simpa using this.2, this.1.symm⟩
  · subst hp
    have e : pre ++ ',' :: (init ++ [last]) = (pre ++ ',' :: init) ++ [last] := by simp
    rw [List.concat_eq_append, e] at h
    exact Or.inr ⟨init, (List.append_inj' h rfl).1⟩

theorem lead_cons (b : List Char) (before : List (List Char)) :
    Spec.lead (b :: before) = b ++ [','] ++ Spec.lead before := by
  simp [Spec.lead]

/-- Every comma at which the text is split is at depth zero, and no comma inside a piece
is. -/
theorem parse_arguments_loop_pieces (cs : List Char) :
    ∀ (o d : Int) (cur : List Char), d = o + Spec.depth cur →
      (∀ pre post, cur = pre ++ ',' :: post → o + Spec.depth pre ≠ 0) →
      ∀ (before : List (List Char)) (piece : List Char) (after : List (List Char)),
        parse_arguments_loop cs d cur = before ++ piece :: after →
        (after ≠ [] → o + Spec.depth (Spec.lead before ++ piece) = 0)
          ∧ (∀ pre post, piece = pre ++ ',' :: post →
              o + Spec.depth (Spec.lead before ++ pre) ≠ 0) := by
  induction cs with
  | nil =>
    intro o d cur _ hinv before piece after h
    simp only [parse_arguments_loop] at h
    cases before with
    | nil =>
      simp only [List.nil_append, List.cons.injEq] at h
      obtain ⟨h1, h2⟩ := h
      subst h1
      refine ⟨fun hne => absurd h2.symm hne, fun pre post hp => ?_⟩
      simpa [Spec.lead] using hinv pre post hp
    | cons b bs =>
      simp only [List.cons_append, List.cons.injEq] at h
      have := h.2
      cases bs <;> simp at this
  | cons c cs ih =>
    intro o d cur hd hinv before piece after h
    simp only [parse_arguments_loop] at h
    have hstep : ∀ d' : Int, d' = d + Spec.depth [c] → ¬ (c = ',' ∧ d = 0) →
        parse_arguments_loop cs d' (cur ++ [c]) = before ++ piece :: after →
        (after ≠ [] → o + Spec.depth (Spec.lead before ++ piece) = 0)
          ∧ (∀ pre post, piece = pre ++ ',' :: post →
              o + Spec.depth (Spec.lead before ++ pre) ≠ 0) := by
      intro d' hd' hns h'
      apply ih o d' (cur ++ [c]) (by rw [depth_append]; omega) ?_ before piece after h'
      intro pre post hp
      rcases concat_eq_comma cur pre post c hp with ⟨hc, hpre⟩ | ⟨post', hcur⟩
      · subst hpre
        intro hz
        exact hns ⟨hc, by omega⟩
      · exact hinv pre post' hcur
    by_cases h1 : c = '('
    · rw [if_pos h1] at h
      exact hstep (d + 1) (by rw [h1]; rfl) (fun hh => by rw [h1] at hh; exact absurd hh.1 (by decide)) h
    · rw [if_neg h1] at h
      by_cases h2 : c = ')'
      · rw [if_pos h2] at h
        exact hstep (d - 1) (by rw [h2]; rfl)
          (fun hh => by rw [h2] at hh; exact absurd hh.1 (by decide)) h
      · rw [if_neg h2] at h
        by_cases h3 : c = ',' ∧ d = 0
        · rw [if_pos h3] at h
          cases before with
          | nil =>
            simp only [List.nil_append, List.cons.injEq] at h
            obtain ⟨e1, e2⟩ := h
            subst e1
            refine ⟨fun _ => ?_, fun pre post hp => ?_⟩
            · simp only [Spec.lead, List.map_nil, List.flatten_nil, List.nil_append]
              omega
            · simpa [Spec.lead] using hinv pre post hp
          | cons b bs =>
            simp only [List.cons_append, List.cons.injEq] at h
            obtain ⟨e1, e2⟩ := h
            subst e1
            have hcomma : Spec.depth [','] = 0 := rfl
            have hnil : Spec.depth [] = 0 := rfl
            have := ih (o + Spec.depth (cur ++ [','])) d [] (by
              rw [depth_append, hcomma, hnil]
              omega) (by
              intro pre post hp
              cases pre <;> simp at hp) bs piece after e2
            constructor
            · intro hne
              have h4 := this.1 hne
              rw [lead_cons, List.append_assoc, depth_append]
              omega
            · intro pre post hp
              have h4 := this.2 pre post hp
              rw [lead_cons, List.append_assoc, depth_append]
              omega
        · rw [if_neg h3] at h
          exact hstep d (by rw [depth_singleton c h1 h2]; omega) h3 h

/-- C21: for every argument text `s`, joining the pieces of `parse_arguments s` with commas
gives `s` back; the number of pieces is one more than the number of commas of `s` at
parenthesis depth zero, so that there is always at least one piece and the empty text has the
one empty piece; every comma at which `s` is split is at depth zero, so a comma inside a
nested `(...)` is no split point; and no comma inside a piece is at depth zero. -/
theorem C21_parse_arguments (s : List Char) :
    [','].intercalate (parse_arguments s) = s
      ∧ (parse_arguments s).length = Spec.depth_zero_commas s + 1
      ∧ parse_arguments [] = [[]]
      ∧ (∀ (before : List (List Char)) (piece : List Char) (after : List (List Char)),
          parse_arguments s = before ++ piece :: after → after ≠ [] →
          Spec.depth (Spec.lead before ++ piece) = 0)
      ∧ (∀ (before : List (List Char)) (pre post : List Char) (after : List (List Char)),
          parse_arguments s = before ++ (pre ++ ',' :: post) :: after →
          Spec.depth (Spec.lead before ++ pre) ≠ 0) := by
  have hp := parse_arguments_loop_pieces s 0 0 [] rfl (by
    intro pre post hp
    cases pre <;> simp at hp)
  refine ⟨?_, ?_, rfl, ?_, ?_⟩
  · have := parse_arguments_loop_join s 0 []
    simpa [parse_arguments] using this
  · have := parse_arguments_loop_count s 0 []
    simpa [parse_arguments, Spec.depth_zero_commas] using this
  · intro before piece after h hne
    have := (hp before piece after h).1 hne
    omega
  · intro before pre post after h
    have := (hp before (pre ++ ',' :: post) after h).2 pre post rfl
    omega

/-- C21 on the text `a, max(b, c), d`: three pieces, split at the two commas outside the
parentheses. -/
theorem C21_parse_arguments_witness :
    parse_arguments (str "a, max(b, c), d") = [str "a", str " max(b, c)", str " d"]
      ∧ Spec.depth_zero_commas (str "a, max(b, c), d") = 2
      ∧ (parse_arguments (str "a, max(b, c), d")).length
          = Spec.depth_zero_commas (str "a, max(b, c), d") + 1
      ∧ [','].intercalate (parse_arguments (str "a, max(b, c), d")) = str "a, max(b, c), d"
      ∧ Spec.depth (Spec.lead [str "a"] ++ str " max(b, c)") = 0 :=
  ⟨by decide, by decide, (C21_parse_arguments (str "a, max(b, c), d")).2.1,
    (C21_parse_arguments (str "a, max(b, c), d")).1,
    (C21_parse_arguments (str "a, max(b, c), d")).2.2.2.1 [str "a"] (str " max(b, c)")
      [str " d"] (by decide) (by decide)⟩

/-! ## Termination of `evaluate_expression`

The value `fuel_exhausted` marks a recursion that did not come to an end within its bound.
No function of the evaluator produces it, as long as the recursive calls on shorter texts do
not. -/

theorem stoul_ne_exhausted (s : List Char) : stoul s ≠ .error .fuel_exhausted := by
  intro h
  unfold stoul at h
  simp only [] at h
  split at h
  · cases h
  · split at h
    · cases h
    · cases h

theorem get_value_ne_exhausted {D : Type} [Double D] (current : JSONValue D)
    (key : List Char) : get_value current key ≠ .error .fuel_exhausted := by
  intro h
  cases current with
  | object o =>
    simp only [get_value] at h
    cases hf : JSONObject.find o key with
    | none => rw [hf] at h; cases h
    | some v => rw [hf] at h; cases h
  | array a =>
    simp only [get_value] at h
    cases hs : stoul key with
    | ok idx =>
      rw [hs] at h
      simp only at h
      cases hg : a.get? idx with
      | none => rw [hg] at h; cases h
      | some v => rw [hg] at h; cases h
    | error e =>
      rw [hs] at h
      cases e with
      | fuel_exhausted => exact stoul_ne_exhausted key hs
      | JSONError k m => cases h
      | EvalError k m => cases h
      | out_of_range => cases h
      | invalid_argument => cases h
      | undefined_behavior => cases h
  | null => cases h
  | bool b => cases h
  | number d => cases h
  | string s => cases h

/-- The loop of the path resolution ends within `rest.length + 1` turns. -/
theorem evaluate_json_path_loop_ne_exhausted {D : Type} [Double D] (fuel : Nat) :
    ∀ (current : JSONValue D) (rest : List Char), rest.length < fuel →
      evaluate_json_path_loop fuel current rest ≠ .error .fuel_exhausted := by
  induction fuel with
  | zero => intro current rest h; omega
  | succ n ih =>
    intro current rest hlen h
    cases rest with
    | nil => simp only [evaluate_json_path_loop] at h; cases h
    | cons c r =>
      simp only [evaluate_json_path_loop] at h
      simp only [List.length_cons] at hlen
      by_cases c1 : c = '.'
      · rw [if_pos c1] at h
        split at h
        · cases h
        · cases hg : get_value current (r.takeWhile is_ident_char) with
          | error e =>
            rw [hg] at h
            simp only at h
            cases h
            exact get_value_ne_exhausted _ _ hg
          | ok v =>
            rw [hg] at h
            simp only at h
            have := dropWhile_length_le is_ident_char r
            exact ih v _ (by omega) h
      · rw [if_neg c1] at h
        by_cases c2 : c = '['
        · rw [if_pos c2] at h
          cases hd : r.dropWhile (fun x => decide (x ≠ ']')) with
          | nil => rw [hd] at h; simp only at h; cases h
          | cons a r2 =>
            rw [hd] at h
            simp only at h
            have hl := dropWhile_length_le (fun x => decide (x ≠ ']')) r
            rw [hd, List.length_cons] at hl
            split at h
            · cases hs : stoul (r.takeWhile (fun x => decide (x ≠ ']'))) with
              | error e =>
                rw [hs] at h
                simp only at h
                cases h
                exact stoul_ne_exhausted _ hs
              | ok idx =>
                rw [hs] at h
                simp only at h
                cases current with
                | array arr =>
                  simp only at h
                  cases hg : arr.get? idx with
                  | none => rw [hg] at h; cases h
                  | some v =>
                    rw [hg] at h
                    exact ih v r2 (by omega) h
                | null => cases h
                | bool b => cases h
                | number d => cases h
                | string s => cases h
                | object o => cases h
            · cases h
        · rw [if_neg c2] at h
          cases h

theorem evaluate_json_path_ne_exhausted {D : Type} [Double D] (root : JSONValue D)
    (path : List Char) : evaluate_json_path root path ≠ .error .fuel_exhausted := by
  intro h
  unfold evaluate_json_path at h
  simp only [] at h
  cases hg : get_value root (path.takeWhile is_ident_char) with
  | error e =>
    rw [hg] at h
    simp only at h
    cases h
    exact get_value_ne_exhausted _ _ hg
  | ok v =>
    rw [hg] at h
    simp only at h
    exact evaluate_json_path_loop_ne_exhausted _ v _ (Nat.lt_succ_self _) h

theorem min_items_ne_exhausted {D : Type} [Double D] (a : List (JSONValue D)) (acc : D) :
    min_items acc a ≠ .error .fuel_exhausted := by
  induction a generalizing acc with
  | nil => intro h; cases h
  | cons x xs ih =>
    cases x with
    | number d => simp only [min_items]; exact ih _
    | _ => intro h; cases h

theorem max_items_ne_exhausted {D : Type} [Double D] (a : List (JSONValue D)) (acc : D) :
    max_items acc a ≠ .error .fuel_exhausted := by
  induction a generalizing acc with
  | nil => intro h; cases h
  | cons x xs ih =>
    cases x with
    | number d => simp only [max_items]; exact ih _
    | _ => intro h; cases h

theorem sum_items_ne_exhausted {D : Type} [Double D] (a : List (JSONValue D)) (acc : D) :
    sum_items acc a ≠ .error .fuel_exhausted := by
  induction a generalizing acc with
  | nil => intro h; cases h
  | cons x xs ih =>
    cases x with
    | number d => simp only [sum_items]; exact ih _
    | _ => intro h; cases h

theorem avg_items_ne_exhausted {D : Type} [Double D] (a : List (JSONValue D))
    (acc : D × Int) : avg_items acc a ≠ .error .fuel_exhausted := by
  induction a generalizing acc with
  | nil => intro h; cases acc; cases h
  | cons x xs ih =>
    obtain ⟨s, n⟩ := acc
    cases x with
    | number d => simp only [avg_items]; exact ih _
    | _ => intro h; cases h

theorem min_collect_ne_exhausted {D : Type} [Double D]
    (ev : List Char → Result (JSONValue D)) (args : List (List Char))
    (hev : ∀ a ∈ args, ev a ≠ .error .fuel_exhausted) (acc : D) :
    min_collect ev acc args ≠ .error .fuel_exhausted := by
  induction args generalizing acc with
  | nil => intro h; cases h
  | cons a as ih =>
    have ih2 := ih (fun b hb => hev b (List.mem_cons_of_mem _ hb))
    intro h
    simp only [min_collect] at h
    cases hv : ev a with
    | error e => rw [hv] at h; simp only at h; cases h; exact hev a (List.mem_cons_self _ _) hv
    | ok v =>
      rw [hv] at h
      cases v with
      | number d => exact ih2 _ h
      | array l =>
        simp only at h
        cases hi : min_items acc l with
        | error e => rw [hi] at h; simp only at h; cases h; exact min_items_ne_exhausted _ _ hi
        | ok m => rw [hi] at h; exact ih2 _ h
      | null => cases h
      | bool b => cases h
      | string s => cases h
      | object o => cases h

theorem max_collect_ne_exhausted {D : Type} [Double D]
    (ev : List Char → Result (JSONValue D)) (args : List (List Char))
    (hev : ∀ a ∈ args, ev a ≠ .error .fuel_exhausted) (acc : D) :
    max_collect ev acc args ≠ .error .fuel_exhausted := by
  induction args generalizing acc with
  | nil => intro h; cases h
  | cons a as ih =>
    have ih2 := ih (fun b hb => hev b (List.mem_cons_of_mem _ hb))
    intro h
    simp only [max_collect] at h
    cases hv : ev a with
    | error e => rw [hv] at h; simp only at h; cases h; exact hev a (List.mem_cons_self _ _) hv
    | ok v =>
      rw [hv] at h
      cases v with
      | number d => exact ih2 _ h
      | array l =>
        simp only at h
        cases hi : max_items acc l with
        | error e => rw [hi] at h; simp only at h; cases h; exact max_items_ne_exhausted _ _ hi
        | ok m => rw [hi] at h; exact ih2 _ h
      | null => cases h
      | bool b => cases h
      | string s => cases h
      | object o => cases h

theorem sum_collect_ne_exhausted {D : Type} [Double D]
    (ev : List Char → Result (JSONValue D)) (args : List (List Char))
    (hev : ∀ a ∈ args, ev a ≠ .error .fuel_exhausted) (acc : D) :
    sum_collect ev acc args ≠ .error .fuel_exhausted := by
  induction args generalizing acc with
  | nil => intro h; cases h
  | cons a as ih =>
    have ih2 := ih (fun b hb => hev b (List.mem_cons_of_mem _ hb))
    intro h
    simp only [sum_collect] at h
    cases hv : ev a with
    | error e => rw [hv] at h; simp only at h; cases h; exact hev a (List.mem_cons_self _ _) hv
    | ok v =>
      rw [hv] at h
      cases v with
      | number d => exact ih2 _ h
      | array l =>
        simp only at h
        cases hi : sum_items acc l with
        | error e => rw [hi] at h; simp only at h; cases h; exact sum_items_ne_exhausted _ _ hi
        | ok m => rw [hi] at h; exact ih2 _ h
      | null => cases h
      | bool b => cases h
      | string s => cases h
      | object o => cases h

theorem avg_collect_ne_exhausted {D : Type} [Double D]
    (ev : List Char → Result (JSONValue D)) (args : List (List Char))
    (hev : ∀ a ∈ args, ev a ≠ .error .fuel_exhausted) (acc : D × Int) :
    avg_collect ev acc args ≠ .error .fuel_exhausted := by
  induction args generalizing acc with
  | nil => intro h; cases acc; cases h
  | cons a as ih =>
    have ih2 := ih (fun b hb => hev b (List.mem_cons_of_mem _ hb))
    obtain ⟨s, n⟩ := acc
    intro h
    simp only [avg_collect] at h
    cases hv : ev a with
    | error e => rw [hv] at h; simp only at h; cases h; exact hev a (List.mem_cons_self _ _) hv
    | ok v =>
      rw [hv] at h
      cases v with
      | number d => exact ih2 _ h
      | array l =>
        simp only at h
        cases hi : avg_items (s, n) l with
        | error e => rw [hi] at h; simp only at h; cases h; exact avg_items_ne_exhausted _ _ hi
        | ok m => rw [hi] at h; exact ih2 _ h
      | null => cases h
      | bool b => cases h
      | string s => cases h
      | object o => cases h

theorem evaluate_function_ne_exhausted {D : Type} [Double D]
    (ev : List Char → Result (JSONValue D)) (func_name : List Char)
    (args : List (List Char)) (hev : ∀ a ∈ args, ev a ≠ .error .fuel_exhausted) :
    evaluate_function ev func_name args ≠ .error .fuel_exhausted := by
  intro h
  unfold evaluate_function at h
  split at h
  · cases hc : min_collect ev (Double.infinity : D) args with
    | error e => rw [hc] at h; cases h; exact min_collect_ne_exhausted ev args hev _ hc
    | ok m => rw [hc] at h; simp only at h; split at h <;> cases h
  split at h
  · cases hc : max_collect ev (Double.neg (Double.infinity : D)) args with
    | error e => rw [hc] at h; cases h; exact max_collect_ne_exhausted ev args hev _ hc
    | ok m => rw [hc] at h; simp only at h; split at h <;> cases h
  split at h
  · cases args with
    | nil => cases h
    | cons a as =>
      cases as with
      | cons b bs => cases h
      | nil =>
        simp only at h
        cases hv : ev a with
        | error e => rw [hv] at h; cases h; exact hev a (List.mem_singleton_self _) hv
        | ok v => rw [hv] at h; cases v <;> cases h
  split at h
  · cases hc : sum_collect ev (Double.zero : D) args with
    | error e => rw [hc] at h; cases h; exact sum_collect_ne_exhausted ev args hev _ hc
    | ok m => rw [hc] at h; cases h
  split at h
  · cases hc : avg_collect ev ((Double.zero : D), 0) args with
    | error e => rw [hc] at h; cases h; exact avg_collect_ne_exhausted ev args hev _ hc
    | ok m =>
      rw [hc] at h
      obtain ⟨s, n⟩ := m
      simp only at h
      split at h <;> cases h
  split at h
  · cases args with
    | nil => cases h
    | cons a as =>
      cases as with
      | cons b bs => cases h
      | nil =>
        simp only at h
        cases hv : ev a with
        | error e => rw [hv] at h; cases h; exact hev a (List.mem_singleton_self _) hv
        | ok v => rw [hv] at h; cases v <;> cases h
  split at h
  · cases args with
    | nil => cases h
    | cons a as =>
      cases as with
      | cons b bs => cases h
      | nil =>
        simp only at h
        cases hv : ev a with
        | error e => rw [hv] at h; cases h; exact hev a (List.mem_singleton_self _) hv
        | ok v => rw [hv] at h; cases v <;> cases h
  split at h
  · cases args with
    | nil => cases h
    | cons a as =>
      cases as with
      | cons b bs => cases h
      | nil =>
        simp only at h
        cases hv : ev a with
        | error e => rw [hv] at h; cases h; exact hev a (List.mem_singleton_self _) hv
        | ok v => rw [hv] at h; cases v <;> cases h
  · cases h

theorem find_matching_bracket_loop_ne_exhausted (s : List Char) :
    ∀ (d : Int) (i : Nat), find_matching_bracket_loop s d i ≠ .error .fuel_exhausted := by
  induction s with
  | nil => intro d i h; cases h
  | cons c cs ih =>
    intro d i h
    simp only [find_matching_bracket_loop] at h
    by_cases h0 : (if c = '(' then d + 1 else if c = ')' then d - 1 else d) = 0
    · rw [if_pos h0] at h; cases h
    · rw [if_neg h0] at h; exact ih _ _ h

theorem pow_op_ne_exhausted {D : Type} [Double D] (l r : JSONValue D) :
    pow_op l r ≠ .error .fuel_exhausted := by
  intro h
  cases l <;> cases r <;> cases h

theorem and_op_ne_exhausted {D : Type} [Double D] (l r : JSONValue D) :
    and_op l r ≠ .error .fuel_exhausted := by
  intro h
  unfold and_op at h
  cases l <;> simp only [JSONValue.as_number] at h <;> try cases h
  split at h
  · cases r <;> simp only [JSONValue.as_number] at h <;> cases h
  · cases h

theorem or_op_ne_exhausted {D : Type} [Double D] (l r : JSONValue D) :
    or_op l r ≠ .error .fuel_exhausted := by
  intro h
  unfold or_op at h
  cases l <;> simp only [JSONValue.as_number] at h <;> try cases h
  split at h
  · cases h
  · cases r <;> simp only [JSONValue.as_number] at h <;> cases h

theorem mod_op_ne_exhausted {D : Type} [Double D] (l r : JSONValue D) :
    mod_op l r ≠ .error .fuel_exhausted := by
  intro h
  cases l with
  | number a =>
    cases r with
    | number b =>
      simp only [mod_op] at h
      cases h1 : (Double.toInt a : Option Int) with
      | none => rw [h1] at h; simp only at h; cases h
      | some x =>
        cases h2 : (Double.toInt b : Option Int) with
        | none => rw [h1, h2] at h; simp only at h; cases h
        | some y =>
          rw [h1, h2] at h
          simp only [int_rem] at h
          by_cases hc : y = 0 ∨ (x = INT_MIN ∧ y = -1)
          · rw [if_pos hc] at h; cases h
          · rw [if_neg hc] at h; cases h
    | _ => cases h
  | _ => cases h

theorem arith_op_ne_exhausted {D : Type} [Double D] (op : Char) (l r : JSONValue D) :
    arith_op op l r ≠ .error .fuel_exhausted := by
  intro h
  unfold arith_op at h
  split at h
  · split at h
    · cases h
    · split at h
      · cases h
      · split at h
        · cases h
        · split at h
          · split at h <;> cases h
          · cases h
  · cases h

theorem eval_sides_ne_exhausted {D T : Type} (ev : List Char → Result (JSONValue D))
    (l r : List Char) (op : JSONValue D → JSONValue D → Result T)
    (hl : ev l ≠ .error .fuel_exhausted) (hr : ev r ≠ .error .fuel_exhausted)
    (hop : ∀ a b, op a b ≠ .error .fuel_exhausted) :
    eval_sides ev l r op ≠ .error .fuel_exhausted := by
  intro h
  unfold eval_sides at h
  cases h1 : ev l with
  | error e => rw [h1] at h; cases h; exact hl h1
  | ok a =>
    rw [h1] at h
    simp only at h
    cases h2 : ev r with
    | error e => rw [h2] at h; cases h; exact hr h2
    | ok b => rw [h2] at h; exact hop a b h

theorem evaluate_operators_ne_exhausted {D : Type} [Double D] (root : JSONValue D)
    (ev : List Char → Result (JSONValue D)) (expr trimmed_expr : List Char)
    (hev : ∀ s : List Char, s.length < expr.length → ev s ≠ .error .fuel_exhausted) :
    evaluate_operators root ev expr trimmed_expr ≠ .error .fuel_exhausted := by
  unfold evaluate_operators
  split
  · next pos hpos =>
    have hlt := find_str_lt (by decide) hpos
    exact eval_sides_ne_exhausted _ _ _ _ (hev _ (split_left_lt hlt))
      (hev _ (split_right_lt hlt 1)) pow_op_ne_exhausted
  split
  · next pos hpos =>
    have hlt := find_str_lt (by decide) hpos
    exact eval_sides_ne_exhausted _ _ _ _ (hev _ (split_left_lt hlt))
      (hev _ (split_right_lt hlt 1)) and_op_ne_exhausted
  split
  · next pos hpos =>
    have hlt := find_str_lt (by decide) hpos
    exact eval_sides_ne_exhausted _ _ _ _ (hev _ (split_left_lt hlt))
      (hev _ (split_right_lt hlt 1)) or_op_ne_exhausted
  split
  · next pos hpos =>
    have hlt := find_char_lt hpos
    exact eval_sides_ne_exhausted _ _ _ _ (hev _ (split_left_lt hlt))
      (hev _ (split_right_lt hlt 0)) mod_op_ne_exhausted
  split
  · next pos hpos =>
    have hlt := find_first_of_lt hpos
    have hs := eval_sides_ne_exhausted ev (substr expr 0 pos) (expr.drop (pos + 1))
      (arith_op (expr.getD pos ' ')) (hev _ (split_left_lt hlt))
      (hev _ (split_right_lt hlt 0)) (arith_op_ne_exhausted _)
    intro h
    cases he : eval_sides ev (substr expr 0 pos) (expr.drop (pos + 1))
        (arith_op (expr.getD pos ' ')) with
    | error e => rw [he] at h; simp only at h; cases h; exact hs he
    | ok o =>
      rw [he] at h
      cases o with
      | some v => cases h
      | none => exact evaluate_json_path_ne_exhausted root _ h
  · exact evaluate_json_path_ne_exhausted root _

/-- The body of `evaluate_expression` comes to an end if its recursive calls on the texts
that are strictly shorter than the expression do; no other call is made. -/
theorem evaluate_expression_body_ne_exhausted {D : Type} [Double D] (root : JSONValue D)
    (ev : List Char → Result (JSONValue D)) (expr : List Char)
    (hev : ∀ s : List Char, s.length < expr.length → ev s ≠ .error .fuel_exhausted) :
    evaluate_expression_body root ev expr ≠ .error .fuel_exhausted := by
  unfold evaluate_expression_body
  simp only
  split
  · next func_pos hf =>
    split
    · next e he =>
      intro h
      cases h
      exact find_matching_bracket_loop_ne_exhausted _ _ _ he
    · next end_pos _ =>
      exact evaluate_function_ne_exhausted _ _ _
        (fun a ha => hev a (call_args_lt expr func_pos end_pos hf a ha))
  · exact evaluate_operators_ne_exhausted root ev expr _ hev

theorem evaluate_ne_exhausted {D : Type} [Double D] (root : JSONValue D) :
    ∀ (n : Nat) (expr : List Char), expr.length < n →
      evaluate root expr ≠ .error .fuel_exhausted := by
  intro n
  induction n with
  | zero => intro expr h; omega
  | succ n ih =>
    intro expr hlen
    rw [evaluate_unfold]
    apply evaluate_expression_body_ne_exhausted
    intro s hs
    exact ih s (by omega)

/-- C24: for every root and every expression, `evaluate` comes to an end with a Value or
with an error of the program: the bound of the recursion is never reached, and every bound
above the length of the expression gives the same outcome.  The reason is that the body of
`evaluate_expression` makes its recursive calls, on the two sides of an operator and on the
arguments of a call, only on texts strictly shorter than the expression: it comes to an end
whenever the calls on shorter texts do, and its outcome depends on them only. -/
theorem C24_terminates {D : Type} [Double D] (root : JSONValue D) (expr : List Char) :
    ((∃ v, evaluate root expr = .ok v)
        ∨ ∃ e, evaluate root expr = .error e ∧ e ≠ .fuel_exhausted)
      ∧ (∀ fuel, expr.length < fuel → evaluate_expression root fuel expr = evaluate root expr)
      ∧ evaluate root expr = evaluate_expression_body root (evaluate root) expr
      ∧ (∀ ev : List Char → Result (JSONValue D),
          (∀ s : List Char, s.length < expr.length → ev s ≠ .error .fuel_exhausted) →
          evaluate_expression_body root ev expr ≠ .error .fuel_exhausted)
      ∧ (∀ ev1 ev2 : List Char → Result (JSONValue D),
          (∀ s : List Char, s.length < expr.length → ev1 s = ev2 s) →
          evaluate_expression_body root ev1 expr = evaluate_expression_body root ev2 expr) := by
  refine ⟨?_, ?_, evaluate_unfold root expr,
    fun ev hev => evaluate_expression_body_ne_exhausted root ev expr hev,
    fun ev1 ev2 h => evaluate_expression_body_congr root expr h⟩
  · have hne := evaluate_ne_exhausted root (expr.length + 1) expr (Nat.lt_succ_self _)
    cases h : evaluate root expr with
    | ok v => exact Or.inl ⟨v, rfl⟩
    | error e =>
      refine Or.inr ⟨e, rfl, ?_⟩
      intro he
      rw [he] at h
      exact hne h
  · intro fuel hf
    exact evaluate_expression_fuel root fuel (expr.length + 1) expr hf (Nat.lt_succ_self _)

/-- C24 on the test document: the nested expression `max(a.b[3], sum(a.b[5]) % a.b[4])` has a
value, also with a bound of the recursion far above its length. -/
theorem C24_terminates_witness :
    evaluate test_json (str "max(a.b[3], sum(a.b[5]) % a.b[4])") = .ok (num 30)
      ∧ (str "max(a.b[3], sum(a.b[5]) % a.b[4])").length < 1000
      ∧ evaluate_expression test_json 1000 (str "max(a.b[3], sum(a.b[5]) % a.b[4])")
          = evaluate test_json (str "max(a.b[3], sum(a.b[5]) % a.b[4])") :=
  ⟨by decide, by decide,
    (C24_terminates test_json (str "max(a.b[3], sum(a.b[5]) % a.b[4])")).2.1 1000
      (by decide)⟩

end JsonEval
